import Mathlib

/-!
# Buddy memory allocator (`buddy.c`)

A shallow embedding of the C functions of `buddy.c` and a verification
development about them.

Memory is a map from addresses to block headers; `NULL` is address `0`.
Every C statement that dereferences a pointer becomes a `load` or a field
write that faults on `NULL`; `assert`, an out-of-range shift and an
out-of-range index of `flists` are faults as well; an access to memory that
is not mapped is not.  A header is one cell of the map, which is the
memory of the program as long as headers do not overlap: they do not from
level 1 on, a block of level 0 being the 32 bytes of its header, and the
section on the header as words of memory gives `split` and `merge` for that
level.  The payload bytes of a block are not part of the model.  The
operating system is the list of the mapped pages: the answer of `mmap` is an
argument of the functions that call it, and `munmap` takes a page off the
list.  Loops and recursions carry a fuel argument; a statement that a
function returns is a statement for every fuel from some bound on.
-/

namespace Buddy

/-! ## Constants of `buddy.h` -/

/-- Modelled from the spec: `buddy.h` is not among the sources; the smallest
block has `2^MIN` bytes ("blocks at levels 0..7 corresponding to sizes
32..4096"). -/
def MIN : Nat := 5

/-- Modelled from the spec: `buddy.h` is not among the sources; there are
eight levels, `0..7`. -/
def LEVELS : Nat := 8

/-- Modelled from the spec: `buddy.h` is not among the sources; the top level
is `LEVELS - 1`. -/
def MAX_LEVEL : Nat := 7

/-- Modelled from the spec: `buddy.h` is not among the sources;
`PAGE_SIZE = 4096`. -/
def PAGE : Nat := 4096

/-- Modelled from the spec: `buddy.h` is not among the sources; this is
`sizeof(head)`, `HEADER_SIZE = 32`. -/
def sizeof_head : Nat := 32

/-- Modelled from the spec: `buddy.h` is not among the sources; the status
code of a free block. -/
def STATUS_FREE : Nat := 0

/-- Modelled from the spec: `buddy.h` is not among the sources; the status
code of a used block, different from `STATUS_FREE`. -/
def STATUS_USED : Nat := 1

/-! ## Data model -/

/-- The ways an execution can go wrong. -/
inductive Fault where
  | nullDeref
  | assertFail
  | badShift
  | badIndex
  | outOfFuel
deriving DecidableEq

/-- Modelled from the spec: `buddy.h` is not among the sources; the block
header has a level, a status and the two links of its free list. -/
structure head where
  level : Int
  status : Nat
  next : Nat
  prev : Nat
deriving DecidableEq

/-- The allocator state: the headers in memory, the global `flists` array and
the pages currently mapped by the operating system. -/
structure State where
  mem : Nat → head
  flists : Nat → Nat
  pages : List Nat

/-- An allocator with no page and empty lists, over any memory content. -/
def init (m : Nat → head) : State :=
  { mem := m, flists := fun _ => 0, pages := [] }

/-- Reading through a pointer. -/
def load (s : State) (a : Nat) : Except Fault head :=
  if a = 0 then .error .nullDeref else .ok (s.mem a)

/-- Writing a header through a pointer. -/
def store (s : State) (a : Nat) (h : head) : Except Fault State :=
  if a = 0 then .error .nullDeref else .ok { s with mem := Function.update s.mem a h }

/-- The assignment `a->level = v`. -/
def setLevel (s : State) (a : Nat) (v : Int) : Except Fault State :=
  store s a { s.mem a with level := v }

/-- The assignment `a->status = v`. -/
def setStatus (s : State) (a : Nat) (v : Nat) : Except Fault State :=
  store s a { s.mem a with status := v }

/-- The assignment `a->next = v`. -/
def setNext (s : State) (a : Nat) (v : Nat) : Except Fault State :=
  store s a { s.mem a with next := v }

/-- The assignment `a->prev = v`. -/
def setPrev (s : State) (a : Nat) (v : Nat) : Except Fault State :=
  store s a { s.mem a with prev := v }

/-- Reading `flists[i]`. -/
def getList (s : State) (i : Int) : Except Fault Nat :=
  if 0 ≤ i ∧ i < LEVELS then .ok (s.flists i.toNat) else .error .badIndex

/-- The assignment `flists[i] = v`. -/
def setList (s : State) (i : Int) (v : Nat) : Except Fault State :=
  if 0 ≤ i ∧ i < LEVELS then .ok { s with flists := Function.update s.flists i.toNat v }
  else .error .badIndex

/-- The C expression `1 << k` on a 32-bit `int`. -/
def shl1 (k : Int) : Except Fault Nat :=
  if 0 ≤ k ∧ k < 31 then .ok (2 ^ k.toNat) else .error .badShift

/-! ## The functions of `buddy.c` -/

/-- The function `new`: `os` is the answer of `mmap`, `none` for `MAP_FAILED`. -/
def new (os : Option Nat) (s : State) : Except Fault (Nat × State) :=
  match os with
  | none => .ok (0, s)
  | some ans => do
    let s0 : State := { s with pages := ans :: s.pages }
    let s1 ← setLevel s0 ans MAX_LEVEL
    let s2 ← setStatus s1 ans STATUS_FREE
    let s3 ← setNext s2 ans 0
    let s4 ← setPrev s3 ans 0
    return (ans, s4)

/-- The function `buddy`. -/
def buddy (s : State) (block : Nat) : Except Fault Nat := do
  let b ← load s block
  if b.level = MAX_LEVEL then
    return block
  else
    let differentiatingBit ← shl1 (b.level + MIN)
    return block ^^^ differentiatingBit

/-- The function `split`.  From level 1 on the new header starts past the
header of `block`; at level 0 it would start inside it, see `Words.split`. -/
def split (s : State) (block : Nat) : Except Fault (Nat × State) := do
  let b ← load s block
  let halfSize ← shl1 (b.level + MIN - 1)
  let newPtr := block ^^^ halfSize
  let s1 ← setLevel s block (b.level - 1)
  let b1 ← load s1 block
  let s2 ← setLevel s1 newPtr b1.level
  let b2 ← load s2 block
  let s3 ← setStatus s2 newPtr b2.status
  return (newPtr, s3)

/-- The function `primary`: `block & ~halfSize`, where the complement of
`halfSize`, sign-extended to the 64 bits of a `long long`, is the word
`2^64 - 1 - halfSize`. -/
def primary (s : State) (block : Nat) : Except Fault Nat := do
  let b ← load s block
  let halfSize ← shl1 (b.level + MIN)
  return block &&& (2 ^ 64 - 1 - halfSize)

/-- The function `merge`; `memset(secondary, 0, sizeof(head))` writes the
all-zero header, the `sizeof(head)` bytes being those of the header cell at
`secondary`; see `Words.merge` for a header that starts inside another. -/
def merge (s : State) (a b : Nat) : Except Fault (Nat × State) := do
  let ba ← buddy s a
  if ba ≠ b then
    throw .assertFail
  else
    let prim ← primary s a
    let secondary := if prim = a then b else a
    let p ← load s prim
    let s1 ← setLevel s prim (p.level + 1)
    let s2 ← store s1 secondary ⟨0, 0, 0, 0⟩
    return (prim, s2)

/-- The function `hide`. -/
def hide (block : Nat) : Nat := block + sizeof_head

/-- The function `magic`.  For a pointer below `sizeof(head)`, which `hide`
never returns, the subtraction ends at `0` where the pointer would wrap. -/
def magic (memory : Nat) : Nat := memory - sizeof_head

/-- The `while` loop of `level`; the comparison is made in `size_t`, and the
shift faults once `l + MIN` is negative. -/
def levelLoop (req : Int) : Nat → Int → Except Fault Int
  | 0, _ => .error .outOfFuel
  | fuel + 1, l => do
    let p ← shl1 (l + MIN)
    if (p : Int) ≥ (req + sizeof_head) % 2 ^ 64 then
      levelLoop req fuel (l - 1)
    else
      return l

/-- The function `level`; the loop runs at most `MAX_LEVEL + MIN + 1` times
before the shift faults. -/
def level (req : Int) : Except Fault Int := do
  let l ← levelLoop req (MAX_LEVEL + MIN + 2) MAX_LEVEL
  return l + 1

/-- The inner `while` loop of `findSmallestFree`. -/
def skipUsed (s : State) : Nat → Nat → Except Fault Nat
  | 0, _ => .error .outOfFuel
  | fuel + 1, temp =>
    if temp ≠ 0 ∧ (s.mem temp).status = STATUS_USED then
      skipUsed s fuel (s.mem temp).next
    else
      .ok temp

/-- The `for` loop of `findSmallestFree`, `n` bounding its iterations. -/
def findLoop (s : State) (fuel : Nat) : Nat → Int → Nat → Except Fault Nat
  | 0, _, _ => .error .outOfFuel
  | n + 1, i, temp =>
    if i < LEVELS then do
      let f ← getList s i
      if f ≠ 0 then
        let t ← skipUsed s fuel f
        if t ≠ 0 ∧ (s.mem t).status = STATUS_FREE then
          return t
        else
          findLoop s fuel n (i + 1) 0
      else
        findLoop s fuel n (i + 1) temp
    else
      return temp

/-- The function `findSmallestFree`; `fuel` bounds the walk along one list. -/
def findSmallestFree (fuel : Nat) (level : Int) (s : State) : Except Fault Nat := do
  let temp ← findLoop s fuel (LEVELS + 1) level 0
  if temp ≠ 0 ∧ (s.mem temp).status = STATUS_USED then
    return 0
  else
    return temp

/-- The function `addToLinkedListFront`. -/
def addToLinkedListFront (s : State) (node : Nat) : Except Fault State := do
  let n ← load s node
  let level := n.level
  let s1 ← setPrev s node 0
  let front ← getList s1 level
  if front = 0 then
    let s2 ← setList s1 level node
    setNext s2 node 0
  else
    let f ← getList s1 level
    let s2 ← setNext s1 node f
    let s3 ← setList s2 level node
    let n3 ← load s3 node
    setPrev s3 n3.next node

/-- The function `deleteFromLinkedList`. -/
def deleteFromLinkedList (s : State) (node : Nat) : Except Fault State := do
  let n ← load s node
  let tempNext := n.next
  let s1 ← if n.prev ≠ 0 then setNext s n.prev tempNext else setList s n.level tempNext
  let n1 ← load s1 node
  let s2 ← if n1.next ≠ 0 then setPrev s1 n1.next n1.prev else pure s1
  let s3 ← setPrev s2 node 0
  setNext s3 node 0

/-- The function `splitNodesForLevel`, `ASSERT_DEBUG` taken as an assertion.
Every iteration lowers the level of `freeBlock` by one and `split` faults on a
level below `1 - MIN`, so that the loop body runs at most 31 times. -/
def splitNodesForLevel (level : Int) : Nat → Nat → State → Except Fault (Nat × State)
  | 0, _, _ => .error .outOfFuel
  | fuel + 1, freeBlock, s => do
    let fb ← load s freeBlock
    if level ≠ fb.level then
      let s1 ← deleteFromLinkedList s freeBlock
      let r ← split s1 freeBlock
      let sp ← load r.2 r.1
      let fb2 ← load r.2 freeBlock
      if sp.level ≠ fb2.level then
        throw .assertFail
      else
        let s3 ← addToLinkedListFront r.2 freeBlock
        let s4 ← addToLinkedListFront s3 r.1
        splitNodesForLevel level fuel r.1 s4
    else
      return (freeBlock, s)

/-- The function `balloc`: `fuel` bounds the walk along one list and `os` is
the answer `mmap` gives if it is called.  The fuel of `splitNodesForLevel` is
above the number of iterations its loop can make. -/
def balloc (fuel : Nat) (os : Option Nat) (size : Nat) (s : State) :
    Except Fault (Nat × State) :=
  if size ≤ 0 ∨ size > PAGE - sizeof_head then
    .ok (0, s)
  else do
    let requiredLevel ← level size
    let found ← findSmallestFree fuel requiredLevel s
    let r ← (if found = 0 then do
        let r0 ← new os s
        let s0 ← addToLinkedListFront r0.2 r0.1
        pure (r0.1, s0)
      else
        pure (found, s))
    let g ← splitNodesForLevel requiredLevel 32 r.1 r.2
    let s3 ← setStatus g.2 g.1 STATUS_USED
    return (hide g.1, s3)

/-- The function `possiblyMergeAsFarUpAsPossibleRecursive`.  Every call raises
the level of `node` by one, stops at `MAX_LEVEL`, and `buddy` faults on a level
from `31 - MIN` on, so that the recursion is at most 18 calls deep. -/
def possiblyMergeAsFarUpAsPossibleRecursive : Nat → Nat → State → Except Fault State
  | 0, _, _ => .error .outOfFuel
  | fuel + 1, node, s => do
    let n ← load s node
    if n.level = MAX_LEVEL then
      return s
    else
      let bud ← buddy s node
      let b ← load s bud
      if b.status = STATUS_FREE ∧ b.level = n.level then
        let s1 ← deleteFromLinkedList s bud
        let s2 ← deleteFromLinkedList s1 node
        let r ← merge s2 node bud
        let s4 ← setStatus r.2 r.1 STATUS_FREE
        let s5 ← addToLinkedListFront s4 r.1
        possiblyMergeAsFarUpAsPossibleRecursive fuel r.1 s5
      else
        return s

/-- The function `bfree`; the fuel of the recursion is above its depth. -/
def bfree (memory : Nat) (s : State) : Except Fault State :=
  if memory = 0 then
    .ok s
  else do
    let node := magic memory
    let s1 ← setStatus s node STATUS_FREE
    possiblyMergeAsFarUpAsPossibleRecursive 32 node s1

/-- The first `while` loop of `freeAll`: skip the nodes that are not `USED`. -/
def freeAllScan (s : State) : Nat → Nat → Except Fault Nat
  | 0, _ => .error .outOfFuel
  | fuel + 1, node =>
    if node ≠ 0 ∧ (s.mem node).status ≠ STATUS_USED then
      freeAllScan s fuel (s.mem node).next
    else
      .ok node

/-- The call `munmap(a, PAGE)`: the page at `a` is not mapped any more. -/
def munmap (s : State) (a : Nat) : State :=
  { s with pages := s.pages.erase a }

/-- The `for` loop of `freeAll`: `walk` bounds the walk along one list and the
first argument the number of iterations.  After `level--; continue` the
increment of the loop header runs, which is the `level - 1 + 1` below. -/
def freeAllLevels (walk : Nat) : Nat → Int → State → Except Fault State
  | 0, _, _ => .error .outOfFuel
  | n + 1, level, s =>
    if level < (LEVELS : Int) - 1 then do
      let f ← getList s level
      let node ← freeAllScan s walk f
      if node ≠ 0 then
        let s1 ← bfree (hide node) s
        freeAllLevels walk n (level - 1 + 1) s1
      else
        let f2 ← getList s level
        if f2 ≠ 0 then
          throw .assertFail
        else
          freeAllLevels walk n (level + 1) s
    else
      return s

/-- The last `while` loop of `freeAll`; the list collects the addresses handed
to `munmap`, in the order of the calls. -/
def freeAllPages : Nat → Nat → State → List Nat → Except Fault (List Nat × State)
  | 0, _, _, _ => .error .outOfFuel
  | n + 1, node, s, unmapped =>
    if node ≠ 0 then do
      let nd ← load s node
      let s1 ← deleteFromLinkedList s node
      freeAllPages n nd.next (munmap s1 node) (unmapped ++ [node])
    else
      return (unmapped, s)

/-- The function `freeAll`; `fuel` bounds the iterations of each of its loops.
It returns the addresses it handed to `munmap` and the final state. -/
def freeAll (fuel : Nat) (s : State) : Except Fault (List Nat × State) := do
  let s1 ← freeAllLevels fuel fuel 0 s
  let node ← getList s1 MAX_LEVEL
  let r ← freeAllPages fuel node s1 []
  let f ← getList r.2 MAX_LEVEL
  if f ≠ 0 then
    throw .assertFail
  else
    return r

/-! ## Specification vocabulary -/

/-- The node `a` is on the chain of `next` pointers that starts at `cur`. -/
inductive InList (mem : Nat → head) : Nat → Nat → Prop where
  | here (a : Nat) : a ≠ 0 → InList mem a a
  | next (cur a : Nat) : cur ≠ 0 → InList mem (mem cur).next a → InList mem cur a

/-- The header at `a` is linked in `flists[i]`. -/
def Linked (s : State) (i a : Nat) : Prop := InList s.mem (s.flists i) a

/-- The header at `a` is a registered block of level `i` marked `FREE`. -/
def FreeAt (s : State) (i a : Nat) : Prop :=
  i < LEVELS ∧ Linked s i a ∧ (s.mem a).status = STATUS_FREE

/-- The header at `a` is a registered block of level `i` marked `USED`. -/
def UsedAt (s : State) (i a : Nat) : Prop :=
  i < LEVELS ∧ Linked s i a ∧ (s.mem a).status = STATUS_USED

/-- The capacity in bytes of a block of level `i`. -/
def bsize (i : Nat) : Nat := 2 ^ (i + MIN)

/-- The list `l` is the doubly linked list that starts at `cur`, whose first
node has `prev` as its back link, and that ends in `NULL`. -/
def Chain (mem : Nat → head) : Nat → Nat → List Nat → Prop
  | _, cur, [] => cur = 0
  | prev, cur, a :: l => cur = a ∧ a ≠ 0 ∧ (mem a).prev = prev ∧ Chain mem a (mem a).next l

/-- The status field of every header. -/
def stOf (s : State) : Nat → Nat := fun a => (s.mem a).status

/-- The table of lists `ls` is what the `flists` array represents: list `i` is a
well-formed doubly linked list of distinct headers of level `i`. -/
structure Rep (s : State) (ls : Nat → List Nat) : Prop where
  chain : ∀ i, i < LEVELS → Chain s.mem 0 (s.flists i) (ls i)
  level : ∀ i, i < LEVELS → ∀ a ∈ ls i, (s.mem a).level = (i : Int)
  nodup : ∀ i, i < LEVELS → (ls i).Nodup

/-- The block at `a` is in list `i` of the table. -/
def Blk (ls : Nat → List Nat) (i a : Nat) : Prop := i < LEVELS ∧ a ∈ ls i

/-- The blocks tile the mapped pages: every block is aligned to its capacity
and lies in a mapped page, two blocks do not overlap, and every byte of a
mapped page belongs to a block. -/
structure Tiling (pages : List Nat) (blk : Nat → Nat → Prop) : Prop where
  page_ok : ∀ p ∈ pages, p ≠ 0 ∧ PAGE ∣ p ∧ p + PAGE ≤ 2 ^ 64
  page_nodup : pages.Nodup
  lvl : ∀ i a, blk i a → i < LEVELS
  aligned : ∀ i a, blk i a → bsize i ∣ a
  inpage : ∀ i a, blk i a → ∃ p ∈ pages, p ≤ a ∧ a + bsize i ≤ p + PAGE
  disjoint : ∀ i j a b, blk i a → blk j b →
    (a = b ∧ i = j) ∨ a + bsize i ≤ b ∨ b + bsize j ≤ a
  cover : ∀ p ∈ pages, ∀ x, p ≤ x → x < p + PAGE →
    ∃ i a, blk i a ∧ a ≤ x ∧ x < a + bsize i

/-- No two `FREE` blocks of one level are buddies, the pair that involves `x`
left aside. -/
def NoFreePairX (blk : Nat → Nat → Prop) (st : Nat → Nat) (x : Nat) : Prop :=
  ∀ i a b, i < MAX_LEVEL → blk i a → blk i b → a ≠ x → b ≠ x →
    st a = STATUS_FREE → st b = STATUS_FREE → b ≠ a ^^^ bsize i

/-- No two `FREE` blocks of one level are buddies. -/
def NoFreePair (blk : Nat → Nat → Prop) (st : Nat → Nat) : Prop :=
  ∀ i a b, i < MAX_LEVEL → blk i a → blk i b →
    st a = STATUS_FREE → st b = STATUS_FREE → b ≠ a ^^^ bsize i

/-- The pointers in `live` are the payloads of the `USED` blocks, and every
other block is `FREE`. -/
structure LiveOK (blk : Nat → Nat → Prop) (st : Nat → Nat) (live : List Nat) : Prop where
  nodup : live.Nodup
  block : ∀ q ∈ live, ∃ i a, blk i a ∧ q = hide a
  status : ∀ i a, blk i a →
    (st a = STATUS_USED ∧ hide a ∈ live) ∨ (st a = STATUS_FREE ∧ hide a ∉ live)

/-- The invariant of the reachable states. -/
structure Inv (s : State) (ls : Nat → List Nat) (live : List Nat) : Prop where
  rep : Rep s ls
  tiling : Tiling s.pages (Blk ls)
  nfp : NoFreePair (Blk ls) (stOf s)
  live : LiveOK (Blk ls) (stOf s) live

/-- A state is well formed when its lists are well-formed doubly linked lists
that hold, each at its level, blocks that tile the mapped pages, every block
is `FREE` or `USED`, and no two `FREE` buddies are left unmerged. -/
def WellFormed (s : State) : Prop :=
  ∃ ls live, Inv s ls live

/-- The invariant inside the loops of `balloc` and `bfree`: as `Inv`, the block
`x` being allowed to have a `FREE` buddy. -/
structure InvX (s : State) (ls : Nat → List Nat) (live : List Nat) (x : Nat) : Prop where
  rep : Rep s ls
  tiling : Tiling s.pages (Blk ls)
  nfp : NoFreePairX (Blk ls) (stOf s) x
  live : LiveOK (Blk ls) (stOf s) live

/-- The `USED` blocks of the table `ls` are `USED` blocks, at the same level, of
the table `ls'`. -/
def Kept (ls ls' : Nat → List Nat) (st st' : Nat → Nat) : Prop :=
  ∀ i a, Blk ls i a → st a = STATUS_USED → Blk ls' i a ∧ st' a = STATUS_USED

/-- What `mmap` may answer in state `s`: failure, or the address of a page
that is page-aligned, not `NULL`, within the 64-bit address space and not
mapped yet. -/
def OSok (s : State) : Option Nat → Prop
  | none => True
  | some p => p ≠ 0 ∧ PAGE ∣ p ∧ p + PAGE ≤ 2 ^ 64 ∧ p ∉ s.pages

/-- The states reachable from an empty allocator by calls of `balloc` and by
calls of `bfree` on pointers that `balloc` returned and that were not freed
since; the list holds those pointers. -/
inductive Reach : State → List Nat → Prop where
  | init (m : Nat → head) : Reach (init m) []
  | balloc {s : State} {live : List Nat} (fuel : Nat) (os : Option Nat) (size p : Nat)
      (s' : State) : Reach s live → OSok s os → balloc fuel os size s = .ok (p, s') →
      p ≠ 0 → Reach s' (p :: live)
  | balloc_null {s : State} {live : List Nat} (fuel : Nat) (os : Option Nat) (size : Nat)
      (s' : State) : Reach s live → OSok s os → balloc fuel os size s = .ok (0, s') →
      Reach s' live
  | bfree {s : State} {live : List Nat} (p : Nat) (s' : State) : Reach s live → p ∈ live →
      bfree p s = .ok s' → Reach s' (live.erase p)

/-- A sequence of successful `balloc` calls on the empty allocator: the state
they lead to and the pointers they returned. -/
inductive AllocRun : State → List Nat → Prop where
  | init (m : Nat → head) : AllocRun (init m) []
  | step {s : State} {ptrs : List Nat} (fuel : Nat) (os : Option Nat) (size p : Nat)
      (s' : State) : AllocRun s ptrs → OSok s os → balloc fuel os size s = .ok (p, s') →
      p ≠ 0 → AllocRun s' (p :: ptrs)

/-- The calls `bfree(p)` for the pointers `p` of a list, in the order of the
list, lead from the first state to the second. -/
inductive FreeRun : State → List Nat → State → Prop where
  | done (s : State) : FreeRun s [] s
  | step {s s' s'' : State} {p : Nat} {ps : List Nat} : bfree p s = .ok s' →
      FreeRun s' ps s'' → FreeRun s (p :: ps) s''

/-- The header at `a` has a level in `[0, MAX_LEVEL]` and `a` is a multiple of
the capacity `2^(level+MIN)` of that level. -/
def AlignedAt (s : State) (a : Nat) : Prop :=
  ∃ L : Nat, L ≤ MAX_LEVEL ∧ (s.mem a).level = (L : Int) ∧ 2 ^ (L + MIN) ∣ a

/-! ## Example states -/

/-- A memory that holds the all-zero header everywhere. -/
def zeroMem : Nat → head := fun _ => ⟨0, 0, 0, 0⟩

/-- The state an execution ends in, or `d` when it faulted. -/
def stateOf (r : Except Fault (Nat × State)) (d : State) : State :=
  match r with
  | .ok x => x.2
  | .error _ => d

/-- The state after `balloc(100)` on the empty allocator, `mmap` answering
the page at `8192`. -/
def afterAlloc : State :=
  stateOf (balloc 1 (some 8192) 100 (init zeroMem)) (init zeroMem)

/-- The state an execution that returns nothing ends in, or `d` when it
faulted. -/
def endOf (r : Except Fault State) (d : State) : State :=
  match r with
  | .ok x => x
  | .error _ => d

/-- The state after `bfree` of the pointer `12064` that `balloc(100)` returned
in `afterAlloc`. -/
def afterFree : State :=
  endOf (bfree 12064 afterAlloc) (init zeroMem)

/-- The state after `new` on the empty allocator, `mmap` answering the page at
`8192`: one `FREE` block of level `MAX_LEVEL`. -/
def afterNew : State :=
  stateOf (new (some 8192) (init zeroMem)) (init zeroMem)

/-- The pointer an execution returns, or `NULL` when it faulted. -/
def ptrOf (r : Except Fault (Nat × State)) : Nat :=
  match r with
  | .ok x => x.1
  | .error _ => 0

/-- Whether an execution ended without a fault. -/
def succeeded {α : Type} (r : Except Fault α) : Bool :=
  match r with
  | .ok _ => true
  | .error _ => false

/-- The value of an execution that returns no state, if it ended well. -/
def valueOf {α : Type} (r : Except Fault α) : Option α :=
  match r with
  | .ok x => some x
  | .error _ => none

/-- The state in which `balloc(100)` on the empty allocator starts to split:
the page at `8192` is mapped and pushed on `flists[MAX_LEVEL]`. -/
def afterPush : State :=
  endOf (addToLinkedListFront afterNew 8192) (init zeroMem)

/-- The state after a second `balloc(100)`, in `afterAlloc`, `mmap` being ready
to answer the page at `16384`. -/
def afterSecond : State :=
  stateOf (balloc 2 (some 16384) 100 afterAlloc) (init zeroMem)

/-- The state after `bfree(p)` and then `bfree(q)` in `afterSecond`. -/
def afterBoth (p q : Nat) : State :=
  endOf (bfree q (endOf (bfree p afterSecond) (init zeroMem))) (init zeroMem)

/-- The fault an execution ended in, if any. -/
def faultOf {α : Type} (r : Except Fault α) : Option Fault :=
  match r with
  | .ok _ => none
  | .error e => some e

/-- Whether a list is the doubly linked list that starts at a node is decidable. -/
instance decChain (mem : Nat → head) :
    (l : List Nat) → (p c : Nat) → Decidable (Chain mem p c l)
  | [], _, c => inferInstanceAs (Decidable (c = 0))
  | a :: l, p, c =>
    have := decChain mem l a (mem a).next
    inferInstanceAs
      (Decidable (c = a ∧ a ≠ 0 ∧ (mem a).prev = p ∧ Chain mem a (mem a).next l))

/-- The lists of the table in `afterAlloc`. -/
def afterAllocLists : Nat → List Nat
  | 3 => [12032, 11776]
  | 4 => [11264]
  | 5 => [10240]
  | 6 => [8192]
  | _ => []

/-! ## The header as words of memory

`split` and `merge` once more, on a memory of 8-byte words in which a header
is four consecutive words, so that a header that starts inside another
shares words with it. -/

namespace Words

/-- Modelled from the spec: `buddy.h` is not among the sources; the header
takes `sizeof(head) = 32` bytes and holds `level`, `status`, `next` and
`prev`, here one 8-byte word each in this order.  This is the offset of
`level`. -/
def off_level : Nat := 0

/-- Modelled from the spec: `buddy.h` is not among the sources; the offset of
`status` in the header. -/
def off_status : Nat := 8

/-- Modelled from the spec: `buddy.h` is not among the sources; the offset of
`next` in the header. -/
def off_next : Nat := 16

/-- Modelled from the spec: `buddy.h` is not among the sources; the offset of
`prev` in the header. -/
def off_prev : Nat := 24

/-- Reading the field at offset `off` of the header that the pointer `a`
points to, in a memory of words indexed by their byte address. -/
def read (m : Nat → Int) (a off : Nat) : Except Fault Int :=
  if a = 0 then .error .nullDeref else .ok (m (a + off))

/-- Writing the field at offset `off` of the header that the pointer `a`
points to. -/
def write (m : Nat → Int) (a off : Nat) (v : Int) : Except Fault (Nat → Int) :=
  if a = 0 then .error .nullDeref else .ok (Function.update m (a + off) v)

/-- The call `memset(a, 0, sizeof(head))`: every word from `a` up to
`a + sizeof(head)` is zero afterwards. -/
def memset0 (m : Nat → Int) (a : Nat) : Except Fault (Nat → Int) :=
  if a = 0 then .error .nullDeref
  else .ok (fun x => if a ≤ x ∧ x < a + sizeof_head then 0 else m x)

/-- The function `buddy`, on the memory of words. -/
def buddy (m : Nat → Int) (block : Nat) : Except Fault Nat := do
  let l ← read m block off_level
  if l = MAX_LEVEL then
    return block
  else
    let differentiatingBit ← shl1 (l + MIN)
    return block ^^^ differentiatingBit

/-- The function `split`, on the memory of words. -/
def split (m : Nat → Int) (block : Nat) : Except Fault (Nat × (Nat → Int)) := do
  let l ← read m block off_level
  let halfSize ← shl1 (l + MIN - 1)
  let newPtr := block ^^^ halfSize
  let m1 ← write m block off_level (l - 1)
  let l1 ← read m1 block off_level
  let m2 ← write m1 newPtr off_level l1
  let st ← read m2 block off_status
  let m3 ← write m2 newPtr off_status st
  return (newPtr, m3)

/-- The function `primary`, on the memory of words. -/
def primary (m : Nat → Int) (block : Nat) : Except Fault Nat := do
  let l ← read m block off_level
  let halfSize ← shl1 (l + MIN)
  return block &&& (2 ^ 64 - 1 - halfSize)

/-- The function `merge`, on the memory of words. -/
def merge (m : Nat → Int) (a b : Nat) : Except Fault (Nat × (Nat → Int)) := do
  let ba ← buddy m a
  if ba ≠ b then
    throw .assertFail
  else
    let prim ← primary m a
    let secondary := if prim = a then b else a
    let l ← read m prim off_level
    let m1 ← write m prim off_level (l + 1)
    let m2 ← memset0 m1 secondary
    return (prim, m2)

end Words

/-- A memory of words with a `FREE` block of level 0 at `8256`, all of whose
fields are zero, and a `USED` block of level 0 right after it, at `8288`. -/
def wordsMem : Nat → Int :=
  fun a => if a = 8288 + Words.off_status then STATUS_USED else 0

/-- The pointer an execution on the memory of words returns, or `NULL` when
it faulted. -/
def addrOf (r : Except Fault (Nat × (Nat → Int))) : Nat :=
  match r with
  | .ok x => x.1
  | .error _ => 0

/-- The memory of words an execution ends in, or `d` when it faulted. -/
def wordsOf (r : Except Fault (Nat × (Nat → Int))) (d : Nat → Int) : Nat → Int :=
  match r with
  | .ok x => x.2
  | .error _ => d

/-- The memory of words after `split` of the block at `8256` of `wordsMem`. -/
def wordsSplit : Nat → Int :=
  wordsOf (Words.split wordsMem 8256) wordsMem

/-- The memory of words after `merge` of the block at `8256` with the block
that `split` returned. -/
def wordsMerged : Nat → Int :=
  wordsOf (Words.merge wordsSplit 8256 8272) wordsMem

/-! ## Bit arithmetic on addresses -/

theorem testBit_of_dvd (x k : Nat) (h : 2 ^ (k + 1) ∣ x) : x.testBit k = false := by
  obtain ⟨q, rfl⟩ := h
  rw [Nat.testBit_mul_pow_two]
  simp

theorem xor_pow_eq_or (x k : Nat) (h : x.testBit k = false) : x ^^^ 2 ^ k = x ||| 2 ^ k := by
  apply Nat.eq_of_testBit_eq
  intro j
  rw [Nat.testBit_xor, Nat.testBit_or, Nat.testBit_two_pow]
  by_cases hj : k = j
  · subst hj; simp [h]
  · simp [hj]

theorem xor_pow_of_dvd (x k : Nat) (h : 2 ^ (k + 1) ∣ x) : x ^^^ 2 ^ k = x + 2 ^ k := by
  rw [xor_pow_eq_or x k (testBit_of_dvd x k h)]
  obtain ⟨q, rfl⟩ := h
  exact (Nat.mul_add_lt_is_or (Nat.pow_lt_pow_right (by decide) (Nat.lt_succ_self k)) q).symm

theorem xor_pow_cancel (x k : Nat) : (x ^^^ 2 ^ k) ^^^ 2 ^ k = x := by
  rw [Nat.xor_assoc, Nat.xor_self, Nat.xor_zero]

theorem add_pow_xor_of_dvd (x k : Nat) (h : 2 ^ (k + 1) ∣ x) : (x + 2 ^ k) ^^^ 2 ^ k = x := by
  rw [← xor_pow_of_dvd x k h, xor_pow_cancel]

theorem ldiff_pow_of_dvd (x k : Nat) (h : 2 ^ (k + 1) ∣ x) : Nat.ldiff x (2 ^ k) = x := by
  apply Nat.eq_of_testBit_eq
  intro j
  rw [Nat.testBit_ldiff, Nat.testBit_two_pow]
  by_cases hj : k = j
  · subst hj; simp [testBit_of_dvd x k h]
  · simp [hj]

theorem ldiff_add_pow_of_dvd (x k : Nat) (h : 2 ^ (k + 1) ∣ x) :
    Nat.ldiff (x + 2 ^ k) (2 ^ k) = x := by
  rw [← xor_pow_of_dvd x k h, xor_pow_eq_or x k (testBit_of_dvd x k h)]
  apply Nat.eq_of_testBit_eq
  intro j
  rw [Nat.testBit_ldiff, Nat.testBit_or, Nat.testBit_two_pow]
  by_cases hj : k = j
  · subst hj; simp [testBit_of_dvd x k h]
  · simp [hj]

theorem and_mask_eq_ldiff (x k : Nat) (hx : x < 2 ^ 64) (hk : k < 64) :
    x &&& (2 ^ 64 - 1 - 2 ^ k) = Nat.ldiff x (2 ^ k) := by
  have hlt : 2 ^ k < 2 ^ 64 := Nat.pow_lt_pow_right (by decide) hk
  have e : 2 ^ 64 - 1 - 2 ^ k = 2 ^ 64 - (2 ^ k + 1) := by omega
  apply Nat.eq_of_testBit_eq
  intro j
  rw [Nat.testBit_and, Nat.testBit_ldiff, e, Nat.testBit_two_pow_sub_succ hlt]
  by_cases hj : j < 64
  · simp [hj]
  · have : x.testBit j = false :=
      Nat.testBit_lt_two_pow (lt_of_lt_of_le hx (Nat.pow_le_pow_right (by decide) (by omega)))
    simp [this]

theorem xor_pow_ne_self (x k : Nat) : x ^^^ 2 ^ k ≠ x := by
  intro h
  have := congrArg (fun y => y.testBit k) h
  simp [Nat.testBit_xor, Nat.testBit_two_pow] at this

theorem mask_of_dvd (x k : Nat) (hx : x < 2 ^ 64) (hk : k < 64) (h : 2 ^ (k + 1) ∣ x) :
    x &&& (2 ^ 64 - 1 - 2 ^ k) = x := by
  rw [and_mask_eq_ldiff x k hx hk, ldiff_pow_of_dvd x k h]

theorem mask_add_pow_of_dvd (x k : Nat) (hx : x + 2 ^ k < 2 ^ 64) (hk : k < 64)
    (h : 2 ^ (k + 1) ∣ x) : (x + 2 ^ k) &&& (2 ^ 64 - 1 - 2 ^ k) = x := by
  rw [and_mask_eq_ldiff _ k hx hk, ldiff_add_pow_of_dvd x k h]

/-! ## The size-class index -/

theorem shl1_ok (k : Int) (h0 : 0 ≤ k) (h1 : k < 31) : shl1 k = .ok (2 ^ k.toNat) := by
  simp [shl1, h0, h1]

theorem levelLoop_spec (req : Int) (T : Nat) (hT : (req + sizeof_head) % 2 ^ 64 = T)
    (hT2 : 2 ≤ T) : ∀ (n fuel : Nat), n < 31 → n < fuel →
    ∃ m : Nat, m ≤ n ∧ levelLoop req fuel ((n : Int) - MIN) = .ok ((m : Int) - MIN) ∧
      2 ^ m < T ∧ ∀ k, m < k → k ≤ n → T ≤ 2 ^ k := by
  intro n
  induction n with
  | zero =>
    intro fuel _ hf
    obtain ⟨f, rfl⟩ : ∃ f, fuel = f + 1 := ⟨fuel - 1, by omega⟩
    refine ⟨0, le_refl _, ?_, by simpa using hT2, fun k h1 h2 => by omega⟩
    have hs : shl1 (((0 : Nat) : Int) - MIN + MIN) = .ok 1 := by
      rw [shl1_ok _ (by omega) (by omega)]; simp
    have hlt : ¬ (((1 : Nat) : Int) ≥ (T : Int)) := by omega
    simp only [levelLoop, hs, bind, Except.bind, hT]
    rw [if_neg hlt]; rfl
  | succ n ih =>
    intro fuel hn hf
    obtain ⟨f, rfl⟩ : ∃ f, fuel = f + 1 := ⟨fuel - 1, by omega⟩
    have hs : shl1 (((n + 1 : Nat) : Int) - MIN + MIN) = .ok (2 ^ (n + 1)) := by
      rw [shl1_ok _ (by omega) (by omega)]
      congr 2; omega
    simp only [levelLoop, hs, bind, Except.bind, hT]
    by_cases hc : (((2 ^ (n + 1) : Nat) : Int) ≥ (T : Int))
    · rw [if_pos hc]
      obtain ⟨m, hm, hrun, hlt, hall⟩ := ih f (by omega) (by omega)
      have e : ((n + 1 : Nat) : Int) - MIN - 1 = (n : Int) - MIN := by push_cast; ring
      rw [e, hrun]
      refine ⟨m, by omega, rfl, hlt, fun k h1 h2 => ?_⟩
      by_cases hk : k = n + 1
      · subst hk; exact_mod_cast hc
      · exact hall k h1 (by omega)
    · rw [if_neg hc]
      refine ⟨n + 1, le_refl _, rfl, ?_, fun k h1 h2 => by omega⟩
      have : ((2 ^ (n + 1) : Nat) : Int) < (T : Int) := by omega
      exact_mod_cast this

theorem level_run (s : Nat) (h0 : 0 < s) (h1 : s ≤ PAGE - sizeof_head) :
    ∃ m : Nat, 4 ≤ m ∧ m ≤ 11 ∧ level (s : Int) = .ok ((m - 4 : Nat) : Int) ∧
      2 ^ m < s + 32 ∧ s + 32 ≤ 2 ^ (m + 1) := by
  have hs : s ≤ 4064 := by simpa [PAGE, sizeof_head] using h1
  have hT : ((s : Int) + sizeof_head) % 2 ^ 64 = ((s + 32 : Nat) : Int) := by
    simp only [sizeof_head]; push_cast; omega
  obtain ⟨m, hm, hrun, hlt, hall⟩ :=
    levelLoop_spec (s : Int) (s + 32) hT (by omega) 12 (MAX_LEVEL + MIN + 2)
      (by decide) (by decide)
  have hm4 : 4 ≤ m := by
    by_contra hc
    have h4 := hall 4 (by omega) (by omega)
    omega
  have hm11 : m ≤ 11 := by
    by_contra hc
    have : m = 12 := by omega
    subst this
    omega
  refine ⟨m, hm4, hm11, ?_, hlt, hall (m + 1) (by omega) (by omega)⟩
  have e : (((12 : Nat) : Int) - MIN) = ((MAX_LEVEL : Nat) : Int) := by decide
  rw [e] at hrun
  simp only [level, hrun, bind, Except.bind, pure, Except.pure]
  congr 1
  simp only [MIN]; omega

theorem level_ok (s : Nat) (h0 : 0 < s) (h1 : s ≤ PAGE - sizeof_head) :
    ∃ L : Nat, L ≤ MAX_LEVEL ∧ level (s : Int) = .ok (L : Int) := by
  obtain ⟨m, h4, h11, hrun, _, _⟩ := level_run s h0 h1
  exact ⟨m - 4, by simp only [MAX_LEVEL]; omega, hrun⟩

/-! ## What the primitive operations compute -/

theorem getList_ok (s : State) {i : Nat} (h : i < LEVELS) :
    getList s (i : Int) = .ok (s.flists i) := by
  have : ((i : Int) < (LEVELS : Int)) := by exact_mod_cast h
  simp [getList, this]

theorem setList_ok (s : State) {i : Nat} (h : i < LEVELS) (v : Nat) :
    setList s (i : Int) v = .ok { s with flists := Function.update s.flists i v } := by
  have : ((i : Int) < (LEVELS : Int)) := by exact_mod_cast h
  simp [setList, this]

theorem delete_exec (s : State) (a i : Nat) (ha : a ≠ 0) (hi : i < LEVELS)
    (hlev : (s.mem a).level = (i : Int))
    (hp : (s.mem a).prev ≠ a) (hn : (s.mem a).next ≠ a) :
    ∃ s', deleteFromLinkedList s a = .ok s' ∧ s'.pages = s.pages ∧
      s'.flists = (if (s.mem a).prev = 0 then Function.update s.flists i (s.mem a).next
        else s.flists) ∧
      (∀ x, (s'.mem x).level = (s.mem x).level ∧ (s'.mem x).status = (s.mem x).status) ∧
      (∀ x, x ≠ 0 → (s'.mem x).next =
        if x = a then 0 else if x = (s.mem a).prev then (s.mem a).next else (s.mem x).next) ∧
      (∀ x, x ≠ 0 → (s'.mem x).prev =
        if x = a then 0 else if x = (s.mem a).next then (s.mem a).prev else (s.mem x).prev) := by
  have hi' : ((i : Int) < (LEVELS : Int)) := by exact_mod_cast hi
  by_cases h1 : (s.mem a).prev = 0 <;> by_cases h2 : (s.mem a).next = 0
  all_goals
    simp only [deleteFromLinkedList, load, store, setList, setNext, setPrev, bind, Except.bind,
      pure, Except.pure, ha, h1, h2, hlev, hi', if_true, if_false, ne_eq, not_true_eq_false,
      not_false_eq_true, Int.natCast_nonneg, and_self, Int.toNat_ofNat,
      Function.update_same, Function.update_noteq (Ne.symm hp),
      Function.update_noteq (Ne.symm hn)]
    refine ⟨_, rfl, rfl, rfl, ?_, ?_, ?_⟩
  all_goals
    intro x
    first
    | (intro hx
       by_cases hxa : x = a
       · subst hxa; simp [Function.update_apply, hlev]
       · by_cases hxp : x = (s.mem a).prev <;> by_cases hxn : x = (s.mem a).next <;>
           simp_all [Function.update_apply])
    | (by_cases hxa : x = a
       · subst hxa; simp [Function.update_apply, hlev]
       · by_cases hxp : x = (s.mem a).prev <;> by_cases hxn : x = (s.mem a).next <;>
           simp_all [Function.update_apply])

theorem add_exec (s : State) (a i : Nat) (ha : a ≠ 0) (hi : i < LEVELS)
    (hlev : (s.mem a).level = (i : Int)) (hf : s.flists i ≠ a) :
    ∃ s', addToLinkedListFront s a = .ok s' ∧ s'.pages = s.pages ∧
      s'.flists = Function.update s.flists i a ∧
      (∀ x, (s'.mem x).level = (s.mem x).level ∧ (s'.mem x).status = (s.mem x).status) ∧
      (∀ x, x ≠ 0 → (s'.mem x).next = if x = a then s.flists i else (s.mem x).next) ∧
      (∀ x, x ≠ 0 → (s'.mem x).prev =
        if x = a then 0 else if x = s.flists i then a else (s.mem x).prev) := by
  have hi' : ((i : Int) < (LEVELS : Int)) := by exact_mod_cast hi
  by_cases h1 : s.flists i = 0
  all_goals
    simp only [addToLinkedListFront, load, store, getList, setList, setNext, setPrev, bind,
      Except.bind, pure, Except.pure, ha, h1, hlev, hi', if_true, if_false, ne_eq,
      not_true_eq_false, not_false_eq_true, Int.natCast_nonneg, and_self, Int.toNat_ofNat,
      Function.update_same]
    refine ⟨_, rfl, rfl, rfl, ?_, ?_, ?_⟩
  all_goals
    intro x
    first
    | (intro hx
       by_cases hxa : x = a
       · subst hxa; simp [Function.update_apply, hlev, h1, Ne.symm hf]
       · by_cases hxp : x = s.flists i <;> simp_all [Function.update_apply])
    | (by_cases hxa : x = a
       · subst hxa; simp [Function.update_apply, hlev, h1, Ne.symm hf]
       · by_cases hxp : x = s.flists i <;> simp_all [Function.update_apply])

theorem buddy_exec_shift (s : State) (a k : Nat) (ha : a ≠ 0)
    (hlev : (s.mem a).level + MIN = (k : Int)) (hk : k < 31)
    (hne : (s.mem a).level ≠ (MAX_LEVEL : Int)) : buddy s a = .ok (a ^^^ 2 ^ k) := by
  have hs : shl1 ((s.mem a).level + MIN) = .ok (2 ^ k) := by
    rw [hlev, shl1_ok _ (by omega) (by omega)]
    congr 2
  simp only [buddy, load, ha, if_false, bind, Except.bind, hne, hs, pure, Except.pure]

theorem buddy_exec (s : State) (a K : Nat) (ha : a ≠ 0) (hlev : (s.mem a).level = (K : Int))
    (hK : K < MAX_LEVEL) : buddy s a = .ok (a ^^^ 2 ^ (K + MIN)) := by
  have h7 : K < 7 := hK
  apply buddy_exec_shift s a (K + MIN) ha
  · rw [hlev]; push_cast; rfl
  · simp only [MIN]; omega
  · rw [hlev]; simp only [MAX_LEVEL]; omega

theorem split_exec (s : State) (a K : Nat) (ha : a ≠ 0) (hlev : (s.mem a).level = (K : Int))
    (hK : K + MIN < 32) (hh : a ^^^ 2 ^ (K + MIN - 1) ≠ 0) (hne : a ^^^ 2 ^ (K + MIN - 1) ≠ a) :
    ∃ s', split s a = .ok (a ^^^ 2 ^ (K + MIN - 1), s') ∧ s'.pages = s.pages ∧
      s'.flists = s.flists ∧
      (∀ x, (s'.mem x).next = (s.mem x).next ∧ (s'.mem x).prev = (s.mem x).prev) ∧
      (∀ x, (s'.mem x).level =
        if x = a ∨ x = a ^^^ 2 ^ (K + MIN - 1) then (K : Int) - 1 else (s.mem x).level) ∧
      (∀ x, (s'.mem x).status =
        if x = a ^^^ 2 ^ (K + MIN - 1) then (s.mem a).status else (s.mem x).status) := by
  have hs : shl1 ((K : Int) + MIN - 1) = .ok (2 ^ (K + MIN - 1)) := by
    rw [shl1_ok _ (by simp only [MIN]; omega) (by omega)]
    congr 2
    simp only [MIN]; omega
  simp only [split, load, store, setLevel, setStatus, bind, Except.bind, pure, Except.pure, ha,
    hh, hlev, hs, if_false, Function.update_same, Function.update_noteq (Ne.symm hne)]
  refine ⟨_, rfl, rfl, rfl, ?_, ?_, ?_⟩
  all_goals
    intro x
    by_cases hxa : x = a
    · subst hxa; simp [Function.update_apply, Ne.symm hne]
    · by_cases hxh : x = a ^^^ 2 ^ (K + MIN - 1) <;> simp_all [Function.update_apply]

theorem primary_exec_shift (s : State) (a k : Nat) (ha : a ≠ 0)
    (hlev : (s.mem a).level + MIN = (k : Int)) (hk : k < 31) :
    primary s a = .ok (a &&& (2 ^ 64 - 1 - 2 ^ k)) := by
  have hs : shl1 ((s.mem a).level + MIN) = .ok (2 ^ k) := by
    rw [hlev, shl1_ok _ (by omega) (by omega)]
    congr 2
  simp only [primary, load, ha, if_false, bind, Except.bind, hs, pure, Except.pure]

theorem merge_exec_shift (s : State) (a b k : Nat) (ha : a ≠ 0) (hb : b ≠ 0)
    (hlev : (s.mem a).level + MIN = (k : Int)) (hk : k < 31)
    (hne : (s.mem a).level ≠ (MAX_LEVEL : Int))
    (hbud : b = a ^^^ 2 ^ k) (hp : a &&& (2 ^ 64 - 1 - 2 ^ k) ≠ 0) :
    merge s a b = .ok (a &&& (2 ^ 64 - 1 - 2 ^ k),
      State.mk (Function.update
          (Function.update s.mem (a &&& (2 ^ 64 - 1 - 2 ^ k))
            { (s.mem (a &&& (2 ^ 64 - 1 - 2 ^ k))) with
              level := (s.mem (a &&& (2 ^ 64 - 1 - 2 ^ k))).level + 1 })
          (if a &&& (2 ^ 64 - 1 - 2 ^ k) = a then b else a) ⟨0, 0, 0, 0⟩) s.flists s.pages) := by
  have hsec : (if a &&& (2 ^ 64 - 1 - 2 ^ k) = a then b else a) ≠ 0 := by
    split <;> assumption
  simp only [merge, buddy_exec_shift s a k ha hlev hk hne, primary_exec_shift s a k ha hlev hk,
    bind, Except.bind, pure, Except.pure, ← hbud, ne_eq,
    not_true_eq_false, if_false, load, store, setLevel, hp, hsec]

theorem merge_exec (s : State) (a b K : Nat) (ha : a ≠ 0) (hb : b ≠ 0)
    (hlev : (s.mem a).level = (K : Int)) (hK : K < MAX_LEVEL)
    (hbud : b = a ^^^ 2 ^ (K + MIN)) (hp : a &&& (2 ^ 64 - 1 - 2 ^ (K + MIN)) ≠ 0) :
    merge s a b = .ok (a &&& (2 ^ 64 - 1 - 2 ^ (K + MIN)),
      State.mk (Function.update
          (Function.update s.mem (a &&& (2 ^ 64 - 1 - 2 ^ (K + MIN)))
            { (s.mem (a &&& (2 ^ 64 - 1 - 2 ^ (K + MIN)))) with
              level := (s.mem (a &&& (2 ^ 64 - 1 - 2 ^ (K + MIN)))).level + 1 })
          (if a &&& (2 ^ 64 - 1 - 2 ^ (K + MIN)) = a then b else a) ⟨0, 0, 0, 0⟩) s.flists s.pages) := by
  have h7 : K < 7 := hK
  apply merge_exec_shift s a b (K + MIN) ha hb _ _ _ hbud hp
  · rw [hlev]; push_cast; rfl
  · simp only [MIN]; omega
  · rw [hlev]; simp only [MAX_LEVEL]; omega

theorem new_exec (s : State) (p : Nat) (hp : p ≠ 0) :
    new (some p) s = .ok (p, State.mk
      (Function.update s.mem p ⟨(MAX_LEVEL : Nat), STATUS_FREE, 0, 0⟩) s.flists
      (p :: s.pages)) := by
  simp only [new, load, store, setLevel, setStatus, setNext, setPrev, bind, Except.bind, pure,
    Except.pure, hp, if_false, Function.update_same, Function.update_idem]

/-! ## Executions and the example states -/

theorem ok_eta (r : Except Fault (Nat × State)) (d : State) (h : succeeded r = true) :
    r = .ok (ptrOf r, stateOf r d) := by
  cases r with
  | ok x => rfl
  | error e => simp [succeeded] at h

theorem value_eq {α : Type} (r : Except Fault α) (x : α) (h : valueOf r = some x) :
    r = .ok x := by
  cases r with
  | ok y => simp only [valueOf, Option.some.injEq] at h; rw [h]
  | error e => simp [valueOf] at h

theorem bind_eq_ok {α β : Type} (r : Except Fault α) (f : α → Except Fault β) (y : β)
    (h : (r >>= f) = .ok y) : ∃ x, r = .ok x ∧ f x = .ok y := by
  cases r with
  | ok x => exact ⟨x, rfl, h⟩
  | error e => cases h

theorem afterAlloc_run :
    balloc 1 (some 8192) 100 (init zeroMem) = .ok (12064, afterAlloc) := by
  have h := ok_eta (balloc 1 (some 8192) 100 (init zeroMem)) (init zeroMem) (by decide!)
  have hp : ptrOf (balloc 1 (some 8192) 100 (init zeroMem)) = 12064 := by decide!
  rw [hp] at h
  exact h

theorem reach_afterAlloc : Reach afterAlloc [12064] :=
  Reach.balloc 1 (some 8192) 100 12064 afterAlloc (Reach.init zeroMem)
    ⟨by decide, by decide, by decide, by simp [init]⟩ afterAlloc_run (by decide)

theorem balloc_reject (fuel : Nat) (os : Option Nat) (size : Nat) (s : State)
    (h : size = 0 ∨ PAGE - sizeof_head < size) : balloc fuel os size s = .ok (0, s) := by
  have h1 : size ≤ 0 ∨ size > PAGE - sizeof_head := by omega
  simp only [balloc, h1, if_true]

theorem balloc_nonnull (fuel : Nat) (os : Option Nat) (size : Nat) (s : State)
    (h : 0 < size ∧ size ≤ PAGE - sizeof_head) (p : Nat) (s' : State)
    (hrun : balloc fuel os size s = .ok (p, s')) : p ≠ 0 := by
  have h1 : ¬ (size ≤ 0 ∨ size > PAGE - sizeof_head) := by omega
  simp only [balloc, h1, if_false] at hrun
  obtain ⟨L, _, hrun⟩ := bind_eq_ok _ _ _ hrun
  obtain ⟨found, _, hrun⟩ := bind_eq_ok _ _ _ hrun
  obtain ⟨r, _, hrun⟩ := bind_eq_ok _ _ _ hrun
  obtain ⟨g, _, hrun⟩ := bind_eq_ok _ _ _ hrun
  obtain ⟨s3, _, hrun⟩ := bind_eq_ok _ _ _ hrun
  simp only [pure, Except.pure, Except.ok.injEq, Prod.mk.injEq] at hrun
  rw [← hrun.1]
  simp [hide, sizeof_head]

theorem balloc_oom (fuel size : Nat) (s : State) (L : Int)
    (hv : 0 < size ∧ size ≤ PAGE - sizeof_head) (hl : level (size : Int) = .ok L)
    (hf : findSmallestFree fuel L s = .ok 0) :
    balloc fuel none size s = .error .nullDeref := by
  have h1 : ¬ (size ≤ 0 ∨ size > PAGE - sizeof_head) := by omega
  simp only [balloc, h1, if_false, hl, hf, bind, Except.bind, new, if_true,
    addToLinkedListFront, load]

theorem ok_eta_end (r : Except Fault State) (d : State) (h : succeeded r = true) :
    r = .ok (endOf r d) := by
  cases r with
  | ok x => rfl
  | error e => simp [succeeded] at h

theorem afterFree_run : bfree 12064 afterAlloc = .ok afterFree :=
  ok_eta_end (bfree 12064 afterAlloc) (init zeroMem) (by decide!)

theorem reach_afterFree : Reach afterFree [] := by
  have h := Reach.bfree 12064 afterFree reach_afterAlloc (List.mem_cons_self _ _)
    afterFree_run
  simpa using h

/-! ## Doubly linked lists in memory -/

theorem chain_nonzero {mem : Nat → head} : ∀ {l : List Nat} {p c : Nat},
    Chain mem p c l → ∀ a ∈ l, a ≠ 0 := by
  intro l
  induction l with
  | nil => intro p c _ a ha; cases ha
  | cons b l ih =>
    intro p c h a ha
    obtain ⟨_, hb, _, hrest⟩ := h
    rcases List.mem_cons.mp ha with rfl | ha'
    · exact hb
    · exact ih hrest a ha'

theorem chain_start {mem : Nat → head} {l : List Nat} {p c : Nat} (h : Chain mem p c l) :
    c = 0 ∨ c ∈ l := by
  cases l with
  | nil => exact Or.inl h
  | cons b l => exact Or.inr (by rw [h.1]; exact List.mem_cons_self _ _)

theorem chain_congr {mem mem' : Nat → head} : ∀ {l : List Nat} {p c : Nat},
    (∀ x ∈ l, (mem' x).next = (mem x).next ∧ (mem' x).prev = (mem x).prev) →
    Chain mem p c l → Chain mem' p c l := by
  intro l
  induction l with
  | nil => intro p c _ h; exact h
  | cons b l ih =>
    intro p c hm h
    obtain ⟨h1, h2, h3, h4⟩ := h
    have hb := hm b (List.mem_cons_self _ _)
    refine ⟨h1, h2, by rw [hb.2]; exact h3, ?_⟩
    rw [hb.1]
    exact ih (fun x hx => hm x (List.mem_cons_of_mem _ hx)) h4

theorem chain_set_prev {mem mem' : Nat → head} {l : List Nat} {p p' c : Nat}
    (h : Chain mem p c l) (hnd : l.Nodup)
    (hn : ∀ x ∈ l, (mem' x).next = (mem x).next)
    (hp : ∀ x ∈ l, x ≠ c → (mem' x).prev = (mem x).prev)
    (hc : c ≠ 0 → (mem' c).prev = p') : Chain mem' p' c l := by
  cases l with
  | nil => exact h
  | cons b l =>
    obtain ⟨h1, h2, h3, h4⟩ := h
    subst h1
    refine ⟨rfl, h2, hc h2, ?_⟩
    rw [hn c (List.mem_cons_self _ _)]
    have hcl : c ∉ l := (List.nodup_cons.mp hnd).1
    refine chain_congr (fun x hx => ⟨hn x (List.mem_cons_of_mem _ hx), ?_⟩) h4
    exact hp x (List.mem_cons_of_mem _ hx) (fun e => hcl (e ▸ hx))

theorem chain_mid {mem : Nat → head} {a : Nat} : ∀ {l1 l2 : List Nat} {p c : Nat},
    Chain mem p c (l1 ++ a :: l2) →
    Chain mem a (mem a).next l2 ∧ ((mem a).prev = p ∧ l1 = [] ∨ (mem a).prev ∈ l1) := by
  intro l1
  induction l1 with
  | nil =>
    intro l2 p c h
    obtain ⟨_, _, h3, h4⟩ := h
    exact ⟨h4, Or.inl ⟨h3, rfl⟩⟩
  | cons d l1 ih =>
    intro l2 p c h
    obtain ⟨_, _, _, h4⟩ := h
    obtain ⟨r1, r2⟩ := ih h4
    refine ⟨r1, Or.inr ?_⟩
    rcases r2 with ⟨e, rfl⟩ | r2
    · rw [e]; exact List.mem_cons_self _ _
    · exact List.mem_cons_of_mem _ r2

theorem chain_delete {mem mem' : Nat → head} {a pv nx : Nat}
    (hpv : pv = (mem a).prev) (hnx : nx = (mem a).next)
    (hn1 : ∀ x, x ≠ 0 → x ≠ a → x ≠ pv → (mem' x).next = (mem x).next)
    (hp1 : ∀ x, x ≠ 0 → x ≠ a → x ≠ nx → (mem' x).prev = (mem x).prev)
    (hn2 : pv ≠ 0 → pv ≠ a → (mem' pv).next = nx)
    (hp2 : nx ≠ 0 → nx ≠ a → (mem' nx).prev = pv) :
    ∀ (l1 l2 : List Nat) (p0 c : Nat), Chain mem p0 c (l1 ++ a :: l2) →
      (l1 ++ a :: l2).Nodup → p0 ∉ l1 ++ a :: l2 →
      Chain mem' p0 (if l1 = [] then nx else c) (l1 ++ l2) := by
  intro l1
  induction l1 with
  | nil =>
    intro l2 p0 c h hnd hp0
    have hnz := chain_nonzero h
    obtain ⟨h1, h2, h3, h4⟩ := h
    simp only [List.nil_append, if_true] at *
    have hal2 : a ∉ l2 := (List.nodup_cons.mp hnd).1
    have hnd2 : l2.Nodup := (List.nodup_cons.mp hnd).2
    have hpv0 : pv = p0 := by rw [hpv, h3]
    rw [← hnx] at h4
    have hnxl : nx = 0 ∨ nx ∈ l2 := chain_start h4
    refine chain_set_prev h4 hnd2 ?_ ?_ ?_
    · intro x hx
      refine hn1 x (hnz x (List.mem_cons_of_mem _ hx)) (fun e => hal2 (e ▸ hx)) ?_
      intro e
      exact hp0 (by rw [← hpv0, ← e]; exact List.mem_cons_of_mem _ hx)
    · intro x hx hxc
      exact hp1 x (hnz x (List.mem_cons_of_mem _ hx)) (fun e => hal2 (e ▸ hx)) hxc
    · intro hnx0
      rw [← hpv0]
      refine hp2 hnx0 ?_
      rcases hnxl with e | e
      · exact absurd e hnx0
      · exact fun e' => hal2 (e' ▸ e)
  | cons d l1 ih =>
    intro l2 p0 c h hnd hp0
    have hnz := chain_nonzero h
    have hmid := @chain_mid _ _ (d :: l1) _ _ _ h
    obtain ⟨h1, h2, h3, h4⟩ := h
    simp only [List.cons_append] at hnd hp0 ⊢
    have hd : d ∉ l1 ++ a :: l2 := (List.nodup_cons.mp hnd).1
    have hnd' : (l1 ++ a :: l2).Nodup := (List.nodup_cons.mp hnd).2
    have hda : d ≠ a := fun e => hd (by rw [e]; simp)
    have hnxl : nx = 0 ∨ nx ∈ l2 := by rw [hnx]; exact chain_start hmid.1
    have hdnx : d ≠ nx := by
      rcases hnxl with e | e
      · rw [e]; exact h2
      · exact fun e' => hd (by rw [e']; simp [e])
    have hih := ih l2 d (mem d).next h4 hnd' hd
    simp only [List.cons_ne_nil, if_false]
    refine ⟨h1, h2, ?_, ?_⟩
    · rw [hp1 d h2 hda hdnx]; exact h3
    · by_cases hl1 : l1 = []
      · subst hl1
        simp only [List.nil_append, if_true] at hih h4 ⊢
        have hpvd : pv = d := by rw [hpv]; exact h4.2.2.1
        have : (mem' d).next = nx := by
          rw [← hpvd]; exact hn2 (by rw [hpvd]; exact h2) (by rw [hpvd]; exact hda)
        rw [this]; exact hih
      · simp only [hl1, if_false] at hih
        have hpvl : pv ∈ l1 := by
          obtain ⟨_, r2⟩ := chain_mid h4
          rcases r2 with ⟨_, e⟩ | r2
          · exact absurd e hl1
          · rw [hpv]; exact r2
        have hdpv : d ≠ pv := fun e => hd (by rw [e]; simp [hpvl])
        rw [hn1 d h2 hda hdpv]
        exact hih

/-! ## The lists of the table under the list operations -/

theorem inList_of_mem {mem : Nat → head} : ∀ {l : List Nat} {p c : Nat},
    Chain mem p c l → ∀ a ∈ l, InList mem c a := by
  intro l
  induction l with
  | nil => intro p c _ a ha; cases ha
  | cons b l ih =>
    intro p c h a ha
    obtain ⟨h1, h2, _, h4⟩ := h
    subst h1
    rcases List.mem_cons.mp ha with rfl | ha'
    · exact InList.here _ h2
    · exact InList.next _ _ h2 (ih h4 a ha')

theorem mem_of_inList {mem : Nat → head} {c a : Nat} (hin : InList mem c a) :
    ∀ {l : List Nat} {p : Nat}, Chain mem p c l → a ∈ l := by
  induction hin with
  | here a ha =>
    intro l p h
    rcases chain_start h with e | e
    · exact absurd e ha
    · exact e
  | next c a hc _ ih =>
    intro l p h
    cases l with
    | nil => exact absurd h hc
    | cons b l =>
      obtain ⟨h1, _, _, h4⟩ := h
      subst h1
      exact List.mem_cons_of_mem _ (ih h4)

theorem linked_iff {s : State} {ls : Nat → List Nat} (hr : Rep s ls) {i : Nat}
    (hi : i < LEVELS) (a : Nat) : Linked s i a ↔ a ∈ ls i :=
  ⟨fun h => mem_of_inList h (hr.chain i hi), fun h => inList_of_mem (hr.chain i hi) a h⟩

theorem rep_nonzero {s : State} {ls : Nat → List Nat} (hr : Rep s ls) {i a : Nat}
    (hi : i < LEVELS) (ha : a ∈ ls i) : a ≠ 0 :=
  chain_nonzero (hr.chain i hi) a ha

theorem rep_level_ne {s : State} {ls : Nat → List Nat} (hr : Rep s ls) {i j a b : Nat}
    (hi : i < LEVELS) (hj : j < LEVELS) (ha : a ∈ ls i) (hb : b ∈ ls j) (hij : i ≠ j) :
    a ≠ b := by
  intro e
  have h1 := hr.level i hi a ha
  have h2 := hr.level j hj b hb
  rw [e, h2] at h1
  exact hij (by exact_mod_cast h1.symm)

theorem rep_frame {s s' : State} {ls : Nat → List Nat} (hr : Rep s ls)
    (hf : s'.flists = s.flists)
    (hm : ∀ j, j < LEVELS → ∀ x ∈ ls j, (s'.mem x).next = (s.mem x).next ∧
      (s'.mem x).prev = (s.mem x).prev ∧ (s'.mem x).level = (s.mem x).level) :
    Rep s' ls := by
  refine ⟨fun i hi => ?_, fun i hi a ha => ?_, hr.nodup⟩
  · rw [hf]
    exact chain_congr (fun x hx => ⟨(hm i hi x hx).1, (hm i hi x hx).2.1⟩) (hr.chain i hi)
  · rw [(hm i hi a ha).2.2]; exact hr.level i hi a ha

theorem rep_delete {s : State} {ls : Nat → List Nat} (hr : Rep s ls) {i a : Nat}
    (hi : i < LEVELS) (ha : a ∈ ls i) :
    ∃ s', deleteFromLinkedList s a = .ok s' ∧
      Rep s' (Function.update ls i ((ls i).erase a)) ∧ s'.pages = s.pages ∧
      (∀ x, (s'.mem x).level = (s.mem x).level ∧ (s'.mem x).status = (s.mem x).status) := by
  obtain ⟨l1, l2, hl⟩ := List.append_of_mem ha
  have hch := hr.chain i hi
  have hnd := hr.nodup i hi
  rw [hl] at hch hnd
  have hnz := chain_nonzero hch
  have ha0 : a ≠ 0 := hnz a (by simp)
  have hal1 : a ∉ l1 := by
    intro h
    have := List.nodup_append.mp hnd
    exact this.2.2 h (List.mem_cons_self _ _)
  have hal2 : a ∉ l2 := by
    have := (List.nodup_append.mp hnd).2.1
    exact (List.nodup_cons.mp this).1
  obtain ⟨hmid1, hmid2⟩ := chain_mid hch
  have hnxl := chain_start hmid1
  have hpa : (s.mem a).prev ≠ a := by
    rcases hmid2 with ⟨e, _⟩ | e
    · rw [e]; exact Ne.symm ha0
    · exact fun e' => hal1 (e' ▸ e)
  have hna : (s.mem a).next ≠ a := by
    rcases hnxl with e | e
    · rw [e]; exact Ne.symm ha0
    · exact fun e' => hal2 (e' ▸ e)
  obtain ⟨s', hrun, hpg, hfl, hls, hnext, hprev⟩ :=
    delete_exec s a i ha0 hi (hr.level i hi a ha) hpa hna
  have hpvmem : (s.mem a).prev = 0 ∨ (s.mem a).prev ∈ ls i := by
    rcases hmid2 with ⟨e, _⟩ | e
    · exact Or.inl e
    · exact Or.inr (by rw [hl]; simp [e])
  have hnxmem : (s.mem a).next = 0 ∨ (s.mem a).next ∈ ls i := by
    rcases hnxl with e | e
    · exact Or.inl e
    · exact Or.inr (by rw [hl]; simp [e])
  have herase : (ls i).erase a = l1 ++ l2 := by
    rw [hl, List.erase_append_right _ hal1, List.erase_cons_head]
  refine ⟨s', hrun, ⟨fun j hj => ?_, fun j hj x hx => ?_, fun j hj => ?_⟩, hpg, hls⟩
  · by_cases hji : j = i
    · subst hji
      rw [Function.update_same, herase]
      have hc := @chain_delete s.mem s'.mem a _ _ rfl rfl
        (fun x hx0 hxa hxp => by rw [hnext x hx0, if_neg hxa, if_neg hxp])
        (fun x hx0 hxa hxn => by rw [hprev x hx0, if_neg hxa, if_neg hxn])
        (fun hp0 hpa' => by rw [hnext _ hp0, if_neg hpa', if_pos rfl])
        (fun hn0 hna' => by rw [hprev _ hn0, if_neg hna', if_pos rfl])
        l1 l2 0 (s.flists j) hch hnd (fun h0 => hnz 0 h0 rfl)
      have hhead : s'.flists j = if l1 = [] then (s.mem a).next else s.flists j := by
        rw [hfl]
        rcases hmid2 with ⟨e, e1⟩ | e
        · rw [if_pos e, if_pos e1, Function.update_same]
        · have hne : (s.mem a).prev ≠ 0 := hnz _ (by simp [e])
          have hl1 : l1 ≠ [] := fun h => by rw [h] at e; cases e
          rw [if_neg hne, if_neg hl1]
      rw [hhead]; exact hc
    · rw [Function.update_noteq hji]
      have hfj : s'.flists j = s.flists j := by
        rw [hfl]; split
        · rw [Function.update_noteq hji]
        · rfl
      rw [hfj]
      refine chain_congr (fun x hx => ?_) (hr.chain j hj)
      have hx0 := rep_nonzero hr hj hx
      have hxa : x ≠ a := rep_level_ne hr hj hi hx ha hji
      have hxp : x ≠ (s.mem a).prev := by
        rcases hpvmem with e | e
        · rw [e]; exact hx0
        · exact rep_level_ne hr hj hi hx e hji
      have hxn : x ≠ (s.mem a).next := by
        rcases hnxmem with e | e
        · rw [e]; exact hx0
        · exact rep_level_ne hr hj hi hx e hji
      rw [hnext x hx0, hprev x hx0, if_neg hxa, if_neg hxa, if_neg hxp, if_neg hxn]
      exact ⟨rfl, rfl⟩
  · rw [(hls x).1]
    by_cases hji : j = i
    · subst hji
      rw [Function.update_same] at hx
      exact hr.level j hj x (List.mem_of_mem_erase hx)
    · rw [Function.update_noteq hji] at hx
      exact hr.level j hj x hx
  · by_cases hji : j = i
    · subst hji
      rw [Function.update_same]
      exact (hr.nodup j hj).erase a
    · rw [Function.update_noteq hji]
      exact hr.nodup j hj

theorem rep_add {s : State} {ls : Nat → List Nat} (hr : Rep s ls) {i a : Nat}
    (hi : i < LEVELS) (ha0 : a ≠ 0) (hlev : (s.mem a).level = (i : Int))
    (hfresh : ∀ j, j < LEVELS → a ∉ ls j) :
    ∃ s', addToLinkedListFront s a = .ok s' ∧
      Rep s' (Function.update ls i (a :: ls i)) ∧ s'.pages = s.pages ∧
      (∀ x, (s'.mem x).level = (s.mem x).level ∧ (s'.mem x).status = (s.mem x).status) := by
  have hch := hr.chain i hi
  have hfront : s.flists i = 0 ∨ s.flists i ∈ ls i := chain_start hch
  have hfa : s.flists i ≠ a := by
    rcases hfront with e | e
    · rw [e]; exact Ne.symm ha0
    · exact fun e' => hfresh i hi (e' ▸ e)
  obtain ⟨s', hrun, hpg, hfl, hls, hnext, hprev⟩ := add_exec s a i ha0 hi hlev hfa
  refine ⟨s', hrun, ⟨fun j hj => ?_, fun j hj x hx => ?_, fun j hj => ?_⟩, hpg, hls⟩
  · by_cases hji : j = i
    · subst hji
      rw [Function.update_same, hfl, Function.update_same]
      refine ⟨rfl, ha0, by rw [hprev a ha0, if_pos rfl], ?_⟩
      rw [hnext a ha0, if_pos rfl]
      refine chain_set_prev hch (hr.nodup j hj) ?_ ?_ ?_
      · intro x hx
        have hxa : x ≠ a := fun e => hfresh j hj (e ▸ hx)
        rw [hnext x (rep_nonzero hr hj hx), if_neg hxa]
      · intro x hx hxf
        have hxa : x ≠ a := fun e => hfresh j hj (e ▸ hx)
        rw [hprev x (rep_nonzero hr hj hx), if_neg hxa, if_neg hxf]
      · intro hf0
        rw [hprev _ hf0, if_neg hfa, if_pos rfl]
    · rw [Function.update_noteq hji, hfl, Function.update_noteq hji]
      refine chain_congr (fun x hx => ?_) (hr.chain j hj)
      have hx0 := rep_nonzero hr hj hx
      have hxa : x ≠ a := fun e => hfresh j hj (e ▸ hx)
      have hxf : x ≠ s.flists i := by
        rcases hfront with e | e
        · rw [e]; exact hx0
        · exact rep_level_ne hr hj hi hx e hji
      rw [hnext x hx0, hprev x hx0, if_neg hxa, if_neg hxa, if_neg hxf]
      exact ⟨rfl, rfl⟩
  · rw [(hls x).1]
    by_cases hji : j = i
    · subst hji
      rw [Function.update_same] at hx
      rcases List.mem_cons.mp hx with rfl | hx'
      · exact hlev
      · exact hr.level j hj x hx'
    · rw [Function.update_noteq hji] at hx
      exact hr.level j hj x hx
  · by_cases hji : j = i
    · subst hji
      rw [Function.update_same]
      exact List.nodup_cons.mpr ⟨hfresh j hj, hr.nodup j hj⟩
    · rw [Function.update_noteq hji]
      exact hr.nodup j hj

/-! ## Blocks that tile the pages -/

theorem bsize_pos (i : Nat) : 0 < bsize i := Nat.two_pow_pos _

theorem bsize_succ (i : Nat) : bsize (i + 1) = 2 * bsize i := by
  unfold bsize
  have e : i + 1 + MIN = (i + MIN) + 1 := by omega
  rw [e, Nat.pow_succ]
  omega

theorem bsize_dvd {i j : Nat} (h : i ≤ j) : bsize i ∣ bsize j :=
  Nat.pow_dvd_pow 2 (by omega)

theorem bsize_max : bsize MAX_LEVEL = PAGE := by decide

theorem bsize_dvd_page {i : Nat} (h : i ≤ MAX_LEVEL) : bsize i ∣ PAGE := by
  rw [← bsize_max]; exact bsize_dvd h

theorem bsize_le {i j : Nat} (h : i ≤ j) : bsize i ≤ bsize j :=
  Nat.le_of_dvd (bsize_pos j) (bsize_dvd h)

theorem mult_step {d a b : Nat} (ha : d ∣ a) (hb : d ∣ b) (hlt : a < b) : a + d ≤ b := by
  have h1 : d ∣ b - a := Nat.dvd_sub' hb ha
  have h2 : d ≤ b - a := Nat.le_of_dvd (by omega) h1
  omega

theorem mult_eq {d a b : Nat} (ha : d ∣ a) (hb : d ∣ b) (h1 : a ≤ b) (h2 : b < a + d) :
    a = b := by
  by_contra hne
  have := mult_step ha hb (by omega)
  omega

theorem buddy_cases (a K : Nat) (hal : bsize K ∣ a) :
    (bsize (K + 1) ∣ a ∧ a ^^^ bsize K = a + bsize K) ∨
    (bsize K ≤ a ∧ bsize (K + 1) ∣ a - bsize K ∧ a ^^^ bsize K = a - bsize K) := by
  have hs : bsize (K + 1) = 2 ^ (K + MIN + 1) := by
    unfold bsize; congr 1
  obtain ⟨q, hq⟩ := hal
  rcases Nat.even_or_odd q with ⟨r, hr⟩ | ⟨r, hr⟩
  · left
    have hd : bsize (K + 1) ∣ a := ⟨r, by rw [hq, hr, bsize_succ]; ring⟩
    refine ⟨hd, ?_⟩
    rw [hs] at hd
    exact xor_pow_of_dvd a (K + MIN) hd
  · right
    have hpos := bsize_pos K
    have ha : a = 2 * bsize K * r + bsize K := by rw [hq, hr]; ring
    have hsub : a - bsize K = 2 * bsize K * r := by omega
    have hd : bsize (K + 1) ∣ a - bsize K := ⟨r, by rw [hsub, bsize_succ]⟩
    refine ⟨by omega, hd, ?_⟩
    rw [hs] at hd
    have := add_pow_xor_of_dvd (a - bsize K) (K + MIN) hd
    have e : a - bsize K + 2 ^ (K + MIN) = a := by
      show a - bsize K + bsize K = a
      omega
    rw [e] at this
    exact this

theorem tiling_split {pages : List Nat} {blk blk' : Nat → Nat → Prop} {K a : Nat}
    (ht : Tiling pages blk) (hb : blk (K + 1) a)
    (hiff : ∀ j x, blk' j x ↔ (blk j x ∧ ¬ (j = K + 1 ∧ x = a)) ∨
      (j = K ∧ (x = a ∨ x = a + bsize K))) : Tiling pages blk' := by
  have hs := bsize_succ K
  have hpos := bsize_pos K
  have hKl := ht.lvl _ _ hb
  have hal := ht.aligned _ _ hb
  have hal' : bsize K ∣ a := Dvd.dvd.trans (bsize_dvd (Nat.le_succ K)) hal
  refine ⟨ht.page_ok, ht.page_nodup, ?_, ?_, ?_, ?_, ?_⟩
  · intro j x h
    rcases (hiff j x).mp h with ⟨h1, _⟩ | ⟨rfl, _⟩
    · exact ht.lvl _ _ h1
    · omega
  · intro j x h
    rcases (hiff j x).mp h with ⟨h1, _⟩ | ⟨rfl, rfl | rfl⟩
    · exact ht.aligned _ _ h1
    · exact hal'
    · exact Nat.dvd_add hal' (dvd_refl _)
  · intro j x h
    rcases (hiff j x).mp h with ⟨h1, _⟩ | ⟨rfl, rfl | rfl⟩
    · exact ht.inpage _ _ h1
    · obtain ⟨p, hp, h1, h2⟩ := ht.inpage _ _ hb
      exact ⟨p, hp, h1, by omega⟩
    · obtain ⟨p, hp, h1, h2⟩ := ht.inpage _ _ hb
      exact ⟨p, hp, by omega, by omega⟩
  · intro i j x y hx hy
    rcases (hiff i x).mp hx with ⟨h1, n1⟩ | ⟨rfl, hx'⟩ <;>
      rcases (hiff j y).mp hy with ⟨h2, n2⟩ | ⟨rfl, hy'⟩
    · exact ht.disjoint _ _ _ _ h1 h2
    · have := ht.disjoint _ _ _ _ h1 hb
      rcases this with ⟨e1, e2⟩ | h | h
      · exact absurd ⟨e2, e1⟩ n1
      · rcases hy' with rfl | rfl <;> omega
      · rcases hy' with rfl | rfl <;> omega
    · have := ht.disjoint _ _ _ _ hb h2
      rcases this with ⟨e1, e2⟩ | h | h
      · exact absurd ⟨e2.symm, e1.symm⟩ n2
      · rcases hx' with rfl | rfl <;> omega
      · rcases hx' with rfl | rfl <;> omega
    · rcases hx' with rfl | rfl <;> rcases hy' with rfl | rfl <;> omega
  · intro p hp x h1 h2
    obtain ⟨i, b, hb', h3, h4⟩ := ht.cover p hp x h1 h2
    by_cases hc : i = K + 1 ∧ b = a
    · obtain ⟨rfl, rfl⟩ := hc
      by_cases hx : x < b + bsize K
      · exact ⟨K, b, (hiff _ _).mpr (Or.inr ⟨rfl, Or.inl rfl⟩), h3, hx⟩
      · exact ⟨K, b + bsize K, (hiff _ _).mpr (Or.inr ⟨rfl, Or.inr rfl⟩), by omega, by omega⟩
    · exact ⟨i, b, (hiff _ _).mpr (Or.inl ⟨hb', hc⟩), h3, h4⟩

theorem tiling_merge {pages : List Nat} {blk blk' : Nat → Nat → Prop} {K q : Nat}
    (ht : Tiling pages blk) (h1 : blk K q) (h2 : blk K (q + bsize K))
    (hq : bsize (K + 1) ∣ q) (hK : K < MAX_LEVEL)
    (hiff : ∀ j x, blk' j x ↔ (blk j x ∧ ¬ (j = K ∧ (x = q ∨ x = q + bsize K))) ∨
      (j = K + 1 ∧ x = q)) : Tiling pages blk' := by
  have hs := bsize_succ K
  have hpos := bsize_pos K
  have h7 : K < 7 := hK
  refine ⟨ht.page_ok, ht.page_nodup, ?_, ?_, ?_, ?_, ?_⟩
  · intro j x h
    rcases (hiff j x).mp h with ⟨h1, _⟩ | ⟨rfl, _⟩
    · exact ht.lvl _ _ h1
    · simp only [LEVELS]; omega
  · intro j x h
    rcases (hiff j x).mp h with ⟨h1, _⟩ | ⟨rfl, rfl⟩
    · exact ht.aligned _ _ h1
    · exact hq
  · intro j x h
    rcases (hiff j x).mp h with ⟨h1, _⟩ | ⟨rfl, rfl⟩
    · exact ht.inpage _ _ h1
    · obtain ⟨p, hp, hp1, hp2⟩ := ht.inpage _ _ h1
      refine ⟨p, hp, hp1, ?_⟩
      have hpg := (ht.page_ok p hp).2.1
      have hd : bsize (K + 1) ∣ p + PAGE :=
        Nat.dvd_add (Dvd.dvd.trans (bsize_dvd_page (by simp only [MAX_LEVEL]; omega)) hpg)
          (bsize_dvd_page (by simp only [MAX_LEVEL]; omega))
      exact mult_step hq hd (by omega)
  · intro i j x y hx hy
    rcases (hiff i x).mp hx with ⟨a1, n1⟩ | ⟨rfl, rfl⟩ <;>
      rcases (hiff j y).mp hy with ⟨a2, n2⟩ | ⟨rfl, rfl⟩
    · exact ht.disjoint _ _ _ _ a1 a2
    · have d1 := ht.disjoint _ _ _ _ a1 h1
      have d2 := ht.disjoint _ _ _ _ a1 h2
      have hpi := bsize_pos i
      rcases d1 with ⟨e1, e2⟩ | d1 | d1
      · exact absurd ⟨e2, Or.inl e1⟩ n1
      · rcases d2 with ⟨e1, e2⟩ | d2 | d2
        · exact absurd ⟨e2, Or.inr e1⟩ n1
        · omega
        · omega
      · rcases d2 with ⟨e1, e2⟩ | d2 | d2
        · exact absurd ⟨e2, Or.inr e1⟩ n1
        · omega
        · omega
    · have d1 := ht.disjoint _ _ _ _ h1 a2
      have d2 := ht.disjoint _ _ _ _ h2 a2
      have hpj := bsize_pos j
      rcases d1 with ⟨e1, e2⟩ | d1 | d1
      · exact absurd ⟨e2.symm, Or.inl e1.symm⟩ n2
      · rcases d2 with ⟨e1, e2⟩ | d2 | d2
        · exact absurd ⟨e2.symm, Or.inr e1.symm⟩ n2
        · omega
        · omega
      · rcases d2 with ⟨e1, e2⟩ | d2 | d2
        · exact absurd ⟨e2.symm, Or.inr e1.symm⟩ n2
        · omega
        · omega
    · exact Or.inl ⟨rfl, rfl⟩
  · intro p hp x hx1 hx2
    obtain ⟨i, b, hb', h3, h4⟩ := ht.cover p hp x hx1 hx2
    by_cases hc : i = K ∧ (b = q ∨ b = q + bsize K)
    · obtain ⟨rfl, hb2⟩ := hc
      refine ⟨i + 1, q, (hiff _ _).mpr (Or.inr ⟨rfl, rfl⟩), ?_, ?_⟩
      · rcases hb2 with rfl | rfl <;> omega
      · rcases hb2 with rfl | rfl <;> omega
    · exact ⟨i, b, (hiff _ _).mpr (Or.inl ⟨hb', hc⟩), h3, h4⟩

theorem tiling_newpage {pages : List Nat} {blk blk' : Nat → Nat → Prop} {p : Nat}
    (ht : Tiling pages blk) (hp0 : p ≠ 0) (hpa : PAGE ∣ p) (hp64 : p + PAGE ≤ 2 ^ 64)
    (hpn : p ∉ pages)
    (hiff : ∀ j x, blk' j x ↔ blk j x ∨ (j = MAX_LEVEL ∧ x = p)) :
    Tiling (p :: pages) blk' := by
  have hmax := bsize_max
  have pages_disj : ∀ p' ∈ pages, p + PAGE ≤ p' ∨ p' + PAGE ≤ p := by
    intro p' hp'
    have hne : p ≠ p' := fun e => hpn (e ▸ hp')
    have hd := (ht.page_ok p' hp').2.1
    rcases Nat.lt_or_gt_of_ne hne with h | h
    · exact Or.inl (mult_step hpa hd h)
    · exact Or.inr (mult_step hd hpa h)
  refine ⟨?_, List.nodup_cons.mpr ⟨hpn, ht.page_nodup⟩, ?_, ?_, ?_, ?_, ?_⟩
  · intro p' hp'
    rcases List.mem_cons.mp hp' with rfl | h
    · exact ⟨hp0, hpa, hp64⟩
    · exact ht.page_ok p' h
  · intro j x h
    rcases (hiff j x).mp h with h1 | ⟨rfl, _⟩
    · exact ht.lvl _ _ h1
    · decide
  · intro j x h
    rcases (hiff j x).mp h with h1 | ⟨rfl, rfl⟩
    · exact ht.aligned _ _ h1
    · rw [hmax]; exact hpa
  · intro j x h
    rcases (hiff j x).mp h with h1 | ⟨rfl, rfl⟩
    · obtain ⟨p', hp', r1, r2⟩ := ht.inpage _ _ h1
      exact ⟨p', List.mem_cons_of_mem _ hp', r1, r2⟩
    · exact ⟨x, List.mem_cons_self _ _, le_refl _, by rw [hmax]⟩
  · intro i j x y hx hy
    rcases (hiff i x).mp hx with a1 | ⟨rfl, rfl⟩ <;>
      rcases (hiff j y).mp hy with a2 | ⟨rfl, rfl⟩
    · exact ht.disjoint _ _ _ _ a1 a2
    · obtain ⟨p', hp', r1, r2⟩ := ht.inpage _ _ a1
      have hpos := bsize_pos i
      rcases pages_disj p' hp' with h | h <;> omega
    · obtain ⟨p', hp', r1, r2⟩ := ht.inpage _ _ a2
      have hpos := bsize_pos j
      rcases pages_disj p' hp' with h | h <;> omega
    · exact Or.inl ⟨rfl, rfl⟩
  · intro p' hp' x hx1 hx2
    rcases List.mem_cons.mp hp' with rfl | h
    · exact ⟨MAX_LEVEL, p', (hiff _ _).mpr (Or.inr ⟨rfl, rfl⟩), hx1, by rw [hmax]; exact hx2⟩
    · obtain ⟨i, b, hb, h3, h4⟩ := ht.cover p' h x hx1 hx2
      exact ⟨i, b, (hiff _ _).mpr (Or.inl hb), h3, h4⟩

theorem buddy_block {pages : List Nat} {blk : Nat → Nat → Prop} {K a : Nat}
    (ht : Tiling pages blk) (hb : blk K a) (hK : K < MAX_LEVEL) :
    ∃ M, M ≤ K ∧ blk M (a ^^^ bsize K) := by
  have h7 : K < 7 := hK
  have hs := bsize_succ K
  have hpos := bsize_pos K
  have hal := ht.aligned _ _ hb
  obtain ⟨p, hp, hp1, hp2⟩ := ht.inpage _ _ hb
  have hpg := (ht.page_ok p hp).2.1
  have hdp : bsize (K + 1) ∣ p :=
    Dvd.dvd.trans (bsize_dvd_page (by simp only [MAX_LEVEL]; omega)) hpg
  have hdpp : bsize (K + 1) ∣ p + PAGE :=
    Nat.dvd_add hdp (bsize_dvd_page (by simp only [MAX_LEVEL]; omega))
  have key : ∀ b, (b = a + bsize K ∧ bsize (K + 1) ∣ a) ∨
      (b + bsize K = a ∧ bsize (K + 1) ∣ b) → ∃ M, M ≤ K ∧ blk M b := by
    intro b hcase
    have hbp : p ≤ b ∧ b < p + PAGE := by
      rcases hcase with ⟨rfl, hd⟩ | ⟨e, hd⟩
      · have := mult_step hd hdpp (by omega)
        omega
      · constructor
        · by_contra hlt
          have := mult_step hd hdp (by omega)
          omega
        · omega
    obtain ⟨M, c, hc, hc1, hc2⟩ := ht.cover p hp b hbp.1 hbp.2
    have hcal := ht.aligned _ _ hc
    have hMK : M ≤ K := by
      by_contra hgt
      have hd2 : bsize (K + 1) ∣ bsize M := bsize_dvd (by omega)
      have hdc : bsize (K + 1) ∣ c := Dvd.dvd.trans hd2 hcal
      have hdct : bsize (K + 1) ∣ c + bsize M := Nat.dvd_add hdc hd2
      rcases ht.disjoint _ _ _ _ hb hc with ⟨_, e⟩ | d | d
      · omega
      · rcases hcase with ⟨rfl, hd⟩ | ⟨e, hd⟩
        · have : c = a + bsize K := by omega
          have := mult_step hd hdc (by omega)
          omega
        · omega
      · rcases hcase with ⟨rfl, hd⟩ | ⟨e, hd⟩
        · omega
        · have := mult_step hd hdct (by omega)
          omega
    refine ⟨M, hMK, ?_⟩
    have hbal : bsize M ∣ b := by
      rcases hcase with ⟨rfl, hd⟩ | ⟨e, hd⟩
      · exact Nat.dvd_add (Dvd.dvd.trans (bsize_dvd hMK) hal) (bsize_dvd hMK)
      · exact Dvd.dvd.trans (bsize_dvd (by omega)) hd
    have : c = b := mult_eq hcal hbal hc1 hc2
    rw [← this]; exact hc
  rcases buddy_cases a K hal with ⟨hd, e⟩ | ⟨hle, hd, e⟩
  · rw [e]; exact key _ (Or.inl ⟨rfl, hd⟩)
  · rw [e]; exact key _ (Or.inr ⟨by omega, hd⟩)

/-! ## The search for a free block -/

theorem skipUsed_sound (s : State) : ∀ (fuel c : Nat) (l : List Nat) (p t : Nat),
    Chain s.mem p c l → skipUsed s fuel c = .ok t → t = 0 ∨ t ∈ l := by
  intro fuel
  induction fuel with
  | zero => intro c l p t _ h; cases h
  | succ fuel ih =>
    intro c l p t hch h
    unfold skipUsed at h
    split at h
    · rename_i hc
      cases l with
      | nil => exact absurd hch hc.1
      | cons b l =>
        obtain ⟨h1, _, _, h4⟩ := hch
        subst h1
        rcases ih _ _ _ _ h4 h with e | e
        · exact Or.inl e
        · exact Or.inr (List.mem_cons_of_mem _ e)
    · cases h
      exact chain_start hch

theorem skipUsed_complete (s : State) : ∀ (l : List Nat) (fuel c p : Nat),
    Chain s.mem p c l → l.length < fuel → ∃ t, skipUsed s fuel c = .ok t := by
  intro l
  induction l with
  | nil =>
    intro fuel c p hch hf
    obtain ⟨f, rfl⟩ : ∃ f, fuel = f + 1 := ⟨fuel - 1, by omega⟩
    have hc : c = 0 := hch
    refine ⟨c, ?_⟩
    unfold skipUsed
    rw [if_neg (by simp [hc])]
  | cons b l ih =>
    intro fuel c p hch hf
    obtain ⟨f, rfl⟩ : ∃ f, fuel = f + 1 := ⟨fuel - 1, by omega⟩
    obtain ⟨h1, _, _, h4⟩ := hch
    subst h1
    unfold skipUsed
    split
    · exact ih f _ _ h4 (by simp only [List.length_cons] at hf; omega)
    · exact ⟨c, rfl⟩

theorem free_ne_used : STATUS_FREE ≠ STATUS_USED := by decide

theorem findLoop_sound {s : State} {ls : Nat → List Nat} (hr : Rep s ls) (fuel : Nat) :
    ∀ (n k r : Nat), findLoop s fuel n (k : Int) 0 = .ok r →
      r = 0 ∨ ∃ j, k ≤ j ∧ j < LEVELS ∧ r ∈ ls j ∧ (s.mem r).status = STATUS_FREE := by
  intro n
  induction n with
  | zero => intro k r h; cases h
  | succ n ih =>
    intro k r h
    unfold findLoop at h
    have hnext : ∀ r, findLoop s fuel n ((k : Int) + 1) 0 = .ok r →
        r = 0 ∨ ∃ j, k ≤ j ∧ j < LEVELS ∧ r ∈ ls j ∧ (s.mem r).status = STATUS_FREE := by
      intro r hr'
      have e : ((k : Int) + 1) = ((k + 1 : Nat) : Int) := by push_cast; rfl
      rw [e] at hr'
      rcases ih _ _ hr' with e | ⟨j, h1, h2⟩
      · exact Or.inl e
      · exact Or.inr ⟨j, by omega, h2⟩
    by_cases hk : k < LEVELS
    · have hk' : ((k : Int) < (LEVELS : Int)) := by exact_mod_cast hk
      rw [if_pos hk', getList_ok s hk] at h
      simp only [bind, Except.bind] at h
      by_cases hf : s.flists k = 0
      · rw [if_neg (by simp [hf])] at h
        exact hnext r h
      · rw [if_pos hf] at h
        cases hsk : skipUsed s fuel (s.flists k) with
        | error e => rw [hsk] at h; cases h
        | ok t =>
          rw [hsk] at h
          simp only at h
          split at h
          · rename_i hc
            simp only [pure, Except.pure, Except.ok.injEq] at h
            subst h
            rcases skipUsed_sound s _ _ _ _ _ (hr.chain k hk) hsk with e | e
            · exact absurd e hc.1
            · exact Or.inr ⟨k, le_refl _, hk, e, hc.2⟩
          · exact hnext r h
    · have hk' : ¬ ((k : Int) < (LEVELS : Int)) := by exact_mod_cast hk
      rw [if_neg hk'] at h
      cases h
      exact Or.inl rfl

theorem findLoop_complete {s : State} {ls : Nat → List Nat} (hr : Rep s ls) (fuel : Nat)
    (hfuel : ∀ i, i < LEVELS → (ls i).length < fuel) :
    ∀ (n k temp : Nat), LEVELS - k < n → ∃ r, findLoop s fuel n (k : Int) temp = .ok r := by
  intro n
  induction n with
  | zero => intro k temp h; omega
  | succ n ih =>
    intro k temp h
    unfold findLoop
    have e : ((k : Int) + 1) = ((k + 1 : Nat) : Int) := by push_cast; rfl
    by_cases hk : k < LEVELS
    · have hk' : ((k : Int) < (LEVELS : Int)) := by exact_mod_cast hk
      have hn : LEVELS - (k + 1) < n := by omega
      rw [if_pos hk', getList_ok s hk]
      simp only [bind, Except.bind]
      by_cases hf : s.flists k = 0
      · rw [if_neg (by simp [hf]), e]
        exact ih _ _ hn
      · rw [if_pos hf]
        obtain ⟨t, ht⟩ := skipUsed_complete s _ fuel _ _ (hr.chain k hk) (hfuel k hk)
        rw [ht]
        simp only
        split
        · exact ⟨t, rfl⟩
        · rw [e]; exact ih _ _ hn
    · have hk' : ¬ ((k : Int) < (LEVELS : Int)) := by exact_mod_cast hk
      rw [if_neg hk']
      exact ⟨temp, rfl⟩

theorem find_sound {s : State} {ls : Nat → List Nat} (hr : Rep s ls) (fuel L r : Nat)
    (h : findSmallestFree fuel (L : Int) s = .ok r) :
    r = 0 ∨ ∃ j, L ≤ j ∧ j < LEVELS ∧ r ∈ ls j ∧ (s.mem r).status = STATUS_FREE := by
  unfold findSmallestFree at h
  obtain ⟨t, ht, h⟩ := bind_eq_ok _ _ _ h
  split at h
  · cases h; exact Or.inl rfl
  · cases h; exact findLoop_sound hr fuel _ _ _ ht

theorem find_complete {s : State} {ls : Nat → List Nat} (hr : Rep s ls) (fuel L : Nat)
    (hfuel : ∀ i, i < LEVELS → (ls i).length < fuel) :
    ∃ r, findSmallestFree fuel (L : Int) s = .ok r := by
  obtain ⟨t, ht⟩ := findLoop_complete hr fuel hfuel (LEVELS + 1) L 0 (by omega)
  unfold findSmallestFree
  rw [ht]
  simp only [bind, Except.bind]
  split
  · exact ⟨0, rfl⟩
  · exact ⟨t, rfl⟩

/-! ## The invariant under one split and one merge -/

theorem blk_level_unique {pages : List Nat} {blk : Nat → Nat → Prop} (ht : Tiling pages blk)
    {i j a : Nat} (h1 : blk i a) (h2 : blk j a) : i = j := by
  have := bsize_pos i
  have := bsize_pos j
  rcases ht.disjoint _ _ _ _ h1 h2 with ⟨_, e⟩ | h | h
  · exact e
  · omega
  · omega

theorem upper_not_block {pages : List Nat} {blk : Nat → Nat → Prop} (ht : Tiling pages blk)
    {K cur : Nat} (hb : blk (K + 1) cur) (j x : Nat) (hx : blk j x) : x ≠ cur + bsize K := by
  have := bsize_pos K
  have := bsize_pos j
  have := bsize_succ K
  rcases ht.disjoint _ _ _ _ hb hx with ⟨e, _⟩ | h | h <;> omega

theorem xor_bsize_of_dvd {K a : Nat} (h : bsize (K + 1) ∣ a) : a ^^^ bsize K = a + bsize K := by
  have hs : bsize (K + 1) = 2 ^ (K + MIN + 1) := by
    unfold bsize; congr 1
  rw [hs] at h
  exact xor_pow_of_dvd a (K + MIN) h

theorem xor_bsize_cancel (a K : Nat) : (a ^^^ bsize K) ^^^ bsize K = a :=
  xor_pow_cancel a (K + MIN)

theorem nfpx_split {pages : List Nat} {blk blk' : Nat → Nat → Prop} {st st' : Nat → Nat}
    {K cur : Nat} (ht : Tiling pages blk) (hb : blk (K + 1) cur)
    (hiff : ∀ j x, blk' j x ↔ (blk j x ∧ ¬ (j = K + 1 ∧ x = cur)) ∨
      (j = K ∧ (x = cur ∨ x = cur + bsize K)))
    (hst : ∀ x, x ≠ cur + bsize K → st' x = st x)
    (hn : NoFreePairX blk st cur) : NoFreePairX blk' st' (cur + bsize K) := by
  have hxor := xor_bsize_of_dvd (ht.aligned _ _ hb)
  intro i a b hi ha hb' hax hbx hsa hsb heq
  rw [hst a hax] at hsa
  rw [hst b hbx] at hsb
  rcases (hiff i a).mp ha with ⟨ha1, ha2⟩ | ⟨rfl, ha2⟩
  · rcases (hiff i b).mp hb' with ⟨hb1, hb2⟩ | ⟨rfl, hb2⟩
    · have hac : a ≠ cur := by
        rintro rfl
        exact ha2 ⟨blk_level_unique ht ha1 hb, rfl⟩
      have hbc : b ≠ cur := by
        rintro rfl
        exact hb2 ⟨blk_level_unique ht hb1 hb, rfl⟩
      exact hn i a b hi ha1 hb1 hac hbc hsa hsb heq
    · rcases hb2 with rfl | rfl
      · have : a = b ^^^ bsize i := by rw [heq, xor_bsize_cancel]
        rw [hxor] at this
        exact hax this
      · exact hbx rfl
  · rcases ha2 with rfl | rfl
    · rw [hxor] at heq
      exact hbx heq
    · exact hax rfl

theorem live_split {pages : List Nat} {blk blk' : Nat → Nat → Prop} {st st' : Nat → Nat}
    {K cur : Nat} {live : List Nat} (ht : Tiling pages blk) (hb : blk (K + 1) cur)
    (hiff : ∀ j x, blk' j x ↔ (blk j x ∧ ¬ (j = K + 1 ∧ x = cur)) ∨
      (j = K ∧ (x = cur ∨ x = cur + bsize K)))
    (hst : ∀ x, x ≠ cur + bsize K → st' x = st x)
    (hsthi : st' (cur + bsize K) = st cur) (hfree : st cur = STATUS_FREE)
    (hl : LiveOK blk st live) : LiveOK blk' st' live := by
  have hpos := bsize_pos K
  have hcur : hide cur ∉ live := by
    rcases hl.status _ _ hb with ⟨h1, _⟩ | ⟨_, h2⟩
    · rw [hfree] at h1; exact absurd h1 free_ne_used
    · exact h2
  refine ⟨hl.nodup, ?_, ?_⟩
  · intro q hq
    obtain ⟨i, a, ha, rfl⟩ := hl.block q hq
    by_cases hc : i = K + 1 ∧ a = cur
    · obtain ⟨rfl, rfl⟩ := hc
      exact ⟨K, a, (hiff _ _).mpr (Or.inr ⟨rfl, Or.inl rfl⟩), rfl⟩
    · exact ⟨i, a, (hiff _ _).mpr (Or.inl ⟨ha, hc⟩), rfl⟩
  · intro j x hx
    rcases (hiff j x).mp hx with ⟨h1, _⟩ | ⟨rfl, rfl | rfl⟩
    · rw [hst x (upper_not_block ht hb j x h1)]
      exact hl.status _ _ h1
    · rw [hst x (by omega)]
      exact Or.inr ⟨hfree, hcur⟩
    · rw [hsthi]
      refine Or.inr ⟨hfree, ?_⟩
      intro hin
      obtain ⟨i, a, ha, e⟩ := hl.block _ hin
      have : a = cur + bsize j := by
        unfold hide at e; omega
      exact upper_not_block ht hb i a ha this

theorem kept_split {pages : List Nat} {ls ls' : Nat → List Nat} {st st' : Nat → Nat}
    {K cur : Nat} (ht : Tiling pages (Blk ls)) (hb : Blk ls (K + 1) cur)
    (hiff : ∀ j x, Blk ls' j x ↔ (Blk ls j x ∧ ¬ (j = K + 1 ∧ x = cur)) ∨
      (j = K ∧ (x = cur ∨ x = cur + bsize K)))
    (hst : ∀ x, x ≠ cur + bsize K → st' x = st x) (hfree : st cur = STATUS_FREE) :
    Kept ls ls' st st' := by
  intro i a ha hu
  have hne : a ≠ cur := by
    rintro rfl
    rw [hfree] at hu; exact free_ne_used hu
  refine ⟨(hiff i a).mpr (Or.inl ⟨ha, fun h => hne h.2⟩), ?_⟩
  rw [hst a (upper_not_block ht hb i a ha)]
  exact hu

theorem kept_refl (ls : Nat → List Nat) (st : Nat → Nat) : Kept ls ls st st :=
  fun _ _ h hu => ⟨h, hu⟩

theorem kept_trans {l1 l2 l3 : Nat → List Nat} {s1 s2 s3 : Nat → Nat}
    (h12 : Kept l1 l2 s1 s2) (h23 : Kept l2 l3 s2 s3) : Kept l1 l3 s1 s3 :=
  fun i a h hu => h23 i a (h12 i a h hu).1 (h12 i a h hu).2

theorem nfpx_merge {pages : List Nat} {blk blk' : Nat → Nat → Prop} {st st' : Nat → Nat}
    {K q x0 : Nat} (ht : Tiling pages blk) (h1 : blk K q) (h2 : blk K (q + bsize K))
    (hx0 : x0 = q ∨ x0 = q + bsize K)
    (hiff : ∀ j x, blk' j x ↔ (blk j x ∧ ¬ (j = K ∧ (x = q ∨ x = q + bsize K))) ∨
      (j = K + 1 ∧ x = q))
    (hst : ∀ x, x ≠ q → x ≠ q + bsize K → st' x = st x)
    (hn : NoFreePairX blk st x0) : NoFreePairX blk' st' q := by
  intro i a b hi ha hb hax hbx hsa hsb heq
  rcases (hiff i a).mp ha with ⟨ha1, ha2⟩ | ⟨_, ha2⟩
  · rcases (hiff i b).mp hb with ⟨hb1, hb2⟩ | ⟨_, hb2⟩
    · have hau : a ≠ q + bsize K := by
        rintro rfl
        exact ha2 ⟨blk_level_unique ht ha1 h2, Or.inr rfl⟩
      have hbu : b ≠ q + bsize K := by
        rintro rfl
        exact hb2 ⟨blk_level_unique ht hb1 h2, Or.inr rfl⟩
      rw [hst a hax hau] at hsa
      rw [hst b hbx hbu] at hsb
      refine hn i a b hi ha1 hb1 ?_ ?_ hsa hsb heq
      · rcases hx0 with rfl | rfl
        · exact hax
        · exact hau
      · rcases hx0 with rfl | rfl
        · exact hbx
        · exact hbu
    · exact hbx hb2
  · exact hax ha2

theorem live_merge {pages : List Nat} {blk blk' : Nat → Nat → Prop} {st st' : Nat → Nat}
    {K q : Nat} {live : List Nat} (ht : Tiling pages blk) (h1 : blk K q)
    (h2 : blk K (q + bsize K))
    (hiff : ∀ j x, blk' j x ↔ (blk j x ∧ ¬ (j = K ∧ (x = q ∨ x = q + bsize K))) ∨
      (j = K + 1 ∧ x = q))
    (hst : ∀ x, x ≠ q → x ≠ q + bsize K → st' x = st x)
    (hstq : st' q = STATUS_FREE)
    (hf1 : st q = STATUS_FREE) (hf2 : st (q + bsize K) = STATUS_FREE)
    (hl : LiveOK blk st live) : LiveOK blk' st' live := by
  have hq : hide q ∉ live := by
    rcases hl.status _ _ h1 with ⟨h, _⟩ | ⟨_, h⟩
    · rw [hf1] at h; exact absurd h free_ne_used
    · exact h
  have hu : hide (q + bsize K) ∉ live := by
    rcases hl.status _ _ h2 with ⟨h, _⟩ | ⟨_, h⟩
    · rw [hf2] at h; exact absurd h free_ne_used
    · exact h
  refine ⟨hl.nodup, ?_, ?_⟩
  · intro p hp
    obtain ⟨i, a, ha, rfl⟩ := hl.block p hp
    refine ⟨i, a, (hiff _ _).mpr (Or.inl ⟨ha, ?_⟩), rfl⟩
    rintro ⟨_, rfl | rfl⟩
    · exact hq hp
    · exact hu hp
  · intro j x hx
    rcases (hiff j x).mp hx with ⟨a1, a2⟩ | ⟨_, rfl⟩
    · have hxq : x ≠ q := by
        rintro rfl
        exact a2 ⟨blk_level_unique ht a1 h1, Or.inl rfl⟩
      have hxu : x ≠ q + bsize K := by
        rintro rfl
        exact a2 ⟨blk_level_unique ht a1 h2, Or.inr rfl⟩
      rw [hst x hxq hxu]
      exact hl.status _ _ a1
    · exact Or.inr ⟨hstq, hq⟩

theorem kept_merge {pages : List Nat} {ls ls' : Nat → List Nat} {st st' : Nat → Nat}
    {K q : Nat} (ht : Tiling pages (Blk ls)) (h1 : Blk ls K q) (h2 : Blk ls K (q + bsize K))
    (hiff : ∀ j x, Blk ls' j x ↔ (Blk ls j x ∧ ¬ (j = K ∧ (x = q ∨ x = q + bsize K))) ∨
      (j = K + 1 ∧ x = q))
    (hst : ∀ x, x ≠ q → x ≠ q + bsize K → st' x = st x)
    (hf1 : st q = STATUS_FREE) (hf2 : st (q + bsize K) = STATUS_FREE) :
    Kept ls ls' st st' := by
  intro i a ha hu
  have hxq : a ≠ q := by
    rintro rfl
    rw [hf1] at hu; exact free_ne_used hu
  have hxu : a ≠ q + bsize K := by
    rintro rfl
    rw [hf2] at hu; exact free_ne_used hu
  refine ⟨(hiff i a).mpr (Or.inl ⟨ha, ?_⟩), by rw [hst a hxq hxu]; exact hu⟩
  rintro ⟨_, h | h⟩
  · exact hxq h
  · exact hxu h

theorem nfp_of_nfpx_top {pages : List Nat} {blk : Nat → Nat → Prop} {st : Nat → Nat} {x : Nat}
    (ht : Tiling pages blk) (hx : blk MAX_LEVEL x) (hn : NoFreePairX blk st x) :
    NoFreePair blk st := by
  intro i a b hi ha hb hsa hsb heq
  refine hn i a b hi ha hb ?_ ?_ hsa hsb heq
  · rintro rfl
    have := blk_level_unique ht ha hx
    omega
  · rintro rfl
    have := blk_level_unique ht hb hx
    omega

theorem nfp_of_nfpx_stop {pages : List Nat} {blk : Nat → Nat → Prop} {st : Nat → Nat}
    {K x : Nat} (ht : Tiling pages blk) (hx : blk K x)
    (hstop : ¬ (st (x ^^^ bsize K) = STATUS_FREE ∧ blk K (x ^^^ bsize K)))
    (hn : NoFreePairX blk st x) : NoFreePair blk st := by
  intro i a b hi ha hb hsa hsb heq
  by_cases hax : a = x
  · subst hax
    have := blk_level_unique ht ha hx
    subst this
    exact hstop ⟨by rw [← heq]; exact hsb, by rw [← heq]; exact hb⟩
  · by_cases hbx : b = x
    · subst hbx
      have := blk_level_unique ht hb hx
      subst this
      have e : a = b ^^^ bsize i := by rw [heq, xor_bsize_cancel]
      exact hstop ⟨by rw [← e]; exact hsa, by rw [← e]; exact ha⟩
    · exact hn i a b hi ha hb hax hbx hsa hsb heq

/-! ## The loop of `splitNodesForLevel` -/

theorem blk_update_erase {ls : Nat → List Nat} {i a : Nat} (hnd : (ls i).Nodup) (j x : Nat) :
    Blk (Function.update ls i ((ls i).erase a)) j x ↔ Blk ls j x ∧ ¬ (j = i ∧ x = a) := by
  unfold Blk
  by_cases hji : j = i
  · subst hji
    rw [Function.update_same, hnd.mem_erase_iff]
    constructor
    · rintro ⟨h1, h2, h3⟩; exact ⟨⟨h1, h3⟩, fun h => h2 h.2⟩
    · rintro ⟨⟨h1, h3⟩, h2⟩; exact ⟨h1, fun h => h2 ⟨rfl, h⟩, h3⟩
  · rw [Function.update_noteq hji]
    constructor
    · rintro ⟨h1, h2⟩; exact ⟨⟨h1, h2⟩, fun h => hji h.1⟩
    · rintro ⟨h, _⟩; exact h

theorem blk_update_cons {ls : Nat → List Nat} {i a : Nat} (hi : i < LEVELS) (j x : Nat) :
    Blk (Function.update ls i (a :: ls i)) j x ↔ Blk ls j x ∨ (j = i ∧ x = a) := by
  unfold Blk
  by_cases hji : j = i
  · subst hji
    rw [Function.update_same, List.mem_cons]
    constructor
    · rintro ⟨h1, h2 | h2⟩
      · exact Or.inr ⟨rfl, h2⟩
      · exact Or.inl ⟨h1, h2⟩
    · rintro (⟨h1, h2⟩ | ⟨_, h2⟩)
      · exact ⟨h1, Or.inr h2⟩
      · exact ⟨hi, Or.inl h2⟩
  · rw [Function.update_noteq hji]
    constructor
    · intro h; exact Or.inl h
    · rintro (h | ⟨h, _⟩)
      · exact h
      · exact absurd h hji

theorem split_iter {s : State} {ls : Nat → List Nat} {live : List Nat} {K cur : Nat}
    (hinv : InvX s ls live cur) (hK : K + 1 < LEVELS) (hc : cur ∈ ls (K + 1))
    (hfree : stOf s cur = STATUS_FREE) :
    ∃ s4 ls', (∀ (L : Int) (fuel : Nat), L ≠ ((K + 1 : Nat) : Int) →
        splitNodesForLevel L (fuel + 1) cur s =
          splitNodesForLevel L fuel (cur + bsize K) s4) ∧
      InvX s4 ls' live (cur + bsize K) ∧ cur + bsize K ∈ ls' K ∧
      stOf s4 (cur + bsize K) = STATUS_FREE ∧ s4.pages = s.pages ∧
      Kept ls ls' (stOf s) (stOf s4) := by
  have hr := hinv.rep
  have ht := hinv.tiling
  have hb : Blk ls (K + 1) cur := ⟨hK, hc⟩
  have hK8 : K + 1 < 8 := hK
  have hKl : K < LEVELS := by omega
  have hcur0 : cur ≠ 0 := rep_nonzero hr hK hc
  have hpos := bsize_pos K
  have hlevc := hr.level _ hK cur hc
  have hxor : cur ^^^ 2 ^ (K + 1 + MIN - 1) = cur + bsize K := by
    have := xor_bsize_of_dvd (ht.aligned _ _ hb)
    unfold bsize at this ⊢
    rw [show K + 1 + MIN - 1 = K + MIN by omega]
    exact this
  -- delete
  obtain ⟨s1, hrun1, hr1, hpg1, hls1⟩ := rep_delete hr hK hc
  have hblk1 := blk_update_erase (a := cur) (hr.nodup _ hK)
  obtain ⟨ls1, e1⟩ : ∃ l, l = Function.update ls (K + 1) ((ls (K + 1)).erase cur) := ⟨_, rfl⟩
  rw [← e1] at hr1 hblk1
  have hmem1 : ∀ j x, Blk ls1 j x → Blk ls j x ∧ x ≠ cur := by
    intro j x hx
    have hx' := (hblk1 j x).mp hx
    refine ⟨hx'.1, ?_⟩
    rintro rfl
    exact hx'.2 ⟨blk_level_unique ht hx'.1 hb, rfl⟩
  -- split
  have hlev1 : (s1.mem cur).level = ((K + 1 : Nat) : Int) := by rw [(hls1 cur).1]; exact hlevc
  obtain ⟨s2, hrun2, hpg2, hfl2, hlinks2, hlv2, hst2⟩ :=
    split_exec s1 cur (K + 1) hcur0 hlev1 (by simp only [MIN]; omega)
      (by rw [hxor]; omega) (by rw [hxor]; omega)
  rw [hxor] at hrun2 hlv2 hst2
  have hr2 : Rep s2 ls1 := by
    refine rep_frame hr1 hfl2 (fun j hj x hx => ⟨(hlinks2 x).1, (hlinks2 x).2, ?_⟩)
    have hx' := hmem1 j x ⟨hj, hx⟩
    have hxh : x ≠ cur + bsize K := upper_not_block ht hb j x hx'.1
    rw [hlv2 x, if_neg (by simp [hx'.2, hxh])]
  have hlev2c : (s2.mem cur).level = (K : Int) := by
    rw [hlv2 cur, if_pos (Or.inl rfl)]; push_cast; ring
  have hlev2h : (s2.mem (cur + bsize K)).level = (K : Int) := by
    rw [hlv2 _, if_pos (Or.inr rfl)]; push_cast; ring
  -- add the lower half
  obtain ⟨s3, hrun3, hr3, hpg3, hls3⟩ := rep_add hr2 hKl hcur0 hlev2c
    (fun j hj hx => (hmem1 j cur ⟨hj, hx⟩).2 rfl)
  have hblk2 := @blk_update_cons ls1 K cur hKl
  obtain ⟨ls2, e2⟩ : ∃ l, l = Function.update ls1 K (cur :: ls1 K) := ⟨_, rfl⟩
  rw [← e2] at hr3 hblk2
  -- add the upper half
  obtain ⟨s4, hrun4, hr4, hpg4, hls4⟩ := rep_add hr3 hKl (a := cur + bsize K) (by omega)
    (by rw [(hls3 _).1]; exact hlev2h) (by
    intro j hj hx
    rcases (hblk2 j _).mp ⟨hj, hx⟩ with h | ⟨_, h⟩
    · exact upper_not_block ht hb j _ (hmem1 j _ h).1 rfl
    · omega)
  have hblk3 := @blk_update_cons ls2 K (cur + bsize K) hKl
  obtain ⟨ls3, e3⟩ : ∃ l, l = Function.update ls2 K ((cur + bsize K) :: ls2 K) := ⟨_, rfl⟩
  rw [← e3] at hr4 hblk3
  have hiff : ∀ j x, Blk ls3 j x ↔ (Blk ls j x ∧ ¬ (j = K + 1 ∧ x = cur)) ∨
      (j = K ∧ (x = cur ∨ x = cur + bsize K)) := by
    intro j x
    rw [hblk3, hblk2, hblk1]
    tauto
  have hstat : ∀ x, x ≠ cur + bsize K → stOf s4 x = stOf s x := by
    intro x hx
    show (s4.mem x).status = (s.mem x).status
    rw [(hls4 x).2, (hls3 x).2, hst2 x, if_neg hx, (hls1 x).2]
  have hstathi : stOf s4 (cur + bsize K) = stOf s cur := by
    show (s4.mem _).status = (s.mem cur).status
    rw [(hls4 _).2, (hls3 _).2, hst2 _, if_pos rfl, (hls1 cur).2]
  have hpg : s4.pages = s.pages := by rw [hpg4, hpg3, hpg2, hpg1]
  refine ⟨s4, ls3, ?_, ⟨hr4, ?_, ?_, ?_⟩, ?_, ?_, hpg, ?_⟩
  · intro L fuel hL
    have hL' : L ≠ (s.mem cur).level := by rw [hlevc]; exact hL
    have hhi0 : cur + bsize K ≠ 0 := by omega
    simp only [splitNodesForLevel, load, hcur0, if_false, bind, Except.bind, hL', ne_eq,
      not_false_eq_true, if_true, hrun1, hrun2, hhi0, hlev2c, hlev2h, not_true_eq_false,
      hrun3, hrun4]
  · rw [hpg]; exact tiling_split ht hb hiff
  · exact nfpx_split ht hb hiff hstat hinv.nfp
  · exact live_split ht hb hiff hstat hstathi hfree hinv.live
  · rw [e3, Function.update_same]; exact List.mem_cons_self _ _
  · rw [hstathi]; exact hfree
  · exact kept_split ht hb hiff hstat hfree

theorem splitLoop_spec (L : Nat) : ∀ (n : Nat) (s : State) (ls : Nat → List Nat)
    (live : List Nat) (cur : Nat), InvX s ls live cur → L + n < LEVELS → cur ∈ ls (L + n) →
    stOf s cur = STATUS_FREE → ∀ fuel, n < fuel →
    ∃ h s' ls', splitNodesForLevel (L : Int) fuel cur s = .ok (h, s') ∧
      InvX s' ls' live h ∧ h ∈ ls' L ∧ stOf s' h = STATUS_FREE ∧ s'.pages = s.pages ∧
      Kept ls ls' (stOf s) (stOf s') := by
  intro n
  induction n with
  | zero =>
    intro s ls live cur hinv hL hc hfree fuel hf
    obtain ⟨f, rfl⟩ : ∃ f, fuel = f + 1 := ⟨fuel - 1, by omega⟩
    have hcur0 : cur ≠ 0 := rep_nonzero hinv.rep hL hc
    have hlev := hinv.rep.level _ hL cur hc
    refine ⟨cur, s, ls, ?_, hinv, hc, hfree, rfl, kept_refl _ _⟩
    simp only [splitNodesForLevel, load, hcur0, if_false, bind, Except.bind, hlev,
      Nat.add_zero, ne_eq, not_true_eq_false, pure, Except.pure]
  | succ n ih =>
    intro s ls live cur hinv hL hc hfree fuel hf
    obtain ⟨f, rfl⟩ : ∃ f, fuel = f + 1 := ⟨fuel - 1, by omega⟩
    have hK : L + n + 1 < LEVELS := hL
    obtain ⟨s4, ls4, hstep, hinv4, hmem4, hfree4, hpg4, hk4⟩ :=
      split_iter (K := L + n) hinv hK hc hfree
    obtain ⟨h, s', ls', hrun, hinv', hmem', hfree', hpg', hk'⟩ :=
      ih s4 ls4 live _ hinv4 (by omega) hmem4 hfree4 f (by omega)
    refine ⟨h, s', ls', ?_, hinv', hmem', hfree', by rw [hpg', hpg4], kept_trans hk4 hk'⟩
    rw [hstep (L : Int) f (by push_cast; omega)]
    exact hrun

/-! ## The invariant under `balloc` -/

theorem hide_inj {a b : Nat} (h : hide a = hide b) : a = b := by
  unfold hide at h; omega

theorem magic_hide (a : Nat) : magic (hide a) = a := by
  unfold magic hide; omega

theorem page_not_block {pages : List Nat} {blk : Nat → Nat → Prop} (ht : Tiling pages blk)
    {p : Nat} (hpa : PAGE ∣ p) (hpn : p ∉ pages) (j : Nat) : ¬ blk j p := by
  intro hb
  obtain ⟨p', hp', h1, h2⟩ := ht.inpage _ _ hb
  have hd := (ht.page_ok p' hp').2.1
  have hpos := bsize_pos j
  have hne : p' ≠ p := fun e => hpn (e ▸ hp')
  have := mult_step hd hpa (by omega)
  omega

theorem inv_newpage {s : State} {ls : Nat → List Nat} {live : List Nat} (hinv : Inv s ls live)
    {p : Nat} (hp0 : p ≠ 0) (hpa : PAGE ∣ p) (hp64 : p + PAGE ≤ 2 ^ 64) (hpn : p ∉ s.pages) :
    ∃ s0 s1 ls', new (some p) s = .ok (p, s0) ∧ addToLinkedListFront s0 p = .ok s1 ∧
      InvX s1 ls' live p ∧ p ∈ ls' MAX_LEVEL ∧ stOf s1 p = STATUS_FREE ∧
      s1.pages = p :: s.pages ∧ Kept ls ls' (stOf s) (stOf s1) := by
  have hr := hinv.rep
  have ht := hinv.tiling
  have hnb : ∀ j, j < LEVELS → p ∉ ls j := fun j hj h => page_not_block ht hpa hpn j ⟨hj, h⟩
  have hM : MAX_LEVEL < LEVELS := by decide
  obtain ⟨s0, e0⟩ : ∃ s0 : State, s0 = State.mk
      (Function.update s.mem p ⟨(MAX_LEVEL : Nat), STATUS_FREE, 0, 0⟩) s.flists
      (p :: s.pages) := ⟨_, rfl⟩
  have hnew : new (some p) s = .ok (p, s0) := by rw [e0]; exact new_exec s p hp0
  have hmem0 : ∀ x, x ≠ p → s0.mem x = s.mem x := by
    intro x hx; rw [e0]; exact Function.update_noteq hx _ _
  have hmemp : s0.mem p = ⟨(MAX_LEVEL : Nat), STATUS_FREE, 0, 0⟩ := by
    rw [e0]; exact Function.update_same _ _ _
  have hr0 : Rep s0 ls := by
    refine rep_frame hr (by rw [e0]) (fun j hj x hx => ?_)
    have hx' : x ≠ p := fun e => hnb j hj (e ▸ hx)
    rw [hmem0 x hx']
    exact ⟨rfl, rfl, rfl⟩
  obtain ⟨s1, hrun1, hr1, hpg1, hls1⟩ :=
    rep_add hr0 hM hp0 (by rw [hmemp]) hnb
  have hblk := @blk_update_cons ls MAX_LEVEL p hM
  obtain ⟨ls1, e1⟩ : ∃ l, l = Function.update ls MAX_LEVEL (p :: ls MAX_LEVEL) := ⟨_, rfl⟩
  rw [← e1] at hr1 hblk
  have hpg : s1.pages = p :: s.pages := by rw [hpg1, e0]
  have hstat : ∀ x, x ≠ p → stOf s1 x = stOf s x := by
    intro x hx
    show (s1.mem x).status = (s.mem x).status
    rw [(hls1 x).2, hmem0 x hx]
  have hstatp : stOf s1 p = STATUS_FREE := by
    show (s1.mem p).status = _
    rw [(hls1 p).2, hmemp]
  have hold : ∀ j x, Blk ls j x → x ≠ p := by
    rintro j x hx rfl
    exact page_not_block ht hpa hpn j hx
  refine ⟨s0, s1, ls1, hnew, hrun1, ⟨hr1, ?_, ?_, ?_⟩, ?_, hstatp, hpg, ?_⟩
  · rw [hpg]; exact tiling_newpage ht hp0 hpa hp64 hpn hblk
  · intro i a b hi ha hb hax hbx hsa hsb heq
    rw [hstat a hax] at hsa
    rw [hstat b hbx] at hsb
    rcases (hblk i a).mp ha with ha1 | ⟨rfl, _⟩
    · rcases (hblk i b).mp hb with hb1 | ⟨rfl, _⟩
      · exact hinv.nfp i a b hi ha1 hb1 hsa hsb heq
      · omega
    · omega
  · refine ⟨hinv.live.nodup, ?_, ?_⟩
    · intro q hq
      obtain ⟨i, a, ha, e⟩ := hinv.live.block q hq
      exact ⟨i, a, (hblk i a).mpr (Or.inl ha), e⟩
    · intro j x hx
      rcases (hblk j x).mp hx with h | ⟨_, rfl⟩
      · rw [hstat x (hold j x h)]; exact hinv.live.status _ _ h
      · refine Or.inr ⟨hstatp, ?_⟩
        intro hin
        obtain ⟨i, a, ha, e⟩ := hinv.live.block _ hin
        exact hold i a ha (hide_inj e).symm
  · rw [e1, Function.update_same]; exact List.mem_cons_self _ _
  · intro i a ha hu
    exact ⟨(hblk i a).mpr (Or.inl ha), by rw [hstat a (hold i a ha)]; exact hu⟩

theorem inv_mark_used {s : State} {ls : Nat → List Nat} {live : List Nat} {h L : Nat}
    (hinv : InvX s ls live h) (hL : L < LEVELS) (hh : h ∈ ls L)
    (hfree : stOf s h = STATUS_FREE) :
    ∃ s3, setStatus s h STATUS_USED = .ok s3 ∧ Inv s3 ls (hide h :: live) ∧
      stOf s3 h = STATUS_USED ∧ Kept ls ls (stOf s) (stOf s3) ∧ s3.pages = s.pages ∧
      hide h ∉ live := by
  have hr := hinv.rep
  have hh0 : h ≠ 0 := rep_nonzero hr hL hh
  have hb : Blk ls L h := ⟨hL, hh⟩
  have hnl : hide h ∉ live := by
    rcases hinv.live.status _ _ hb with ⟨h1, _⟩ | ⟨_, h2⟩
    · rw [hfree] at h1; exact absurd h1 free_ne_used
    · exact h2
  obtain ⟨s3, e3⟩ : ∃ s3 : State, s3 = State.mk (Function.update s.mem h
      (head.mk (s.mem h).level STATUS_USED (s.mem h).next (s.mem h).prev)) s.flists s.pages :=
    ⟨_, rfl⟩
  have hrun : setStatus s h STATUS_USED = .ok s3 := by
    rw [e3]; simp only [setStatus, store, hh0, if_false]
  have hstat : ∀ x, x ≠ h → stOf s3 x = stOf s x := by
    intro x hx
    show (s3.mem x).status = (s.mem x).status
    rw [e3]; simp only [Function.update_noteq hx]
  have hstath : stOf s3 h = STATUS_USED := by
    show (s3.mem h).status = _
    rw [e3]; simp only [Function.update_same]
  have hr3 : Rep s3 ls := by
    refine rep_frame hr (by rw [e3]) (fun j hj x hx => ?_)
    rw [e3]
    by_cases hxh : x = h
    · subst hxh; simp only [Function.update_same, and_self]
    · simp only [Function.update_noteq hxh, and_self]
  refine ⟨s3, hrun, ⟨hr3, by rw [e3]; exact hinv.tiling, ?_, ?_⟩, hstath, ?_, by rw [e3], hnl⟩
  · intro i a b hi ha hb' hsa hsb heq
    have hah : a ≠ h := by
      rintro rfl; rw [hstath] at hsa; exact free_ne_used hsa.symm
    have hbh : b ≠ h := by
      rintro rfl; rw [hstath] at hsb; exact free_ne_used hsb.symm
    rw [hstat a hah] at hsa
    rw [hstat b hbh] at hsb
    exact hinv.nfp i a b hi ha hb' hah hbh hsa hsb heq
  · refine ⟨List.nodup_cons.mpr ⟨hnl, hinv.live.nodup⟩, ?_, ?_⟩
    · intro q hq
      rcases List.mem_cons.mp hq with rfl | hq'
      · exact ⟨L, h, hb, rfl⟩
      · exact hinv.live.block q hq'
    · intro j x hx
      by_cases hxh : x = h
      · subst hxh
        exact Or.inl ⟨hstath, List.mem_cons_self _ _⟩
      · rw [hstat x hxh]
        rcases hinv.live.status _ _ hx with ⟨h1, h2⟩ | ⟨h1, h2⟩
        · exact Or.inl ⟨h1, List.mem_cons_of_mem _ h2⟩
        · refine Or.inr ⟨h1, ?_⟩
          intro hin
          rcases List.mem_cons.mp hin with e | e
          · exact hxh (hide_inj e)
          · exact h2 e
  · intro i a ha hu
    have hah : a ≠ h := by
      rintro rfl; rw [hfree] at hu; exact free_ne_used hu
    exact ⟨ha, by rw [hstat a hah]; exact hu⟩

theorem invX_of_inv {s : State} {ls : Nat → List Nat} {live : List Nat} (hinv : Inv s ls live)
    (x : Nat) : InvX s ls live x :=
  ⟨hinv.rep, hinv.tiling,
    fun i a b hi ha hb _ _ hsa hsb heq => hinv.nfp i a b hi ha hb hsa hsb heq, hinv.live⟩

theorem balloc_core {s : State} {ls : Nat → List Nat} {live : List Nat} (hinv : Inv s ls live)
    (fuel : Nat) (os : Option Nat) (size L found : Nat)
    (hv : 0 < size ∧ size ≤ PAGE - sizeof_head) (hl : level (size : Int) = .ok (L : Int))
    (hLle : L ≤ MAX_LEVEL) (hfind : findSmallestFree fuel (L : Int) s = .ok found)
    (hos : found = 0 → ∃ p, os = some p ∧ p ≠ 0 ∧ PAGE ∣ p ∧ p + PAGE ≤ 2 ^ 64 ∧
      p ∉ s.pages) :
    ∃ h s' ls', balloc fuel os size s = .ok (hide h, s') ∧ Inv s' ls' (hide h :: live) ∧
      h ∈ ls' L ∧ stOf s' h = STATUS_USED ∧ Kept ls ls' (stOf s) (stOf s') ∧
      hide h ∉ live ∧
      ((found ≠ 0 ∧ s'.pages = s.pages) ∨
        (found = 0 ∧ ∃ p, os = some p ∧ s'.pages = p :: s.pages)) := by
  have h1 : ¬ (size ≤ 0 ∨ size > PAGE - sizeof_head) := by omega
  have hL7 : L ≤ 7 := hLle
  -- the block to split, and the state it lives in
  have hstart : ∃ cur sa lsa j, (if found = 0 then (do
        let r0 ← new os s
        let s0 ← addToLinkedListFront r0.2 r0.1
        pure (r0.1, s0)) else pure (found, s)) = Except.ok (cur, sa) ∧
      InvX sa lsa live cur ∧ L ≤ j ∧ j < LEVELS ∧ cur ∈ lsa j ∧
      stOf sa cur = STATUS_FREE ∧ Kept ls lsa (stOf s) (stOf sa) ∧
      ((found ≠ 0 ∧ sa.pages = s.pages) ∨
        (found = 0 ∧ ∃ p, os = some p ∧ sa.pages = p :: s.pages)) := by
    by_cases hf : found = 0
    · obtain ⟨p, rfl, hp0, hpa, hp64, hpn⟩ := hos hf
      obtain ⟨s0, s1, ls1, hnew, hadd, hx, hmem, hfree, hpg, hk⟩ :=
        inv_newpage hinv hp0 hpa hp64 hpn
      refine ⟨p, s1, ls1, MAX_LEVEL, ?_, hx, hLle, by decide, hmem, hfree, hk,
        Or.inr ⟨hf, p, rfl, hpg⟩⟩
      simp only [hf, if_true, hnew, hadd, bind, Except.bind, pure, Except.pure]
    · rcases find_sound hinv.rep fuel L found hfind with e | ⟨j, hj1, hj2, hj3, hj4⟩
      · exact absurd e hf
      · refine ⟨found, s, ls, j, ?_, invX_of_inv hinv found, hj1, hj2, hj3, hj4,
          kept_refl _ _, Or.inl ⟨hf, rfl⟩⟩
        simp only [hf, if_false, pure, Except.pure]
  obtain ⟨cur, sa, lsa, j, hra, hxa, hj1, hj2, hja, hfa, hka, hpa⟩ := hstart
  obtain ⟨n, rfl⟩ : ∃ n, j = L + n := ⟨j - L, by omega⟩
  have hj8 : L + n < 8 := hj2
  obtain ⟨h, s2, ls2, hrun2, hx2, hmem2, hfree2, hpg2, hk2⟩ :=
    splitLoop_spec L n sa lsa live cur hxa hj2 hja hfa 32 (by omega)
  obtain ⟨s3, hrun3, hinv3, hu3, hk3, hpg3, hnl⟩ :=
    inv_mark_used hx2 (by simp only [LEVELS]; omega) hmem2 hfree2
  refine ⟨h, s3, ls2, ?_, hinv3, hmem2, hu3, kept_trans hka (kept_trans hk2 hk3), hnl, ?_⟩
  · simp only [balloc, h1, if_false, hl, hfind, bind, Except.bind] at hra ⊢
    rw [hra]
    simp only [hrun2, hrun3, pure, Except.pure]
  · rcases hpa with ⟨a, b⟩ | ⟨a, p, b, c⟩
    · exact Or.inl ⟨a, by rw [hpg3, hpg2, b]⟩
    · exact Or.inr ⟨a, p, b, by rw [hpg3, hpg2, c]⟩

/-! ## The invariant under `bfree`, and in every reachable state -/

theorem blk_lt_two_pow {pages : List Nat} {blk : Nat → Nat → Prop} (ht : Tiling pages blk)
    {K a : Nat} (hb : blk K a) : a + bsize K ≤ 2 ^ 64 := by
  obtain ⟨p, hp, _, h2⟩ := ht.inpage _ _ hb
  have := (ht.page_ok p hp).2.2
  omega

theorem merge_iter {s : State} {ls : Nat → List Nat} {live : List Nat} {K a : Nat}
    (hinv : InvX s ls live a) (hK : K < MAX_LEVEL) (ha : a ∈ ls K)
    (hfree : stOf s a = STATUS_FREE)
    (hbs : (s.mem (a ^^^ bsize K)).status = STATUS_FREE)
    (hbl : (s.mem (a ^^^ bsize K)).level = (K : Int)) :
    ∃ q s5 ls', (∀ fuel : Nat,
        possiblyMergeAsFarUpAsPossibleRecursive (fuel + 1) a s =
          possiblyMergeAsFarUpAsPossibleRecursive fuel q s5) ∧
      InvX s5 ls' live q ∧ q ∈ ls' (K + 1) ∧ stOf s5 q = STATUS_FREE ∧
      s5.pages = s.pages ∧ Kept ls ls' (stOf s) (stOf s5) := by
  have hr := hinv.rep
  have ht := hinv.tiling
  have hK7 : K < 7 := hK
  have hKl : K < LEVELS := by simp only [LEVELS]; omega
  have hK1l : K + 1 < LEVELS := by simp only [LEVELS]; omega
  have hba : Blk ls K a := ⟨hKl, ha⟩
  have ha0 : a ≠ 0 := rep_nonzero hr hKl ha
  have hpos := bsize_pos K
  have hsucc := bsize_succ K
  have hleva := hr.level _ hKl a ha
  -- the buddy is a block of the same level
  obtain ⟨M, hM, hbM⟩ := buddy_block ht hba hK
  have hMK : M = K := by
    have := hr.level _ hbM.1 _ hbM.2
    rw [hbl] at this
    exact_mod_cast this.symm
  subst hMK
  have hbud := hbM.2
  have hb0 : a ^^^ bsize M ≠ 0 := rep_nonzero hr hKl hbud
  have hne : a ^^^ bsize M ≠ a := xor_pow_ne_self a _
  obtain ⟨bud, ebud⟩ : ∃ b, b = a ^^^ bsize M := ⟨_, rfl⟩
  rw [← ebud] at hbs hbl hbM hbud hb0 hne
  -- the lower and the upper half
  have hhalves : ∃ q, bsize (M + 1) ∣ q ∧ ((q = a ∧ bud = q + bsize M) ∨
      (q = bud ∧ a = q + bsize M)) := by
    rcases buddy_cases a M (ht.aligned _ _ hba) with ⟨hd, e⟩ | ⟨hle, hd, e⟩
    · exact ⟨a, hd, Or.inl ⟨rfl, by rw [ebud, e]⟩⟩
    · refine ⟨bud, by rw [ebud, e]; exact hd, Or.inr ⟨rfl, ?_⟩⟩
      rw [ebud, e]; omega
  obtain ⟨q, hqd, hq⟩ := hhalves
  have h1 : Blk ls M q := by
    rcases hq with ⟨e, _⟩ | ⟨e, _⟩
    · rw [e]; exact hba
    · rw [e]; exact hbM
  have h2 : Blk ls M (q + bsize M) := by
    rcases hq with ⟨_, e⟩ | ⟨_, e⟩
    · rw [← e]; exact hbM
    · rw [← e]; exact hba
  have hq0 : q ≠ 0 := rep_nonzero hr hKl h1.2
  have hprim : a &&& (2 ^ 64 - 1 - 2 ^ (M + MIN)) = q := by
    have hs : bsize (M + 1) = 2 ^ (M + MIN + 1) := by unfold bsize; congr 1
    rw [hs] at hqd
    have h64 := blk_lt_two_pow ht h2
    rcases hq with ⟨e, _⟩ | ⟨_, e⟩
    · rw [← e]
      exact mask_of_dvd q _ (by omega) (by simp only [MIN]; omega) hqd
    · rw [e]
      exact mask_add_pow_of_dvd q _ (by unfold bsize at h64 hpos; omega)
        (by simp only [MIN]; omega) hqd
  have hsec : (if q = a then bud else a) = q + bsize M := by
    rcases hq with ⟨e, e'⟩ | ⟨e, e'⟩
    · rw [if_pos e, e']
    · rw [if_neg (by omega), e']
  -- delete both
  obtain ⟨s1, hrun1, hr1, hpg1, hls1⟩ := rep_delete hr hKl hbud
  have hblk1 := blk_update_erase (a := bud) (hr.nodup _ hKl)
  obtain ⟨ls1, e1⟩ : ∃ l, l = Function.update ls M ((ls M).erase bud) := ⟨_, rfl⟩
  rw [← e1] at hr1 hblk1
  have ha1 : a ∈ ls1 M := ((hblk1 M a).mpr ⟨hba, fun h => hne h.2.symm⟩).2
  obtain ⟨s2, hrun2, hr2, hpg2, hls2⟩ := rep_delete hr1 hKl ha1
  have hblk2 := blk_update_erase (a := a) (hr1.nodup _ hKl)
  obtain ⟨ls2, e2⟩ : ∃ l, l = Function.update ls1 M ((ls1 M).erase a) := ⟨_, rfl⟩
  rw [← e2] at hr2 hblk2
  have hmem2 : ∀ j x, Blk ls2 j x ↔ Blk ls j x ∧ ¬ (j = M ∧ (x = q ∨ x = q + bsize M)) := by
    intro j x
    rw [hblk2, hblk1]
    rcases hq with ⟨e, e'⟩ | ⟨e, e'⟩
    · rw [e'] at *; rw [← e]; tauto
    · rw [e']; rw [← e]; tauto
  -- merge
  have hlev2a : (s2.mem a).level = (M : Int) := by rw [(hls2 a).1, (hls1 a).1]; exact hleva
  have hlev2q : (s2.mem q).level = (M : Int) := by
    rw [(hls2 q).1, (hls1 q).1]; exact hr.level _ hKl q h1.2
  have hmerge := merge_exec s2 a bud M ha0 hb0 hlev2a hK
    (by rw [ebud]; rfl) (by rw [hprim]; exact hq0)
  rw [hprim, hsec] at hmerge
  obtain ⟨s3, e3⟩ : ∃ s3 : State, s3 = State.mk (Function.update
      (Function.update s2.mem q { (s2.mem q) with level := (s2.mem q).level + 1 })
      (q + bsize M) ⟨0, 0, 0, 0⟩) s2.flists s2.pages := ⟨_, rfl⟩
  rw [← e3] at hmerge
  have hqu : q ≠ q + bsize M := by omega
  have hmem3 : ∀ x, x ≠ q → x ≠ q + bsize M → s3.mem x = s2.mem x := by
    intro x hx1 hx2
    rw [e3]
    show Function.update (Function.update s2.mem q _) (q + bsize M) _ x = _
    rw [Function.update_noteq hx2, Function.update_noteq hx1]
  have hmem3q : s3.mem q = { (s2.mem q) with level := (s2.mem q).level + 1 } := by
    rw [e3]
    show Function.update (Function.update s2.mem q _) (q + bsize M) _ q = _
    rw [Function.update_noteq hqu, Function.update_same]
  -- mark the merged block free
  obtain ⟨s4, e4⟩ : ∃ s4 : State, s4 = State.mk (Function.update s3.mem q
      (head.mk (s3.mem q).level STATUS_FREE (s3.mem q).next (s3.mem q).prev))
      s3.flists s3.pages := ⟨_, rfl⟩
  have hrun4 : setStatus s3 q STATUS_FREE = .ok s4 := by
    rw [e4]; simp only [setStatus, store, hq0, if_false]
  have hmem4 : ∀ x, x ≠ q → s4.mem x = s3.mem x := by
    intro x hx; rw [e4]; exact Function.update_noteq hx _ _
  have hmem4q : s4.mem q = head.mk (s3.mem q).level STATUS_FREE (s3.mem q).next
      (s3.mem q).prev := by
    rw [e4]; exact Function.update_same _ _ _
  have hr4 : Rep s4 ls2 := by
    refine rep_frame hr2 (by rw [e4, e3]) (fun j hj x hx => ?_)
    have hx' := (hmem2 j x).mp ⟨hj, hx⟩
    have hxq : x ≠ q := by
      rintro rfl
      exact hx'.2 ⟨blk_level_unique ht hx'.1 h1, Or.inl rfl⟩
    have hxu : x ≠ q + bsize M := by
      rintro rfl
      exact hx'.2 ⟨blk_level_unique ht hx'.1 h2, Or.inr rfl⟩
    rw [hmem4 x hxq, hmem3 x hxq hxu]
    exact ⟨rfl, rfl, rfl⟩
  have hlev4q : (s4.mem q).level = ((M + 1 : Nat) : Int) := by
    rw [hmem4q, hmem3q]
    show (s2.mem q).level + 1 = _
    rw [hlev2q]; push_cast; rfl
  obtain ⟨s5, hrun5, hr5, hpg5, hls5⟩ := rep_add hr4 hK1l hq0 hlev4q (by
    intro j hj hx
    exact ((hmem2 j q).mp ⟨hj, hx⟩).2
      ⟨blk_level_unique ht ((hmem2 j q).mp ⟨hj, hx⟩).1 h1, Or.inl rfl⟩)
  have hblk3 := @blk_update_cons ls2 (M + 1) q hK1l
  obtain ⟨ls3, e5⟩ : ∃ l, l = Function.update ls2 (M + 1) (q :: ls2 (M + 1)) := ⟨_, rfl⟩
  rw [← e5] at hr5 hblk3
  have hiff : ∀ j x, Blk ls3 j x ↔
      (Blk ls j x ∧ ¬ (j = M ∧ (x = q ∨ x = q + bsize M))) ∨ (j = M + 1 ∧ x = q) := by
    intro j x
    rw [hblk3, hmem2]
  have hstat : ∀ x, x ≠ q → x ≠ q + bsize M → stOf s5 x = stOf s x := by
    intro x hx1 hx2
    show (s5.mem x).status = (s.mem x).status
    rw [(hls5 x).2, hmem4 x hx1, hmem3 x hx1 hx2, (hls2 x).2, (hls1 x).2]
  have hstatq : stOf s5 q = STATUS_FREE := by
    show (s5.mem q).status = _
    rw [(hls5 q).2, hmem4q]
  have hpg : s5.pages = s.pages := by rw [hpg5, e4, e3, hpg2, hpg1]
  have hfq : stOf s q = STATUS_FREE ∧ stOf s (q + bsize M) = STATUS_FREE := by
    rcases hq with ⟨e, e'⟩ | ⟨e, e'⟩
    · rw [← e', e]; exact ⟨hfree, hbs⟩
    · rw [← e', e]; exact ⟨hbs, hfree⟩
  have hx0 : a = q ∨ a = q + bsize M := by
    rcases hq with ⟨e, _⟩ | ⟨_, e⟩
    · exact Or.inl e.symm
    · exact Or.inr e
  refine ⟨q, s5, ls3, ?_, ⟨hr5, ?_, ?_, ?_⟩, ?_, hstatq, hpg, ?_⟩
  · intro fuel
    have hlne : ((M : Nat) : Int) ≠ ((MAX_LEVEL : Nat) : Int) := by
      simp only [MAX_LEVEL]; omega
    have hbx : buddy s a = .ok bud := by
      rw [ebud]; exact buddy_exec s a M ha0 hleva hK
    simp only [possiblyMergeAsFarUpAsPossibleRecursive, load, ha0, hb0, if_false, bind,
      Except.bind, hlne, hbx, hbs, hbl, hleva, and_self, if_true, hrun1, hrun2, hmerge, hrun4,
      hrun5]
  · rw [hpg]; exact tiling_merge ht h1 h2 hqd hK hiff
  · exact nfpx_merge ht h1 h2 hx0 hiff hstat hinv.nfp
  · exact live_merge ht h1 h2 hiff hstat hstatq hfq.1 hfq.2 hinv.live
  · rw [e5, Function.update_same]; exact List.mem_cons_self _ _
  · exact kept_merge ht h1 h2 hiff hstat hfq.1 hfq.2

theorem mergeLoop_spec : ∀ (n : Nat) (s : State) (ls : Nat → List Nat) (live : List Nat)
    (a K : Nat), InvX s ls live a → a ∈ ls K → K + n = MAX_LEVEL →
    stOf s a = STATUS_FREE → ∀ fuel, n < fuel →
    ∃ s' ls', possiblyMergeAsFarUpAsPossibleRecursive fuel a s = .ok s' ∧
      Inv s' ls' live ∧ s'.pages = s.pages ∧ Kept ls ls' (stOf s) (stOf s') := by
  intro n
  induction n with
  | zero =>
    intro s ls live a K hinv ha hK hfree fuel hf
    obtain ⟨f, rfl⟩ : ∃ f, fuel = f + 1 := ⟨fuel - 1, by omega⟩
    have hKM : K = MAX_LEVEL := by omega
    subst hKM
    have hM : MAX_LEVEL < LEVELS := by decide
    have ha0 : a ≠ 0 := rep_nonzero hinv.rep hM ha
    have hlev := hinv.rep.level _ hM a ha
    refine ⟨s, ls, ?_, ⟨hinv.rep, hinv.tiling,
      nfp_of_nfpx_top hinv.tiling ⟨hM, ha⟩ hinv.nfp, hinv.live⟩, rfl, kept_refl _ _⟩
    simp only [possiblyMergeAsFarUpAsPossibleRecursive, load, ha0, if_false, bind,
      Except.bind, hlev, if_true, pure, Except.pure]
  | succ n ih =>
    intro s ls live a K hinv ha hK hfree fuel hf
    obtain ⟨f, rfl⟩ : ∃ f, fuel = f + 1 := ⟨fuel - 1, by omega⟩
    have hKM : K < MAX_LEVEL := by omega
    have hK7 : K < 7 := hKM
    have hKl : K < LEVELS := by simp only [LEVELS]; omega
    have ha0 : a ≠ 0 := rep_nonzero hinv.rep hKl ha
    have hleva := hinv.rep.level _ hKl a ha
    obtain ⟨M, hM, hbM⟩ := buddy_block hinv.tiling ⟨hKl, ha⟩ hKM
    have hb0 : a ^^^ bsize K ≠ 0 := rep_nonzero hinv.rep hbM.1 hbM.2
    by_cases hc : (s.mem (a ^^^ bsize K)).status = STATUS_FREE ∧
        (s.mem (a ^^^ bsize K)).level = (K : Int)
    · obtain ⟨q, s5, ls5, hstep, hinv5, hq5, hfree5, hpg5, hk5⟩ :=
        merge_iter hinv hKM ha hfree hc.1 hc.2
      obtain ⟨s', ls', hrun, hinv', hpg', hk'⟩ :=
        ih s5 ls5 live q (K + 1) hinv5 hq5 (by omega) hfree5 f (by omega)
      exact ⟨s', ls', by rw [hstep f]; exact hrun, hinv', by rw [hpg', hpg5],
        kept_trans hk5 hk'⟩
    · refine ⟨s, ls, ?_, ⟨hinv.rep, hinv.tiling, ?_, hinv.live⟩, rfl, kept_refl _ _⟩
      · have hlne : ((K : Nat) : Int) ≠ ((MAX_LEVEL : Nat) : Int) := by
          simp only [MAX_LEVEL]; omega
        have hbx : buddy s a = .ok (a ^^^ bsize K) := buddy_exec s a K ha0 hleva hKM
        simp only [possiblyMergeAsFarUpAsPossibleRecursive, load, ha0, hb0, if_false, bind,
          Except.bind, hlne, hbx, hleva, hc, pure, Except.pure]
      · refine nfp_of_nfpx_stop hinv.tiling ⟨hKl, ha⟩ ?_ hinv.nfp
        rintro ⟨h1, h2⟩
        exact hc ⟨h1, hinv.rep.level _ h2.1 _ h2.2⟩

theorem bfree_core {s : State} {ls : Nat → List Nat} {live : List Nat} (hinv : Inv s ls live)
    {p : Nat} (hp : p ∈ live) :
    ∃ s' ls', bfree p s = .ok s' ∧ Inv s' ls' (live.erase p) ∧ s'.pages = s.pages ∧
      (∀ i a, Blk ls i a → stOf s a = STATUS_USED → hide a ≠ p →
        Blk ls' i a ∧ stOf s' a = STATUS_USED) := by
  obtain ⟨K, a, hba, rfl⟩ := hinv.live.block p hp
  have hr := hinv.rep
  have ha0 : a ≠ 0 := rep_nonzero hr hba.1 hba.2
  have hp0 : hide a ≠ 0 := by unfold hide sizeof_head; omega
  have hused : stOf s a = STATUS_USED := by
    rcases hinv.live.status _ _ hba with ⟨h, _⟩ | ⟨_, h⟩
    · exact h
    · exact absurd hp h
  obtain ⟨s1, e1⟩ : ∃ s1 : State, s1 = State.mk (Function.update s.mem a
      (head.mk (s.mem a).level STATUS_FREE (s.mem a).next (s.mem a).prev)) s.flists s.pages :=
    ⟨_, rfl⟩
  have hrun1 : setStatus s a STATUS_FREE = .ok s1 := by
    rw [e1]; simp only [setStatus, store, ha0, if_false]
  have hstat : ∀ x, x ≠ a → stOf s1 x = stOf s x := by
    intro x hx
    show (s1.mem x).status = (s.mem x).status
    rw [e1]; simp only [Function.update_noteq hx]
  have hstata : stOf s1 a = STATUS_FREE := by
    show (s1.mem a).status = _
    rw [e1]; simp only [Function.update_same]
  have hr1 : Rep s1 ls := by
    refine rep_frame hr (by rw [e1]) (fun j hj x hx => ?_)
    rw [e1]
    by_cases hxa : x = a
    · subst hxa; simp only [Function.update_same, and_self]
    · simp only [Function.update_noteq hxa, and_self]
  have hx1 : InvX s1 ls (live.erase (hide a)) a := by
    refine ⟨hr1, by rw [e1]; exact hinv.tiling, ?_, ?_⟩
    · intro i x y hi hx hy hxa hya hsx hsy heq
      rw [hstat x hxa] at hsx
      rw [hstat y hya] at hsy
      exact hinv.nfp i x y hi hx hy hsx hsy heq
    · refine ⟨hinv.live.nodup.erase _, ?_, ?_⟩
      · intro q hq
        exact hinv.live.block q (List.mem_of_mem_erase hq)
      · intro j x hx
        by_cases hxa : x = a
        · subst hxa
          exact Or.inr ⟨hstata, fun h => (hinv.live.nodup.mem_erase_iff.mp h).1 rfl⟩
        · rw [hstat x hxa]
          have hne : hide x ≠ hide a := fun e => hxa (hide_inj e)
          rcases hinv.live.status _ _ hx with ⟨h1, h2⟩ | ⟨h1, h2⟩
          · exact Or.inl ⟨h1, hinv.live.nodup.mem_erase_iff.mpr ⟨hne, h2⟩⟩
          · exact Or.inr ⟨h1, fun h => h2 (List.mem_of_mem_erase h)⟩
  have hK7 : K < 8 := hba.1
  obtain ⟨s', ls', hrun, hinv', hpg', hk'⟩ :=
    mergeLoop_spec (MAX_LEVEL - K) s1 ls (live.erase (hide a)) a K hx1 hba.2
      (by simp only [MAX_LEVEL]; omega) hstata 32 (by simp only [MAX_LEVEL]; omega)
  refine ⟨s', ls', ?_, hinv', by rw [hpg', e1], ?_⟩
  · simp only [bfree, hp0, if_false, magic_hide, hrun1, bind, Except.bind, hrun]
  · intro i x hx hu hne
    have hxa : x ≠ a := fun e => hne (by rw [e])
    exact hk' i x hx (by rw [hstat x hxa]; exact hu)

/-- Every reachable state satisfies the invariant. -/
theorem reach_inv {s : State} {live : List Nat} (h : Reach s live) : ∃ ls, Inv s ls live := by
  induction h with
  | init m =>
    have hno : ∀ i a, ¬ Blk (fun _ => ([] : List Nat)) i a := fun i a h => by cases h.2
    refine ⟨fun _ => [], ⟨⟨fun i _ => rfl, fun i _ a ha => (by cases ha),
      fun i _ => List.nodup_nil⟩, ⟨?_, List.nodup_nil, ?_, ?_, ?_, ?_, ?_⟩, ?_,
      ⟨List.nodup_nil, ?_, ?_⟩⟩⟩
    · intro p hp; cases hp
    · intro i a h; exact h.1
    · intro i a h; exact absurd h (hno i a)
    · intro i a h; exact absurd h (hno i a)
    · intro i j a b h; exact absurd h (hno i a)
    · intro p hp; cases hp
    · intro i a b _ h; exact absurd h (hno i a)
    · intro q hq; cases hq
    · intro i a h; exact absurd h (hno i a)
  | @balloc s live fuel os size p s' _ hos hrun hp ih =>
    obtain ⟨ls, hinv⟩ := ih
    by_cases hv : 0 < size ∧ size ≤ PAGE - sizeof_head
    · obtain ⟨L, hL, hl⟩ := level_ok size hv.1 hv.2
      have h1 : ¬ (size ≤ 0 ∨ size > PAGE - sizeof_head) := by omega
      have hrun' := hrun
      simp only [balloc, h1, if_false, hl] at hrun'
      obtain ⟨L', hL', hrun'⟩ := bind_eq_ok _ _ _ hrun'
      cases hL'
      obtain ⟨found, hfind, hrun'⟩ := bind_eq_ok _ _ _ hrun'
      have hosf : found = 0 → ∃ p, os = some p ∧ p ≠ 0 ∧ PAGE ∣ p ∧ p + PAGE ≤ 2 ^ 64 ∧
          p ∉ s.pages := by
        intro hf
        cases os with
        | none =>
          have := balloc_oom fuel size s L hv hl (by rw [hfind, hf])
          rw [this] at hrun
          cases hrun
        | some p => exact ⟨p, rfl, hos⟩
      obtain ⟨h, s'', ls', hb, hinv', _⟩ :=
        balloc_core hinv fuel os size L found hv hl hL hfind hosf
      rw [hb] at hrun
      cases hrun
      exact ⟨ls', hinv'⟩
    · have := balloc_reject fuel os size s (by omega)
      rw [this] at hrun
      cases hrun
      exact absurd rfl hp
  | @balloc_null s live fuel os size s' _ hos hrun ih =>
    obtain ⟨ls, hinv⟩ := ih
    by_cases hv : 0 < size ∧ size ≤ PAGE - sizeof_head
    · exact absurd rfl (balloc_nonnull fuel os size s hv 0 s' hrun)
    · have := balloc_reject fuel os size s (by omega)
      rw [this] at hrun
      cases hrun
      exact ⟨ls, hinv⟩
  | @bfree s live p s' _ hp hrun ih =>
    obtain ⟨ls, hinv⟩ := ih
    obtain ⟨s'', ls', hb, hinv', _⟩ := bfree_core hinv hp
    rw [hb] at hrun
    cases hrun
    exact ⟨ls', hinv'⟩

/-! ## Coalesced tilings are unique -/

/-- An aligned region of a page that holds a block of a smaller level holds a
`USED` block of a smaller level, when no two `FREE` buddies are left. -/
theorem region_has_used {pages : List Nat} {blk : Nat → Nat → Prop} {st : Nat → Nat}
    (ht : Tiling pages blk) (hn : NoFreePair blk st)
    (htv : ∀ i a, blk i a → st a = STATUS_FREE ∨ st a = STATUS_USED)
    {j q : Nat} (hj : j ≤ MAX_LEVEL) (hq : bsize j ∣ q)
    (hsub : ∃ m c, m < j ∧ blk m c ∧ q ≤ c ∧ c < q + bsize j) :
    ∃ l u, l < j ∧ blk l u ∧ q ≤ u ∧ u < q + bsize j ∧ st u = STATUS_USED := by
  classical
  have hex : ∃ m, ∃ c, m < j ∧ blk m c ∧ q ≤ c ∧ c < q + bsize j := hsub
  obtain ⟨c, hmj, hbc, hc1, hc2⟩ := Nat.find_spec hex
  have hmin : ∀ m', m' < Nat.find hex → ¬ ∃ c, m' < j ∧ blk m' c ∧ q ≤ c ∧ c < q + bsize j :=
    fun m' h => Nat.find_min hex h
  obtain ⟨m, em⟩ : ∃ m, m = Nat.find hex := ⟨_, rfl⟩
  rw [← em] at hmj hbc hmin
  have hpos := bsize_pos m
  have hsucc := bsize_succ m
  have hmM : m < MAX_LEVEL := by omega
  have hd1 : bsize (m + 1) ∣ q := Dvd.dvd.trans (bsize_dvd (by omega)) hq
  have hd2 : bsize (m + 1) ∣ q + bsize j := Nat.dvd_add hd1 (bsize_dvd (by omega))
  obtain ⟨M, hM, hbM⟩ := buddy_block ht hbc hmM
  have hbin : q ≤ c ^^^ bsize m ∧ c ^^^ bsize m < q + bsize j := by
    rcases buddy_cases c m (ht.aligned _ _ hbc) with ⟨hd, e⟩ | ⟨hle, hd, e⟩
    · rw [e]
      have := mult_step hd hd2 hc2
      omega
    · rw [e]
      constructor
      · by_contra hlt
        have := mult_step hd hd1 (by omega)
        omega
      · omega
  have hMm : M = m := by
    by_contra hne
    exact hmin M (by omega) ⟨_, by omega, hbM, hbin.1, hbin.2⟩
  subst hMm
  rcases htv _ _ hbc with h1 | h1
  · rcases htv _ _ hbM with h2 | h2
    · exact absurd rfl (hn M c _ hmM hbc hbM h1 h2)
    · exact ⟨M, _, hmj, hbM, hbin.1, hbin.2, h2⟩
  · exact ⟨M, c, hmj, hbc, hc1, hc2, h1⟩

/-- Two tilings of the same pages without `FREE` buddies and with the same
`USED` blocks have the same blocks. -/
theorem tiling_unique {pages : List Nat} {blk1 blk2 : Nat → Nat → Prop} {st1 st2 : Nat → Nat}
    (ht1 : Tiling pages blk1) (ht2 : Tiling pages blk2)
    (hn1 : NoFreePair blk1 st1) (hn2 : NoFreePair blk2 st2)
    (htv1 : ∀ i a, blk1 i a → st1 a = STATUS_FREE ∨ st1 a = STATUS_USED)
    (htv2 : ∀ i a, blk2 i a → st2 a = STATUS_FREE ∨ st2 a = STATUS_USED)
    (hused : ∀ i a, (blk1 i a ∧ st1 a = STATUS_USED) ↔ (blk2 i a ∧ st2 a = STATUS_USED)) :
    ∀ i a, blk1 i a → blk2 i a := by
  intro i a hb
  rcases htv1 _ _ hb with hfree | hu
  swap
  · exact ((hused i a).mp ⟨hb, hu⟩).1
  obtain ⟨p, hp, hp1, hp2⟩ := ht1.inpage _ _ hb
  have hposi := bsize_pos i
  obtain ⟨m, c, hc, hc1, hc2⟩ := ht2.cover p hp a hp1 (by omega)
  have hposm := bsize_pos m
  have hi8 := ht1.lvl _ _ hb
  have hm8 := ht2.lvl _ _ hc
  have hi7 : i < 8 := hi8
  have hm7 : m < 8 := hm8
  rcases Nat.lt_trichotomy m i with hlt | heq | hgt
  · -- the block of the second tiling is smaller: it starts at `a`
    have hca : c = a := mult_eq (ht2.aligned _ _ hc)
      (Dvd.dvd.trans (bsize_dvd (by omega)) (ht1.aligned _ _ hb)) hc1 hc2
    subst hca
    obtain ⟨l, u, hl, hbu, hu1, hu2, hus⟩ := region_has_used ht2 hn2 htv2
      (j := i) (q := c) (by simp only [MAX_LEVEL]; omega) (ht1.aligned _ _ hb)
      ⟨m, c, hlt, hc, le_refl _, by omega⟩
    have hb1 := ((hused l u).mpr ⟨hbu, hus⟩).1
    have hposl := bsize_pos l
    rcases ht1.disjoint _ _ _ _ hb hb1 with ⟨_, e⟩ | h | h <;> omega
  · subst heq
    have hca : c = a := mult_eq (ht2.aligned _ _ hc) (ht1.aligned _ _ hb) hc1 hc2
    subst hca
    exact hc
  · -- the block of the second tiling is larger: it holds a used block
    have hle := bsize_le (show i ≤ m by omega)
    have hain : a < c + bsize m := by omega
    obtain ⟨l, u, hl, hbu, hu1, hu2, hus⟩ := region_has_used ht1 hn1 htv1
      (j := m) (q := c) (by simp only [MAX_LEVEL]; omega) (ht2.aligned _ _ hc)
      ⟨i, a, hgt, hb, hc1, hain⟩
    have hb2 := ((hused l u).mp ⟨hbu, hus⟩).1
    have hposl := bsize_pos l
    rcases ht2.disjoint _ _ _ _ hc hb2 with ⟨_, e⟩ | h | h <;> omega

/-- When every block is `FREE` and no two `FREE` buddies are left, the blocks
are the pages. -/
theorem all_free_blocks {pages : List Nat} {blk : Nat → Nat → Prop} {st : Nat → Nat}
    (ht : Tiling pages blk) (hn : NoFreePair blk st)
    (hfree : ∀ i a, blk i a → st a = STATUS_FREE) :
    ∀ i a, blk i a ↔ (i = MAX_LEVEL ∧ a ∈ pages) := by
  have hmax := bsize_max
  have hlev : ∀ i a, blk i a → i = MAX_LEVEL := by
    intro i a hb
    by_contra hne
    have hi8 : i < 8 := ht.lvl _ _ hb
    obtain ⟨p, hp, hp1, hp2⟩ := ht.inpage _ _ hb
    have hposi := bsize_pos i
    obtain ⟨l, u, _, hbu, _, _, hus⟩ := region_has_used ht hn
      (fun i a h => Or.inl (hfree i a h)) (j := MAX_LEVEL) (q := p) (le_refl _)
      (by rw [hmax]; exact (ht.page_ok p hp).2.1)
      ⟨i, a, by simp only [MAX_LEVEL] at hne ⊢; omega, hb, hp1, by rw [hmax]; omega⟩
    rw [hfree _ _ hbu] at hus
    exact free_ne_used hus
  intro i a
  constructor
  · intro hb
    have hi := hlev i a hb
    subst hi
    refine ⟨rfl, ?_⟩
    obtain ⟨p, hp, hp1, hp2⟩ := ht.inpage _ _ hb
    rw [hmax] at hp2
    have : a = p := by omega
    rw [this]; exact hp
  · rintro ⟨rfl, hp⟩
    obtain ⟨m, c, hc, hc1, hc2⟩ := ht.cover a hp a (le_refl _) (by simp only [PAGE]; omega)
    have hm := hlev m c hc
    subst hm
    obtain ⟨p', hp', h1, h2⟩ := ht.inpage _ _ hc
    rw [hmax] at h2 hc2
    have hcp : c = p' := by omega
    have hd1 := (ht.page_ok a hp).2.1
    have hd2 := (ht.page_ok p' hp').2.1
    have : c = a := by
      rw [hcp] at hc1 hc2 ⊢
      exact mult_eq hd2 hd1 hc1 hc2
    rw [← this]; exact hc

/-! ## From the invariant to the table in memory -/

theorem lists_bound (ls : Nat → List Nat) : ∃ N, ∀ i, i < LEVELS → (ls i).length < N := by
  refine ⟨(ls 0).length + (ls 1).length + (ls 2).length + (ls 3).length + (ls 4).length +
    (ls 5).length + (ls 6).length + (ls 7).length + 1, ?_⟩
  intro i hi
  have : i < 8 := hi
  interval_cases i <;> omega

theorem usedAt_iff {s : State} {ls : Nat → List Nat} (hr : Rep s ls) (i a : Nat) :
    UsedAt s i a ↔ Blk ls i a ∧ stOf s a = STATUS_USED := by
  unfold UsedAt Blk stOf
  constructor
  · rintro ⟨h1, h2, h3⟩; exact ⟨⟨h1, (linked_iff hr h1 a).mp h2⟩, h3⟩
  · rintro ⟨⟨h1, h2⟩, h3⟩; exact ⟨h1, (linked_iff hr h1 a).mpr h2, h3⟩

theorem freeAt_iff {s : State} {ls : Nat → List Nat} (hr : Rep s ls) (i a : Nat) :
    FreeAt s i a ↔ Blk ls i a ∧ stOf s a = STATUS_FREE := by
  unfold FreeAt Blk stOf
  constructor
  · rintro ⟨h1, h2, h3⟩; exact ⟨⟨h1, (linked_iff hr h1 a).mp h2⟩, h3⟩
  · rintro ⟨⟨h1, h2⟩, h3⟩; exact ⟨h1, (linked_iff hr h1 a).mpr h2, h3⟩

/-- What a successful `balloc` with a non-null result did, from the invariant. -/
theorem balloc_inv {s : State} {ls : Nat → List Nat} {live : List Nat} (hinv : Inv s ls live)
    {fuel : Nat} {os : Option Nat} {size p : Nat} {s' : State} (hos : OSok s os)
    (hrun : balloc fuel os size s = .ok (p, s')) (hp : p ≠ 0) :
    ∃ h ls' L, p = hide h ∧ Inv s' ls' (p :: live) ∧ h ∈ ls' L ∧ L < LEVELS ∧
      stOf s' h = STATUS_USED ∧ Kept ls ls' (stOf s) (stOf s') ∧ p ∉ live ∧
      (s'.pages = s.pages ∨ ∃ q, q ∉ s.pages ∧ PAGE ∣ q ∧ q ≠ 0 ∧ q + PAGE ≤ 2 ^ 64 ∧
        s'.pages = q :: s.pages) := by
  by_cases hv : 0 < size ∧ size ≤ PAGE - sizeof_head
  · obtain ⟨L, hL, hl⟩ := level_ok size hv.1 hv.2
    have h1 : ¬ (size ≤ 0 ∨ size > PAGE - sizeof_head) := by omega
    have hrun' := hrun
    simp only [balloc, h1, if_false, hl] at hrun'
    obtain ⟨L', hL', hrun'⟩ := bind_eq_ok _ _ _ hrun'
    cases hL'
    obtain ⟨found, hfind, hrun'⟩ := bind_eq_ok _ _ _ hrun'
    have hosf : found = 0 → ∃ p, os = some p ∧ p ≠ 0 ∧ PAGE ∣ p ∧ p + PAGE ≤ 2 ^ 64 ∧
        p ∉ s.pages := by
      intro hf
      cases os with
      | none =>
        have := balloc_oom fuel size s L hv hl (by rw [hfind, hf])
        rw [this] at hrun
        cases hrun
      | some p => exact ⟨p, rfl, hos⟩
    obtain ⟨h, s'', ls', hb, hinv', hmem, hu, hk, hnl, hpg⟩ :=
      balloc_core hinv fuel os size L found hv hl hL hfind hosf
    rw [hb] at hrun
    cases hrun
    refine ⟨h, ls', L, rfl, hinv', hmem, by simp only [LEVELS, MAX_LEVEL] at hL ⊢; omega, hu,
      hk, hnl, ?_⟩
    rcases hpg with ⟨_, e⟩ | ⟨hf, q, hq, e⟩
    · exact Or.inl e
    · obtain ⟨q', hq', h0, ha, h64, hn⟩ := hosf hf
      rw [hq] at hq'
      cases hq'
      exact Or.inr ⟨q, hn, ha, h0, h64, e⟩
  · have := balloc_reject fuel os size s (by omega)
    rw [this] at hrun
    cases hrun
    exact absurd rfl hp

theorem wellFormed_init (m : Nat → head) : WellFormed (init m) := by
  obtain ⟨ls, h⟩ := reach_inv (Reach.init m)
  exact ⟨ls, [], h⟩

/-! ## Allocation followed by release -/

theorem tiling_congr {pages : List Nat} {blk blk' : Nat → Nat → Prop} (ht : Tiling pages blk)
    (h : ∀ i a, blk' i a ↔ blk i a) : Tiling pages blk' := by
  have e : blk' = blk := by
    funext i a
    exact propext (h i a)
  rw [e]; exact ht

theorem live_two_valued {blk : Nat → Nat → Prop} {st : Nat → Nat} {live : List Nat}
    (hl : LiveOK blk st live) (i a : Nat) (h : blk i a) :
    st a = STATUS_FREE ∨ st a = STATUS_USED := by
  rcases hl.status i a h with ⟨h1, _⟩ | ⟨h1, _⟩
  · exact Or.inr h1
  · exact Or.inl h1

/-- The table after `bfree` of the pointer that `balloc` just returned. -/
theorem roundtrip_core {s : State} {ls : Nat → List Nat} {live : List Nat}
    (hinv : Inv s ls live) {fuel : Nat} {os : Option Nat} {size p : Nat} {s1 : State}
    (hos : OSok s os) (hb : balloc fuel os size s = .ok (p, s1)) (hp : p ≠ 0) :
    ∃ s2 ls2, bfree p s1 = .ok s2 ∧ Inv s2 ls2 live ∧
      (s2.pages = s.pages ∨ ∃ q, q ∉ s.pages ∧ s2.pages = q :: s.pages) ∧
      (∀ i a, Blk ls2 i a ↔ Blk ls i a ∨ (i = MAX_LEVEL ∧ a ∈ s2.pages ∧ a ∉ s.pages)) ∧
      (∀ i a, Blk ls i a → stOf s2 a = stOf s a) ∧
      (∀ a, a ∈ s2.pages → a ∉ s.pages → stOf s2 a = STATUS_FREE) := by
  classical
  obtain ⟨h, ls1, L, rfl, hinv1, hmem1, hL, hu1, hk1, hnl, hpg1⟩ := balloc_inv hinv hos hb hp
  obtain ⟨s2, ls2, hrun2, hinv2, hpg2, hk2⟩ := bfree_core hinv1 (List.mem_cons_self _ _)
  rw [List.erase_cons_head] at hinv2
  have ht := hinv.tiling
  have hpages : s2.pages = s.pages ∨ ∃ q, q ∉ s.pages ∧ PAGE ∣ q ∧ q ≠ 0 ∧
      q + PAGE ≤ 2 ^ 64 ∧ s2.pages = q :: s.pages := by
    rcases hpg1 with e | ⟨q, h1, h2, h3, h4, e⟩
    · exact Or.inl (by rw [hpg2, e])
    · exact Or.inr ⟨q, h1, h2, h3, h4, by rw [hpg2, e]⟩
  -- the table before, with the page that was mapped
  obtain ⟨blkA, eA⟩ : ∃ b : Nat → Nat → Prop, b = fun i a =>
      Blk ls i a ∨ (i = MAX_LEVEL ∧ a ∈ s2.pages ∧ a ∉ s.pages) := ⟨_, rfl⟩
  obtain ⟨stA, eS⟩ : ∃ f : Nat → Nat, f = fun a =>
      if a ∈ s2.pages ∧ a ∉ s.pages then STATUS_FREE else stOf s a := ⟨_, rfl⟩
  have hA : ∀ i a, blkA i a ↔ Blk ls i a ∨ (i = MAX_LEVEL ∧ a ∈ s2.pages ∧ a ∉ s.pages) := by
    intro i a; rw [eA]
  have hold : ∀ i a, Blk ls i a → ¬ (a ∈ s2.pages ∧ a ∉ s.pages) := by
    rintro i a hb ⟨h1, h2⟩
    rcases hpages with e | ⟨q, hq1, hq2, _, _, e⟩
    · rw [e] at h1; exact h2 h1
    · rw [e] at h1
      rcases List.mem_cons.mp h1 with rfl | h1'
      · exact page_not_block ht hq2 hq1 i hb
      · exact h2 h1'
  have hstA : ∀ i a, Blk ls i a → stA a = stOf s a := by
    intro i a hb; rw [eS]; simp only [if_neg (hold i a hb)]
  have hstN : ∀ a, a ∈ s2.pages → a ∉ s.pages → stA a = STATUS_FREE := by
    intro a h1 h2; rw [eS]; simp only [if_pos (And.intro h1 h2)]
  have htA : Tiling s2.pages blkA := by
    rcases hpages with e | ⟨q, hq1, hq2, hq3, hq4, e⟩
    · rw [e]
      refine tiling_congr ht (fun i a => ?_)
      rw [hA, e]
      constructor
      · rintro (h | ⟨_, h1, h2⟩)
        · exact h
        · exact absurd h1 h2
      · exact Or.inl
    · rw [e]
      refine tiling_newpage ht hq3 hq2 hq4 hq1 (fun j x => ?_)
      rw [hA, e]
      constructor
      · rintro (h | ⟨h0, h1, h2⟩)
        · exact Or.inl h
        · rcases List.mem_cons.mp h1 with h1' | h1'
          · exact Or.inr ⟨h0, h1'⟩
          · exact absurd h1' h2
      · rintro (h | ⟨h0, rfl⟩)
        · exact Or.inl h
        · exact Or.inr ⟨h0, List.mem_cons_self _ _, hq1⟩
  have hnA : NoFreePair blkA stA := by
    intro i a b hi ha hb' hsa hsb heq
    have ha1 : Blk ls i a := by
      rcases (hA i a).mp ha with h | ⟨h, _⟩
      · exact h
      · omega
    have hb1 : Blk ls i b := by
      rcases (hA i b).mp hb' with h | ⟨h, _⟩
      · exact h
      · omega
    rw [hstA i a ha1] at hsa
    rw [hstA i b hb1] at hsb
    exact hinv.nfp i a b hi ha1 hb1 hsa hsb heq
  have htvA : ∀ i a, blkA i a → stA a = STATUS_FREE ∨ stA a = STATUS_USED := by
    intro i a ha
    rcases (hA i a).mp ha with h | ⟨_, h1, h2⟩
    · rw [hstA i a h]; exact live_two_valued hinv.live i a h
    · exact Or.inl (hstN a h1 h2)
  have hfwd : ∀ i a, Blk ls i a → stOf s a = STATUS_USED →
      Blk ls2 i a ∧ stOf s2 a = STATUS_USED := by
    intro i a ha hu
    have h1 := hk1 i a ha hu
    refine hk2 i a h1.1 h1.2 ?_
    intro e
    rcases hinv.live.status i a ha with ⟨_, hin⟩ | ⟨hf, _⟩
    · rw [e] at hin; exact hnl hin
    · rw [hu] at hf; exact free_ne_used hf.symm
  have hused : ∀ i a, (blkA i a ∧ stA a = STATUS_USED) ↔
      (Blk ls2 i a ∧ stOf s2 a = STATUS_USED) := by
    intro i a
    constructor
    · rintro ⟨ha, hu⟩
      rcases (hA i a).mp ha with h | ⟨_, h1, h2⟩
      · rw [hstA i a h] at hu
        exact hfwd i a h hu
      · rw [hstN a h1 h2] at hu; exact absurd hu free_ne_used
    · rintro ⟨ha, hu⟩
      have hin : hide a ∈ live := by
        rcases hinv2.live.status i a ha with ⟨_, hin⟩ | ⟨hf, _⟩
        · exact hin
        · rw [hu] at hf; exact absurd hf.symm free_ne_used
      obtain ⟨j, a', ha', e⟩ := hinv.live.block _ hin
      have := hide_inj e
      subst this
      have hua : stOf s a = STATUS_USED := by
        rcases hinv.live.status j a ha' with ⟨h1, _⟩ | ⟨_, h2⟩
        · exact h1
        · exact absurd hin h2
      have h2 := hfwd j a ha' hua
      have hji : j = i := blk_level_unique hinv2.tiling h2.1 ha
      subst hji
      exact ⟨(hA j a).mpr (Or.inl ha'), by rw [hstA j a ha']; exact hua⟩
  have htv2 : ∀ i a, Blk ls2 i a → stOf s2 a = STATUS_FREE ∨ stOf s2 a = STATUS_USED :=
    fun i a h => live_two_valued hinv2.live i a h
  have hsame1 := tiling_unique htA hinv2.tiling hnA hinv2.nfp htvA htv2 hused
  have hsame2 := tiling_unique hinv2.tiling htA hinv2.nfp hnA htv2 htvA
    (fun i a => (hused i a).symm)
  refine ⟨s2, ls2, hrun2, hinv2, ?_, ?_, ?_, ?_⟩
  · rcases hpages with e | ⟨q, hq1, _, _, _, e⟩
    · exact Or.inl e
    · exact Or.inr ⟨q, hq1, e⟩
  · intro i a
    rw [← hA]
    exact ⟨hsame2 i a, hsame1 i a⟩
  · intro i a ha
    have ha2 := hsame1 i a ((hA i a).mpr (Or.inl ha))
    rcases live_two_valued hinv.live i a ha with hf | hu
    · rcases htv2 i a ha2 with hf2 | hu2
      · rw [hf, hf2]
      · have := ((hused i a).mpr ⟨ha2, hu2⟩).2
        rw [hstA i a ha, hf] at this
        exact absurd this free_ne_used
    · rw [hu, (hfwd i a ha hu).2]
  · intro a h1 h2
    have ha2 := hsame1 MAX_LEVEL a ((hA _ a).mpr (Or.inr ⟨rfl, h1, h2⟩))
    rcases htv2 _ a ha2 with hf2 | hu2
    · exact hf2
    · have := ((hused _ a).mpr ⟨ha2, hu2⟩).2
      rw [hstN a h1 h2] at this
      exact absurd this free_ne_used

theorem not_linked_init (m : Nat → head) (i a : Nat) : ¬ Linked (init m) i a := by
  intro h
  unfold Linked init at h
  cases h with
  | here _ h0 => exact h0 rfl
  | next _ _ h0 _ => exact h0 rfl

theorem eq_singleton_of_mem_iff {l : List Nat} {p : Nat} (hnd : l.Nodup)
    (h : ∀ x, x ∈ l ↔ x = p) : l = [p] := by
  cases l with
  | nil => exact absurd ((h p).mpr rfl) (List.not_mem_nil _)
  | cons a t =>
    have ha : a = p := (h a).mp (List.mem_cons_self _ _)
    subst ha
    cases t with
    | nil => rfl
    | cons b t' =>
      have hb : b = a := (h b).mp (by simp)
      subst hb
      simp at hnd

/-- The table of a state in which every returned pointer was freed. -/
theorem coalesce_core {s : State} {ls : Nat → List Nat} (hinv : Inv s ls []) (p : Nat)
    (hp : s.pages = [p]) : ls MAX_LEVEL = [p] ∧ ∀ L, L < MAX_LEVEL → ls L = [] := by
  have hfree : ∀ i a, Blk ls i a → stOf s a = STATUS_FREE := by
    intro i a h
    rcases hinv.live.status i a h with ⟨_, h2⟩ | ⟨h1, _⟩
    · cases h2
    · exact h1
  have hall := all_free_blocks hinv.tiling hinv.nfp hfree
  have hM : MAX_LEVEL < LEVELS := by decide
  constructor
  · refine eq_singleton_of_mem_iff (hinv.rep.nodup _ hM) (fun x => ?_)
    constructor
    · intro hx
      have := ((hall MAX_LEVEL x).mp ⟨hM, hx⟩).2
      rw [hp] at this
      simpa using this
    · rintro rfl
      exact ((hall MAX_LEVEL x).mpr ⟨rfl, by rw [hp]; simp⟩).2
  · intro L hL
    have hL7 : L < 7 := hL
    apply List.eq_nil_iff_forall_not_mem.mpr
    intro a ha
    have := ((hall L a).mp ⟨by simp only [LEVELS]; omega, ha⟩).1
    omega

/-- The table of a reachable state with one page in which no pointer is live. -/
theorem coalesce_reach (s : State) (hr : Reach s []) (p : Nat) (hp : s.pages = [p]) :
    s.flists MAX_LEVEL = p ∧ p ≠ 0 ∧ (s.mem p).next = 0 ∧ (s.mem p).prev = 0 ∧
    (s.mem p).level = (MAX_LEVEL : Int) ∧ (s.mem p).status = STATUS_FREE ∧
    (∀ a, Linked s MAX_LEVEL a ↔ a = p) ∧
    (∀ L, L < MAX_LEVEL → s.flists L = 0 ∧ ∀ a, ¬ Linked s L a) := by
  obtain ⟨ls, hinv⟩ := reach_inv hr
  obtain ⟨hmax, hlow⟩ := coalesce_core hinv p hp
  have hM : MAX_LEVEL < LEVELS := by decide
  have hch := hinv.rep.chain _ hM
  rw [hmax] at hch
  obtain ⟨h1, h2, h3, h4⟩ := hch
  have hpm : p ∈ ls MAX_LEVEL := by rw [hmax]; simp
  have hst : (s.mem p).status = STATUS_FREE := by
    rcases hinv.live.status _ _ ⟨hM, hpm⟩ with ⟨_, h⟩ | ⟨h, _⟩
    · cases h
    · exact h
  refine ⟨h1, h2, h4, h3, hinv.rep.level _ hM p hpm, hst, ?_, ?_⟩
  · intro a
    rw [linked_iff hinv.rep hM, hmax]
    simp
  · intro L hL
    have hL7 : L < 7 := hL
    have hL8 : L < LEVELS := by simp only [LEVELS]; omega
    have hc := hinv.rep.chain _ hL8
    rw [hlow L hL] at hc
    refine ⟨hc, fun a ha => ?_⟩
    have := (linked_iff hinv.rep hL8 a).mp ha
    rw [hlow L hL] at this
    cases this

theorem reach_of_allocRun {s : State} {ptrs : List Nat} (h : AllocRun s ptrs) :
    Reach s ptrs := by
  induction h with
  | init m => exact Reach.init m
  | step fuel os size p s' _ hos hrun hp ih => exact Reach.balloc fuel os size p s' ih hos hrun hp

/-- Freeing the live pointers, in any order, succeeds and leads to a reachable
state with the same pages in which no pointer is live. -/
theorem freeRun_all : ∀ (order : List Nat) (s : State) (live : List Nat),
    Reach s live → order.Perm live →
    ∃ s', FreeRun s order s' ∧ Reach s' [] ∧ s'.pages = s.pages := by
  intro order
  induction order with
  | nil =>
    intro s live hr hperm
    have : live = [] := List.Perm.eq_nil (List.Perm.symm hperm)
    subst this
    exact ⟨s, FreeRun.done s, hr, rfl⟩
  | cons p ps ih =>
    intro s live hr hperm
    have hp : p ∈ live := List.Perm.subset hperm (List.mem_cons_self _ _)
    obtain ⟨ls, hinv⟩ := reach_inv hr
    obtain ⟨s1, _, hrun, _, hpg, _⟩ := bfree_core hinv hp
    have hr1 : Reach s1 (live.erase p) := Reach.bfree p s1 hr hp hrun
    have hperm1 : ps.Perm (live.erase p) := by
      have := List.Perm.erase p hperm
      rwa [List.erase_cons_head] at this
    obtain ⟨s', hfr, hr', hpg'⟩ := ih s1 (live.erase p) hr1 hperm1
    exact ⟨s', FreeRun.step hrun hfr, hr', by rw [hpg', hpg]⟩

theorem freeRun_det : ∀ {order : List Nat} {s s1 s2 : State},
    FreeRun s order s1 → FreeRun s order s2 → s1 = s2 := by
  intro order
  induction order with
  | nil =>
    intro s s1 s2 h1 h2
    cases h1; cases h2; rfl
  | cons p ps ih =>
    intro s s1 s2 h1 h2
    cases h1 with
    | step hr1 hf1 =>
      cases h2 with
      | step hr2 hf2 =>
        rw [hr1] at hr2
        cases hr2
        exact ih hf1 hf2

/-! ## The function `freeAll` -/

theorem scan_spec (s : State) : ∀ (l : List Nat) (p c : Nat), Chain s.mem p c l →
    ∃ t, ((t = 0 ∧ ∀ a ∈ l, (s.mem a).status ≠ STATUS_USED) ∨
        (t ∈ l ∧ (s.mem t).status = STATUS_USED)) ∧
      ∀ walk, freeAllScan s walk c = .ok t ∨
        (freeAllScan s walk c = .error .outOfFuel ∧ walk ≤ l.length) := by
  intro l
  induction l with
  | nil =>
    intro p c hc
    simp only [Chain] at hc
    subst hc
    refine ⟨0, Or.inl ⟨rfl, by simp⟩, fun walk => ?_⟩
    cases walk with
    | zero => exact Or.inr ⟨rfl, le_refl _⟩
    | succ w => left; simp [freeAllScan]
  | cons a l ih =>
    intro p c hc
    obtain ⟨hca, ha0, _, hrest⟩ := hc
    subst hca
    by_cases hu : (s.mem c).status = STATUS_USED
    · refine ⟨c, Or.inr ⟨List.mem_cons_self _ _, hu⟩, fun walk => ?_⟩
      cases walk with
      | zero => exact Or.inr ⟨rfl, Nat.zero_le _⟩
      | succ w => left; simp [freeAllScan, hu]
    · obtain ⟨t, ht, hrun⟩ := ih c (s.mem c).next hrest
      refine ⟨t, ?_, fun walk => ?_⟩
      · rcases ht with ⟨h0, hall⟩ | ⟨hm, hst⟩
        · left
          refine ⟨h0, ?_⟩
          intro x hx
          rcases List.mem_cons.mp hx with rfl | hx
          · exact hu
          · exact hall x hx
        · exact Or.inr ⟨List.mem_cons_of_mem _ hm, hst⟩
      · cases walk with
        | zero => exact Or.inr ⟨rfl, Nat.zero_le _⟩
        | succ w =>
          have e : freeAllScan s (w + 1) c = freeAllScan s w (s.mem c).next := by
            simp [freeAllScan, ha0, hu]
          rw [e]
          rcases hrun w with h | ⟨h, hle⟩
          · exact Or.inl h
          · exact Or.inr ⟨h, by simp only [List.length_cons]; omega⟩

theorem bfree_step {s : State} {ls : Nat → List Nat} {live : List Nat} (hinv : Inv s ls live)
    {p : Nat} (hp : p ∈ live) :
    ∃ s' ls', bfree p s = .ok s' ∧ Inv s' ls' (live.erase p) ∧ s'.pages = s.pages ∧
      (∀ i a, Blk ls' i a → stOf s' a = STATUS_USED →
        Blk ls i a ∧ stOf s a = STATUS_USED) := by
  obtain ⟨s', ls', hrun, hinv', hpg, hkeep⟩ := bfree_core hinv hp
  refine ⟨s', ls', hrun, hinv', hpg, ?_⟩
  intro i a hb hu
  have hin : hide a ∈ live.erase p := by
    rcases hinv'.live.status i a hb with ⟨_, h⟩ | ⟨h, _⟩
    · exact h
    · rw [hu] at h; exact absurd h.symm free_ne_used
  have hlive : hide a ∈ live := List.mem_of_mem_erase hin
  have hne : hide a ≠ p := by
    intro e
    rw [e] at hin
    exact (List.Nodup.not_mem_erase hinv.live.nodup) hin
  obtain ⟨i0, a0, hb0, e0⟩ := hinv.live.block _ hlive
  have ea : a = a0 := hide_inj e0
  subst ea
  have hu0 : stOf s a = STATUS_USED := by
    rcases hinv.live.status i0 a hb0 with ⟨h, _⟩ | ⟨_, h⟩
    · exact h
    · exact absurd hlive h
  obtain ⟨hb1, _⟩ := hkeep i0 a hb0 hu0 hne
  have e : i = i0 := blk_level_unique hinv'.tiling hb hb1
  subst e
  exact ⟨hb0, hu0⟩

theorem low_empty {pages : List Nat} {blk : Nat → Nat → Prop} {st : Nat → Nat}
    (ht : Tiling pages blk) (hn : NoFreePair blk st)
    (htv : ∀ i a, blk i a → st a = STATUS_FREE ∨ st a = STATUS_USED)
    {L : Nat} (hL : L ≤ MAX_LEVEL)
    (hlow : ∀ j a, j < L → blk j a → st a ≠ STATUS_USED) :
    ∀ j a, j < L → ¬ blk j a := by
  intro j a hj hb
  have hal := ht.aligned j a hb
  have hpos := bsize_pos j
  have hs := bsize_succ j
  have key : ∀ q, bsize (j + 1) ∣ q → q ≤ a → a < q + bsize (j + 1) → False := by
    intro q hq h1 h2
    obtain ⟨l, u, hl, hbu, _, _, hu⟩ := region_has_used ht hn htv (by omega : j + 1 ≤ MAX_LEVEL) hq
      ⟨j, a, Nat.lt_succ_self j, hb, h1, h2⟩
    exact hlow l u (by omega) hbu hu
  rcases buddy_cases a j hal with ⟨hd, _⟩ | ⟨hle, hd, _⟩
  · exact key a hd (le_refl _) (by omega)
  · exact key (a - bsize j) hd (by omega) (by omega)


theorem levels_unfold (walk n L : Nat) (hL : L < MAX_LEVEL) (s : State) :
    freeAllLevels walk (n + 1) (L : Int) s =
      (freeAllScan s walk (s.flists L) >>= fun node =>
        if node ≠ 0 then bfree (hide node) s >>= fun s1 => freeAllLevels walk n (L : Int) s1
        else if s.flists L ≠ 0 then .error .assertFail
        else freeAllLevels walk n ((L + 1 : Nat) : Int) s) := by
  have hL8 : L < LEVELS := by simp only [MAX_LEVEL] at hL; simp only [LEVELS]; omega
  have hc : (L : Int) < (LEVELS : Int) - 1 := by
    simp only [MAX_LEVEL] at hL; simp only [LEVELS]; omega
  have e1 : (L : Int) - 1 + 1 = (L : Int) := by omega
  have e2 : (L : Int) + 1 = ((L + 1 : Nat) : Int) := by push_cast; rfl
  rw [freeAllLevels]
  simp only [hc, if_true, getList_ok s hL8, e1, e2, bind, Except.bind, throw, throwThe,
    MonadExceptOf.throw]

theorem levels_done (walk n : Nat) (s : State) :
    freeAllLevels walk (n + 1) ((MAX_LEVEL : Nat) : Int) s = .ok s := by
  rw [freeAllLevels]
  simp [MAX_LEVEL, LEVELS, pure, Except.pure]


theorem nil_of_no_blk {ls : Nat → List Nat} {j : Nat} (hj : j < LEVELS)
    (h : ∀ a, ¬ Blk ls j a) : ls j = [] :=
  List.eq_nil_iff_forall_not_mem.mpr (fun a ha => h a ⟨hj, ha⟩)

theorem levels_spec : ∀ (M : Nat) (s : State) (ls : Nat → List Nat) (live : List Nat)
    (L : Nat), Inv s ls live → L ≤ MAX_LEVEL →
    (∀ j a, j < L → Blk ls j a → stOf s a ≠ STATUS_USED) →
    live.length + (MAX_LEVEL - L) = M →
    ∃ N s' ls' live', Inv s' ls' live' ∧ (∀ j, j < MAX_LEVEL → ls' j = []) ∧
      s'.pages = s.pages ∧
      ∀ walk n, freeAllLevels walk n (L : Int) s = .ok s' ∨
        (freeAllLevels walk n (L : Int) s = .error .outOfFuel ∧ (n ≤ M ∨ walk < N)) := by
  intro M
  induction M with
  | zero =>
    intro s ls live L hinv hL hlow hM
    have e : L = MAX_LEVEL := by omega
    subst e
    have hemp := low_empty hinv.tiling hinv.nfp (live_two_valued hinv.live) (le_refl _) hlow
    refine ⟨0, s, ls, live, hinv, fun j hj => nil_of_no_blk
      (by simp only [MAX_LEVEL] at hj; simp only [LEVELS]; omega) (fun a => hemp j a hj),
      rfl, fun walk n => ?_⟩
    cases n with
    | zero => exact Or.inr ⟨rfl, Or.inl (le_refl _)⟩
    | succ n => exact Or.inl (levels_done walk n s)
  | succ M ih =>
    intro s ls live L hinv hL hlow hM
    by_cases hL7 : L = MAX_LEVEL
    · subst hL7
      have hemp := low_empty hinv.tiling hinv.nfp (live_two_valued hinv.live) (le_refl _) hlow
      refine ⟨0, s, ls, live, hinv, fun j hj => nil_of_no_blk
        (by simp only [MAX_LEVEL] at hj; simp only [LEVELS]; omega) (fun a => hemp j a hj),
        rfl, fun walk n => ?_⟩
      cases n with
      | zero => exact Or.inr ⟨rfl, Or.inl (Nat.zero_le _)⟩
      | succ n => exact Or.inl (levels_done walk n s)
    · have hLlt : L < MAX_LEVEL := lt_of_le_of_ne hL hL7
      have hL8 : L < LEVELS := by
        simp only [MAX_LEVEL] at hLlt; simp only [LEVELS]; omega
      obtain ⟨t, ht, hscan⟩ := scan_spec s (ls L) 0 (s.flists L) (hinv.rep.chain L hL8)
      rcases ht with ⟨ht0, hall⟩ | ⟨htm, htu⟩
      · -- no `USED` node is left at level `L`
        subst ht0
        have hlow' : ∀ j a, j < L + 1 → Blk ls j a → stOf s a ≠ STATUS_USED := by
          intro j a hj hb
          by_cases e : j = L
          · subst e; exact hall a hb.2
          · exact hlow j a (by omega) hb
        have hemp := low_empty hinv.tiling hinv.nfp (live_two_valued hinv.live)
          (by omega : L + 1 ≤ MAX_LEVEL) hlow'
        have hnil : ls L = [] := nil_of_no_blk hL8 (fun a => hemp L a (Nat.lt_succ_self L))
        have hf0 : s.flists L = 0 := by
          have hc := hinv.rep.chain L hL8
          rw [hnil] at hc
          simpa only [Chain] using hc
        obtain ⟨N, s', ls', live', hinv', hnil', hpg, hrun⟩ :=
          ih s ls live (L + 1) hinv (by omega) hlow' (by omega)
        refine ⟨N + 1, s', ls', live', hinv', hnil', hpg, fun walk n => ?_⟩
        cases n with
        | zero => exact Or.inr ⟨rfl, Or.inl (Nat.zero_le _)⟩
        | succ n =>
          rw [levels_unfold walk n L hLlt s]
          rcases hscan walk with h | ⟨h, hle⟩
          · rw [h]
            simp only [bind, Except.bind, ne_eq, not_true_eq_false, if_false, hf0]
            rcases hrun walk n with h2 | ⟨h2, hb⟩
            · exact Or.inl h2
            · exact Or.inr ⟨h2, by omega⟩
          · rw [h]
            right
            refine ⟨rfl, Or.inr ?_⟩
            rw [hnil] at hle
            simp only [List.length_nil] at hle
            omega
      · -- the first `USED` node of level `L` is freed
        have hb : Blk ls L t := ⟨hL8, htm⟩
        have ht0 : t ≠ 0 := rep_nonzero hinv.rep hL8 htm
        have hlive : hide t ∈ live := by
          rcases hinv.live.status L t hb with ⟨_, h⟩ | ⟨h, _⟩
          · exact h
          · have : STATUS_USED = STATUS_FREE := htu.symm.trans h
            exact absurd this.symm free_ne_used
        obtain ⟨s1, ls1, hfree, hinv1, hpg1, hback⟩ := bfree_step hinv hlive
        have hlow1 : ∀ j a, j < L → Blk ls1 j a → stOf s1 a ≠ STATUS_USED := by
          intro j a hj hb1 hu
          exact hlow j a hj (hback j a hb1 hu).1 (hback j a hb1 hu).2
        have hlen : (live.erase (hide t)).length + (MAX_LEVEL - L) = M := by
          rw [List.length_erase_of_mem hlive]
          have : 0 < live.length := List.length_pos_of_mem hlive
          omega
        obtain ⟨N, s', ls', live', hinv', hnil', hpg, hrun⟩ :=
          ih s1 ls1 _ L hinv1 hL hlow1 hlen
        refine ⟨max N ((ls L).length + 1), s', ls', live', hinv', hnil',
          by rw [hpg, hpg1], fun walk n => ?_⟩
        cases n with
        | zero => exact Or.inr ⟨rfl, Or.inl (Nat.zero_le _)⟩
        | succ n =>
          rw [levels_unfold walk n L hLlt s]
          rcases hscan walk with h | ⟨h, hle⟩
          · rw [h]
            simp only [bind, Except.bind, ne_eq, ht0, not_false_eq_true, if_true, hfree]
            rcases hrun walk n with h2 | ⟨h2, hb⟩
            · exact Or.inl h2
            · refine Or.inr ⟨h2, ?_⟩
              rcases hb with hb | hb
              · exact Or.inl (by omega)
              · exact Or.inr (lt_of_lt_of_le hb (le_max_left _ _))
          · rw [h]
            right
            refine ⟨rfl, Or.inr ?_⟩
            exact lt_of_lt_of_le (by omega : walk < (ls L).length + 1) (le_max_right _ _)


theorem rep_munmap {s : State} {ls : Nat → List Nat} (hr : Rep s ls) (a : Nat) :
    Rep (munmap s a) ls :=
  ⟨hr.chain, hr.level, hr.nodup⟩

theorem chain_head {mem : Nat → head} {l : List Nat} {p c : Nat} (h : Chain mem p c l) :
    c = l.headD 0 := by
  cases l with
  | nil => simpa only [Chain] using h
  | cons a l => exact h.1

theorem pages_spec : ∀ (l : List Nat) (s : State) (ls : Nat → List Nat) (tr : List Nat),
    Rep s ls → ls MAX_LEVEL = l → (∀ j, j < MAX_LEVEL → ls j = []) → s.pages.Nodup →
    (∀ x, x ∈ s.pages ↔ x ∈ l) →
    ∃ s', s'.pages = [] ∧ (∀ j, j < LEVELS → s'.flists j = 0) ∧
      ∀ n, freeAllPages n (s.flists MAX_LEVEL) s tr = .ok (tr ++ l, s') ∨
        (freeAllPages n (s.flists MAX_LEVEL) s tr = .error .outOfFuel ∧ n ≤ l.length) := by
  intro l
  induction l with
  | nil =>
    intro s ls tr hr hl hlow hnd hmem
    have h7 : MAX_LEVEL < LEVELS := by decide
    have hf : ∀ j, j < LEVELS → s.flists j = 0 := by
      intro j hj
      have hc := hr.chain j hj
      have hnil : ls j = [] := by
        by_cases e : j = MAX_LEVEL
        · rw [e]; exact hl
        · exact hlow j (by simp only [LEVELS] at hj; simp only [MAX_LEVEL] at e ⊢; omega)
      rw [hnil] at hc
      simpa only [Chain] using hc
    refine ⟨s, List.eq_nil_iff_forall_not_mem.mpr (fun x hx => by simpa using (hmem x).mp hx),
      hf, fun n => ?_⟩
    cases n with
    | zero => exact Or.inr ⟨rfl, le_refl _⟩
    | succ n =>
      left
      rw [hf _ h7, freeAllPages]
      simp [pure, Except.pure]
  | cons a l ih =>
    intro s ls tr hr hl hlow hnd hmem
    have h7 : MAX_LEVEL < LEVELS := by decide
    have hc := hr.chain _ h7
    rw [hl] at hc
    obtain ⟨hfa, ha0, _, hrest⟩ := hc
    have ha : a ∈ ls MAX_LEVEL := by rw [hl]; exact List.mem_cons_self _ _
    obtain ⟨s1, hdel, hr1, hpg1, _⟩ := rep_delete hr h7 ha
    have hl1 : (Function.update ls MAX_LEVEL ((ls MAX_LEVEL).erase a)) MAX_LEVEL = l := by
      rw [Function.update_same, hl, List.erase_cons_head]
    have hnext : (s.mem a).next = s1.flists MAX_LEVEL := by
      have h1 := chain_head hrest
      have h2 := chain_head (hr1.chain _ h7)
      rw [hl1] at h2
      rw [h1, h2]
    have hndl : (a :: l).Nodup := by rw [← hl]; exact hr.nodup _ h7
    have hal : a ∉ l := (List.nodup_cons.mp hndl).1
    obtain ⟨s', hp', hf', hrun⟩ := ih (munmap s1 a)
      (Function.update ls MAX_LEVEL ((ls MAX_LEVEL).erase a)) (tr ++ [a])
      (rep_munmap hr1 a) hl1
      (fun j hj => by rw [Function.update_noteq (Nat.ne_of_lt hj)]; exact hlow j hj)
      (by
        show (s1.pages.erase a).Nodup
        rw [hpg1]; exact hnd.erase a)
      (by
        intro x
        show x ∈ s1.pages.erase a ↔ x ∈ l
        rw [hpg1, hnd.mem_erase_iff, hmem x]
        constructor
        · rintro ⟨h1, h2⟩
          rcases List.mem_cons.mp h2 with h | h
          · exact absurd h h1
          · exact h
        · intro h
          exact ⟨fun e => hal (e ▸ h), List.mem_cons_of_mem _ h⟩)
    refine ⟨s', hp', hf', fun n => ?_⟩
    cases n with
    | zero => exact Or.inr ⟨rfl, Nat.zero_le _⟩
    | succ n =>
      have e : freeAllPages (n + 1) (s.flists MAX_LEVEL) s tr =
          freeAllPages n ((munmap s1 a).flists MAX_LEVEL) (munmap s1 a) (tr ++ [a]) := by
        rw [freeAllPages, hfa]
        simp only [ne_eq, ha0, not_false_eq_true, if_true, load, if_false, bind, Except.bind,
          hdel, hnext]
        rfl
      rw [e]
      rcases hrun n with h | ⟨h, hle⟩
      · left
        rw [h]
        simp
      · exact Or.inr ⟨h, by simp only [List.length_cons]; omega⟩


theorem top_blocks_pages {pages : List Nat} {ls : Nat → List Nat} (ht : Tiling pages (Blk ls))
    (hlow : ∀ j, j < MAX_LEVEL → ls j = []) (x : Nat) : x ∈ pages ↔ x ∈ ls MAX_LEVEL := by
  have h7 : MAX_LEVEL < LEVELS := by decide
  have back : ∀ a, a ∈ ls MAX_LEVEL → a ∈ pages := by
    intro a ha
    obtain ⟨p, hp, h1, h2⟩ := ht.inpage MAX_LEVEL a ⟨h7, ha⟩
    rw [bsize_max] at h2
    have e : a = p := by omega
    rw [e]; exact hp
  constructor
  · intro hx
    obtain ⟨hx0, hxa, _⟩ := ht.page_ok x hx
    obtain ⟨i, a, hb, h1, h2⟩ := ht.cover x hx x (le_refl _) (by simp only [PAGE]; omega)
    have hi : i = MAX_LEVEL := by
      by_contra hne
      have hlt : i < MAX_LEVEL := by
        have := hb.1
        simp only [LEVELS] at this; simp only [MAX_LEVEL] at hne ⊢; omega
      have := hb.2
      rw [hlow i hlt] at this
      simp at this
    subst hi
    rw [bsize_max] at h2
    have hap := (ht.page_ok a (back a hb.2)).2.1
    have e : a = x := mult_eq hap hxa h1 h2
    rw [← e]; exact hb.2
  · exact back x

theorem freeAll_core {s : State} {ls : Nat → List Nat} {live : List Nat}
    (hinv : Inv s ls live) :
    ∃ N tr s', tr.Perm s.pages ∧ s'.pages = [] ∧ (∀ j, j < LEVELS → s'.flists j = 0) ∧
      ∀ fuel, freeAll fuel s = .ok (tr, s') ∨
        (freeAll fuel s = .error .outOfFuel ∧ fuel < N) := by
  have h7 : MAX_LEVEL < LEVELS := by decide
  obtain ⟨N1, s1, ls1, live1, hinv1, hnil1, hpg1, hrun1⟩ :=
    levels_spec _ s ls live 0 hinv (Nat.zero_le _) (fun j a hj => absurd hj (Nat.not_lt_zero j))
      rfl
  have hmem := top_blocks_pages hinv1.tiling hnil1
  obtain ⟨s', hp', hf', hrun2⟩ := pages_spec (ls1 MAX_LEVEL) s1 ls1 [] hinv1.rep rfl hnil1
    hinv1.tiling.page_nodup hmem
  have hperm : (ls1 MAX_LEVEL).Perm s.pages := by
    rw [← hpg1]
    exact (List.perm_ext_iff_of_nodup (hinv1.rep.nodup _ h7) hinv1.tiling.page_nodup).mpr
      (fun a => (hmem a).symm)
  refine ⟨max (max N1 (live.length + (MAX_LEVEL - 0) + 1)) ((ls1 MAX_LEVEL).length + 1),
    ls1 MAX_LEVEL, s', hperm, hp', hf', fun fuel => ?_⟩
  have e1 := hrun1 fuel fuel
  simp only [Nat.cast_zero] at e1
  rcases e1 with e1 | ⟨e1, hb⟩
  · rcases hrun2 fuel with e2 | ⟨e2, hb2⟩
    · left
      simp only [freeAll, e1, bind, Except.bind, getList_ok s1 h7, e2, List.nil_append,
        getList_ok s' h7, hf' _ h7, ne_eq, not_true_eq_false, if_false, pure, Except.pure]
    · right
      refine ⟨?_, ?_⟩
      · simp only [freeAll, e1, bind, Except.bind, getList_ok s1 h7, e2]
      · exact lt_of_lt_of_le (by omega : fuel < (ls1 MAX_LEVEL).length + 1) (le_max_right _ _)
  · right
    refine ⟨?_, ?_⟩
    · simp only [freeAll, e1, bind, Except.bind]
    · refine lt_of_lt_of_le ?_ (le_max_left _ _)
      rcases hb with hb | hb
      · exact lt_of_lt_of_le (by omega : fuel < live.length + (MAX_LEVEL - 0) + 1)
          (le_max_right _ _)
      · exact lt_of_lt_of_le hb (le_max_left _ _)


theorem inv_empty {s : State} (hf : ∀ j, j < LEVELS → s.flists j = 0) (hp : s.pages = []) :
    Inv s (fun _ => []) [] := by
  have hno : ∀ i a, ¬ Blk (fun _ => ([] : List Nat)) i a := fun i a h => by cases h.2
  refine ⟨⟨fun i hi => hf i hi, fun i _ a ha => (by cases ha),
    fun i _ => List.nodup_nil⟩, ⟨?_, ?_, ?_, ?_, ?_, ?_, ?_⟩, ?_,
    ⟨List.nodup_nil, ?_, ?_⟩⟩
  · intro p h; rw [hp] at h; cases h
  · rw [hp]; exact List.nodup_nil
  · intro i a h; exact h.1
  · intro i a h; exact absurd h (hno i a)
  · intro i a h; exact absurd h (hno i a)
  · intro i j a b h; exact absurd h (hno i a)
  · intro p h; rw [hp] at h; cases h
  · intro i a b _ h; exact absurd h (hno i a)
  · intro q hq; cases hq
  · intro i a h; exact absurd h (hno i a)

theorem findLoop_empty {s : State} (hf : ∀ j, j < LEVELS → s.flists j = 0) (fuel : Nat) :
    ∀ (n k : Nat), LEVELS - k < n → findLoop s fuel n (k : Int) 0 = .ok 0 := by
  intro n
  induction n with
  | zero => intro k h; omega
  | succ n ih =>
    intro k h
    rw [findLoop]
    by_cases hk : k < LEVELS
    · have hc : (k : Int) < (LEVELS : Int) := by exact_mod_cast hk
      have e : (k : Int) + 1 = ((k + 1 : Nat) : Int) := by push_cast; rfl
      simp only [hc, if_true, getList_ok s hk, hf k hk, bind, Except.bind, ne_eq,
        not_true_eq_false, if_false, e]
      exact ih (k + 1) (by omega)
    · have hc : ¬ (k : Int) < (LEVELS : Int) := by exact_mod_cast hk
      simp only [hc, if_false, pure, Except.pure]

theorem find_empty {s : State} (hf : ∀ j, j < LEVELS → s.flists j = 0) (fuel L : Nat) :
    findSmallestFree fuel (L : Int) s = .ok 0 := by
  have h := findLoop_empty hf fuel (LEVELS + 1) L (by omega)
  simp only [findSmallestFree, h, bind, Except.bind, ne_eq, not_true_eq_false, false_and,
    if_false, pure, Except.pure]

theorem balloc_after_empty {s : State} (hf : ∀ j, j < LEVELS → s.flists j = 0)
    (hp : s.pages = []) (fuel size p : Nat) (h0 : 0 < size) (h1 : size ≤ PAGE - sizeof_head)
    (hos : OSok s (some p)) :
    (∃ L, level (size : Int) = .ok L ∧ findSmallestFree fuel L s = .ok 0) ∧
    ∃ q s', balloc fuel (some p) size s = .ok (q, s') ∧ q ≠ 0 ∧ s'.pages = [p] := by
  obtain ⟨L, hL, hl⟩ := level_ok size h0 h1
  have hfind := find_empty hf fuel L
  refine ⟨⟨_, hl, hfind⟩, ?_⟩
  obtain ⟨h, s', ls', hrun, _, _, _, _, _, hpg⟩ :=
    balloc_core (inv_empty hf hp) fuel (some p) size L 0 ⟨h0, h1⟩ hl hL hfind
      (fun _ => ⟨p, rfl, hos⟩)
  refine ⟨hide h, s', hrun, by simp [hide, sizeof_head], ?_⟩
  rcases hpg with ⟨h, _⟩ | ⟨_, q, hq, hpg⟩
  · exact absurd rfl h
  · cases hq
    rw [hpg, hp]

/-! ## More example executions -/

theorem fault_eq {α : Type} (r : Except Fault α) (e : Fault) (h : faultOf r = some e) :
    r = .error e := by
  cases r with
  | ok y => simp [faultOf] at h
  | error e' => simp only [faultOf, Option.some.injEq] at h; rw [h]

theorem afterSecond_run :
    balloc 2 (some 16384) 100 afterAlloc = .ok (11808, afterSecond) := by
  have h := ok_eta (balloc 2 (some 16384) 100 afterAlloc) (init zeroMem) (by decide!)
  have hp : ptrOf (balloc 2 (some 16384) 100 afterAlloc) = 11808 := by decide!
  rw [hp] at h
  exact h

theorem reach_afterSecond : Reach afterSecond [11808, 12064] :=
  Reach.balloc 2 (some 16384) 100 11808 afterSecond reach_afterAlloc
    ⟨by decide, by decide, by decide, by decide!⟩ afterSecond_run (by decide)

theorem afterBoth_run (p q : Nat) (h1 : succeeded (bfree p afterSecond) = true)
    (h2 : succeeded (bfree q (endOf (bfree p afterSecond) (init zeroMem))) = true) :
    bfree p afterSecond = .ok (endOf (bfree p afterSecond) (init zeroMem)) ∧
    bfree q (endOf (bfree p afterSecond) (init zeroMem)) = .ok (afterBoth p q) :=
  ⟨ok_eta_end _ _ h1, ok_eta_end _ _ h2⟩

theorem reach_afterBoth (p q : Nat) (hpq : [p, q].Perm [11808, 12064])
    (h1 : succeeded (bfree p afterSecond) = true)
    (h2 : succeeded (bfree q (endOf (bfree p afterSecond) (init zeroMem))) = true) :
    Reach (afterBoth p q) [] := by
  obtain ⟨e1, e2⟩ := afterBoth_run p q h1 h2
  have hp : p ∈ [11808, 12064] := hpq.subset (List.mem_cons_self _ _)
  have r1 := Reach.bfree p _ reach_afterSecond hp e1
  have hnd : [p, q].Nodup := hpq.nodup_iff.mpr (by decide)
  have hq : q ∈ ([11808, 12064] : List Nat).erase p := by
    have hq0 : q ∈ [11808, 12064] := hpq.subset (by simp)
    have hne : q ≠ p := by
      intro e
      rw [e] at hnd
      simp at hnd
    exact (List.mem_erase_of_ne hne).mpr hq0
  have r2 := Reach.bfree q _ r1 hq e2
  have hlen : ((([11808, 12064] : List Nat).erase p).erase q) = [] := by
    apply List.eq_nil_of_length_eq_zero
    rw [List.length_erase_of_mem hq, List.length_erase_of_mem hp]
    rfl
  rw [hlen] at r2
  exact r2

theorem afterPush_run :
    new (some 8192) (init zeroMem) = .ok (8192, afterNew) ∧
    addToLinkedListFront afterNew 8192 = .ok afterPush := by
  have h := ok_eta (new (some 8192) (init zeroMem)) (init zeroMem) (by decide!)
  have hp : ptrOf (new (some 8192) (init zeroMem)) = 8192 := by decide!
  rw [hp] at h
  exact ⟨h, ok_eta_end _ _ (by decide!)⟩

theorem ok_bind {α β : Type} (x : α) (f : α → Except Fault β) :
    ((Except.ok x : Except Fault α) >>= f) = f x := rfl

theorem split_fuel_mono (lvl : Int) (k : Nat) : ∀ (n b : Nat) (s : State) (r : Nat × State),
    splitNodesForLevel lvl n b s = .ok r → splitNodesForLevel lvl (n + k) b s = .ok r := by
  intro n
  induction n with
  | zero => intro b s r h; cases h
  | succ n ih =>
    intro b s r h
    have e : n + 1 + k = (n + k) + 1 := by omega
    rw [e]
    rw [splitNodesForLevel] at h ⊢
    obtain ⟨fb, h1, h⟩ := bind_eq_ok _ _ _ h
    rw [h1, ok_bind]
    by_cases hc : lvl ≠ fb.level
    · rw [if_pos hc] at h ⊢
      obtain ⟨s1, h2, h⟩ := bind_eq_ok _ _ _ h
      rw [h2, ok_bind]
      obtain ⟨r1, h3, h⟩ := bind_eq_ok _ _ _ h
      rw [h3, ok_bind]
      obtain ⟨sp, h4, h⟩ := bind_eq_ok _ _ _ h
      rw [h4, ok_bind]
      obtain ⟨fb2, h5, h⟩ := bind_eq_ok _ _ _ h
      rw [h5, ok_bind]
      by_cases hc2 : sp.level ≠ fb2.level
      · rw [if_pos hc2] at h
        cases h
      · rw [if_neg hc2] at h ⊢
        obtain ⟨s3, h6, h⟩ := bind_eq_ok _ _ _ h
        rw [h6, ok_bind]
        obtain ⟨s4, h7, h⟩ := bind_eq_ok _ _ _ h
        rw [h7, ok_bind]
        exact ih _ _ _ h
    · rw [if_neg hc] at h ⊢
      exact h

theorem balloc_unfold_new (fuel : Nat) (os : Option Nat) (size : Nat) (s s0 s1 : State)
    (L : Int) (p : Nat) (hv : 0 < size ∧ size ≤ PAGE - sizeof_head)
    (hl : level (size : Int) = .ok L) (hfind : findSmallestFree fuel L s = .ok 0)
    (hnew : new os s = .ok (p, s0)) (hadd : addToLinkedListFront s0 p = .ok s1) :
    balloc fuel os size s = (splitNodesForLevel L 32 p s1 >>= fun g =>
      setStatus g.2 g.1 STATUS_USED >>= fun s3 => pure (hide g.1, s3)) := by
  have hnv : ¬ (size ≤ 0 ∨ size > PAGE - sizeof_head) := by omega
  simp only [balloc, hnv, if_false, hl, hfind, bind, Except.bind, if_true, hnew, hadd,
    pure, Except.pure]

theorem first_call_steps :
    ∃ s, splitNodesForLevel 3 5 8192 afterPush = .ok (12032, s) ∧
      setStatus s 12032 STATUS_USED = .ok afterAlloc := by
  have h := ok_eta (splitNodesForLevel 3 5 8192 afterPush) (init zeroMem) (by decide!)
  have hp : ptrOf (splitNodesForLevel 3 5 8192 afterPush) = 12032 := by decide!
  rw [hp] at h
  refine ⟨_, h, ?_⟩
  have h32 := split_fuel_mono 3 27 5 8192 afterPush _ h
  have hb := balloc_unfold_new 1 (some 8192) 100 (init zeroMem) afterNew afterPush 3 8192
    ⟨by decide, by decide⟩ (value_eq _ _ (by decide!)) (value_eq _ _ (by decide!))
    afterPush_run.1 afterPush_run.2
  rw [afterAlloc_run] at hb
  have e : (5 : Nat) + 27 = 32 := rfl
  rw [e] at h32
  rw [h32, ok_bind] at hb
  obtain ⟨s3, hs3, hb⟩ := bind_eq_ok _ _ _ hb.symm
  simp only [pure, Except.pure, Except.ok.injEq, Prod.mk.injEq] at hb
  rw [hs3, hb.2]

theorem rep_afterAlloc : Rep afterAlloc afterAllocLists :=
  ⟨by decide!, by decide!, by decide!⟩

theorem tv_afterAlloc : ∀ i a, Blk afterAllocLists i a →
    (afterAlloc.mem a).status = STATUS_FREE ∨ (afterAlloc.mem a).status = STATUS_USED := by
  have h : ∀ i, i < LEVELS → ∀ a ∈ afterAllocLists i,
      (afterAlloc.mem a).status = STATUS_FREE ∨ (afterAlloc.mem a).status = STATUS_USED := by
    decide!
  exact fun i a hb => h i hb.1 a hb.2

theorem words_eta (r : Except Fault (Nat × (Nat → Int))) (d : Nat → Int)
    (h : succeeded r = true) : r = .ok (addrOf r, wordsOf r d) := by
  cases r with
  | ok x => rfl
  | error e => simp [succeeded] at h

/-! ## First fit -/

theorem skipUsed_first (s : State) : ∀ (l : List Nat) (p c fuel : Nat),
    Chain s.mem p c l → l.length < fuel →
    ∃ t, skipUsed s fuel c = .ok t ∧
      ((t = 0 ∧ ∀ a ∈ l, (s.mem a).status = STATUS_USED) ∨
        ∃ pre post, l = pre ++ t :: post ∧ (∀ a ∈ pre, (s.mem a).status = STATUS_USED) ∧
          (s.mem t).status ≠ STATUS_USED) := by
  intro l
  induction l with
  | nil =>
    intro p c fuel hc hf
    simp only [Chain] at hc
    subst hc
    refine ⟨0, ?_, Or.inl ⟨rfl, by simp⟩⟩
    cases fuel with
    | zero => simp at hf
    | succ f => simp [skipUsed]
  | cons a l ih =>
    intro p c fuel hc hf
    obtain ⟨hca, ha0, _, hrest⟩ := hc
    subst hca
    cases fuel with
    | zero => simp at hf
    | succ f =>
      simp only [List.length_cons] at hf
      by_cases hu : (s.mem c).status = STATUS_USED
      · obtain ⟨t, hrun, ht⟩ := ih c (s.mem c).next f hrest (by omega)
        refine ⟨t, by simp [skipUsed, ha0, hu, hrun], ?_⟩
        rcases ht with ⟨h0, hall⟩ | ⟨pre, post, e, hpre, hst⟩
        · left
          refine ⟨h0, ?_⟩
          intro x hx
          rcases List.mem_cons.mp hx with rfl | hx
          · exact hu
          · exact hall x hx
        · right
          refine ⟨c :: pre, post, by rw [e]; rfl, ?_, hst⟩
          intro x hx
          rcases List.mem_cons.mp hx with rfl | hx
          · exact hu
          · exact hpre x hx
      · exact ⟨c, by simp [skipUsed, hu], Or.inr ⟨[], l, rfl, by simp, hu⟩⟩

theorem chain_nil_of_zero {mem : Nat → head} {l : List Nat} {p : Nat} (h : Chain mem p 0 l) :
    l = [] := by
  cases l with
  | nil => rfl
  | cons a l => exact absurd h.1.symm h.2.1

theorem findLoop_first {s : State} {ls : Nat → List Nat} (hr : Rep s ls)
    (htv : ∀ i a, Blk ls i a →
      (s.mem a).status = STATUS_FREE ∨ (s.mem a).status = STATUS_USED)
    (fuel : Nat) (hfuel : ∀ i, i < LEVELS → (ls i).length < fuel) :
    ∀ (n k : Nat), LEVELS - k < n → ∃ r, findLoop s fuel n (k : Int) 0 = .ok r ∧
      ((r = 0 ∧ ∀ i a, k ≤ i → i < LEVELS → a ∈ ls i → (s.mem a).status ≠ STATUS_FREE) ∨
        ∃ i pre post, k ≤ i ∧ i < LEVELS ∧ ls i = pre ++ r :: post ∧
          (s.mem r).status = STATUS_FREE ∧
          (∀ a ∈ pre, (s.mem a).status ≠ STATUS_FREE) ∧
          ∀ j a, k ≤ j → j < i → a ∈ ls j → (s.mem a).status ≠ STATUS_FREE) := by
  have hUF : ∀ a, (s.mem a).status = STATUS_USED → (s.mem a).status ≠ STATUS_FREE := by
    intro a h e
    exact free_ne_used (e.symm.trans h)
  intro n
  induction n with
  | zero => intro k h; omega
  | succ n ih =>
    intro k h
    rw [findLoop]
    by_cases hk : k < LEVELS
    · have hc : (k : Int) < (LEVELS : Int) := by exact_mod_cast hk
      have e : (k : Int) + 1 = ((k + 1 : Nat) : Int) := by push_cast; rfl
      obtain ⟨r, hrun, hP⟩ := ih (k + 1) (by omega)
      -- what the rest of the loop finds is what the loop finds, list `k` having no `FREE` node
      have lift : (∀ a ∈ ls k, (s.mem a).status ≠ STATUS_FREE) →
          ((r = 0 ∧ ∀ i a, k ≤ i → i < LEVELS → a ∈ ls i →
              (s.mem a).status ≠ STATUS_FREE) ∨
            ∃ i pre post, k ≤ i ∧ i < LEVELS ∧ ls i = pre ++ r :: post ∧
              (s.mem r).status = STATUS_FREE ∧
              (∀ a ∈ pre, (s.mem a).status ≠ STATUS_FREE) ∧
              ∀ j a, k ≤ j → j < i → a ∈ ls j → (s.mem a).status ≠ STATUS_FREE) := by
        intro hno
        rcases hP with ⟨h0, hall⟩ | ⟨i, pre, post, hki, hi, hl, hf, hpre, hlow⟩
        · left
          refine ⟨h0, ?_⟩
          intro i a hki hi ha
          by_cases e : i = k
          · subst e; exact hno a ha
          · exact hall i a (by omega) hi ha
        · right
          refine ⟨i, pre, post, by omega, hi, hl, hf, hpre, ?_⟩
          intro j a hkj hji ha
          by_cases e : j = k
          · subst e; exact hno a ha
          · exact hlow j a (by omega) hji ha
      simp only [hc, if_true, getList_ok s hk, bind, Except.bind, e]
      by_cases hf0 : s.flists k = 0
      · have hnil : ls k = [] := by
          have hch := hr.chain k hk
          rw [hf0] at hch
          exact chain_nil_of_zero hch
        simp only [hf0, ne_eq, not_true_eq_false, if_false]
        exact ⟨r, hrun, lift (by rw [hnil]; simp)⟩
      · obtain ⟨t, hskip, ht⟩ := skipUsed_first s (ls k) 0 (s.flists k) fuel (hr.chain k hk)
          (hfuel k hk)
        simp only [ne_eq, hf0, not_false_eq_true, if_true, hskip]
        rcases ht with ⟨ht0, hall⟩ | ⟨pre, post, hl, hpre, hst⟩
        · subst ht0
          simp only [not_true_eq_false, false_and, if_false]
          exact ⟨r, hrun, lift (fun a ha => hUF a (hall a ha))⟩
        · have htm : t ∈ ls k := by rw [hl]; simp
          have ht0 : t ≠ 0 := rep_nonzero hr hk htm
          have htf : (s.mem t).status = STATUS_FREE := by
            rcases htv k t ⟨hk, htm⟩ with h | h
            · exact h
            · exact absurd h hst
          simp only [ht0, not_false_eq_true, htf, and_self, if_true, pure, Except.pure]
          exact ⟨t, rfl, Or.inr ⟨k, pre, post, le_refl _, hk, hl, htf,
            fun a ha => hUF a (hpre a ha), fun j a h1 h2 => by omega⟩⟩
    · have hc : ¬ (k : Int) < (LEVELS : Int) := by exact_mod_cast hk
      simp only [hc, if_false, pure, Except.pure]
      exact ⟨0, rfl, Or.inl ⟨rfl, fun i a h1 h2 => by omega⟩⟩

theorem find_never_used (fuel : Nat) (m : Int) (s : State) (r : Nat)
    (h : findSmallestFree fuel m s = .ok r) : r = 0 ∨ (s.mem r).status ≠ STATUS_USED := by
  simp only [findSmallestFree] at h
  obtain ⟨temp, _, h⟩ := bind_eq_ok _ _ _ h
  by_cases hc : temp ≠ 0 ∧ (s.mem temp).status = STATUS_USED
  · simp only [hc, ne_eq, not_false_eq_true, and_self, if_true, pure, Except.pure,
      Except.ok.injEq] at h
    exact Or.inl h.symm
  · simp only [hc, if_false, pure, Except.pure, Except.ok.injEq] at h
    subst h
    by_cases h0 : temp = 0
    · exact Or.inl h0
    · exact Or.inr (fun hu => hc ⟨h0, hu⟩)

theorem find_first {s : State} {ls : Nat → List Nat} (hr : Rep s ls)
    (htv : ∀ i a, Blk ls i a →
      (s.mem a).status = STATUS_FREE ∨ (s.mem a).status = STATUS_USED)
    (fuel : Nat) (hfuel : ∀ i, i < LEVELS → (ls i).length < fuel) (m : Nat) :
    ∃ r, findSmallestFree fuel (m : Int) s = .ok r ∧
      ((r = 0 ∧ ∀ i a, m ≤ i → i < LEVELS → a ∈ ls i → (s.mem a).status ≠ STATUS_FREE) ∨
        ∃ i pre post, m ≤ i ∧ i < LEVELS ∧ ls i = pre ++ r :: post ∧
          (s.mem r).status = STATUS_FREE ∧
          (∀ a ∈ pre, (s.mem a).status ≠ STATUS_FREE) ∧
          ∀ j a, m ≤ j → j < i → a ∈ ls j → (s.mem a).status ≠ STATUS_FREE) := by
  obtain ⟨r, hrun, hP⟩ := findLoop_first hr htv fuel hfuel (LEVELS + 1) m (by omega)
  refine ⟨r, ?_, hP⟩
  have hc : ¬ (r ≠ 0 ∧ (s.mem r).status = STATUS_USED) := by
    rintro ⟨h0, hu⟩
    rcases hP with ⟨h, _⟩ | ⟨_, _, _, _, _, _, hf, _, _⟩
    · exact h0 h
    · exact free_ne_used (hf.symm.trans hu)
  simp only [findSmallestFree, hrun, bind, Except.bind, hc, if_false, pure, Except.pure]

theorem head_ext {h1 h2 : head} (hl : h1.level = h2.level) (hs : h1.status = h2.status)
    (hn : h1.next = h2.next) (hp : h1.prev = h2.prev) : h1 = h2 := by
  cases h1
  cases h2
  simp only [head.mk.injEq]
  exact ⟨hl, hs, hn, hp⟩

/-! ## Alignment, growth and unlinking -/

theorem split_aligned (s : State) (b L : Nat) (hb : b ≠ 0)
    (hlev : (s.mem b).level = (L : Int)) (h1 : 1 ≤ L) (hL : L + MIN < 32)
    (hal : 2 ^ (L + MIN) ∣ b) :
    ∃ s', split s b = .ok (b + 2 ^ (L + MIN - 1), s') ∧
      (s'.mem b).level = ((L - 1 : Nat) : Int) ∧ (s'.mem b).status = (s.mem b).status ∧
      (s'.mem b).next = (s.mem b).next ∧ (s'.mem b).prev = (s.mem b).prev ∧
      (s'.mem (b + 2 ^ (L + MIN - 1))).level = ((L - 1 : Nat) : Int) ∧
      (s'.mem (b + 2 ^ (L + MIN - 1))).status = (s.mem b).status ∧
      (∀ x, x ≠ b → x ≠ b + 2 ^ (L + MIN - 1) → s'.mem x = s.mem x) ∧
      s'.flists = s.flists ∧ s'.pages = s.pages := by
  have hk : L + MIN - 1 + 1 = L + MIN := by simp only [MIN]; omega
  have hal' : 2 ^ (L + MIN - 1 + 1) ∣ b := by rw [hk]; exact hal
  have hy : b ^^^ 2 ^ (L + MIN - 1) = b + 2 ^ (L + MIN - 1) := xor_pow_of_dvd b _ hal'
  have hpos : 0 < 2 ^ (L + MIN - 1) := Nat.two_pow_pos _
  have hy0 : b ^^^ 2 ^ (L + MIN - 1) ≠ 0 := by rw [hy]; omega
  have hyb : b ^^^ 2 ^ (L + MIN - 1) ≠ b := xor_pow_ne_self b _
  obtain ⟨s', hsplit, hpg, hfl, hlinks, hlv, hst⟩ := split_exec s b L hb hlev hL hy0 hyb
  rw [hy] at hsplit hlv hst
  have hne : b ≠ b + 2 ^ (L + MIN - 1) := by omega
  have hc : ((L - 1 : Nat) : Int) = (L : Int) - 1 := by omega
  refine ⟨s', hsplit, ?_, ?_, (hlinks b).1, (hlinks b).2, ?_, ?_, ?_, hfl, hpg⟩
  · rw [hlv b, hc]; simp only [true_or, if_true]
  · rw [hst b]; simp only [hne, if_false]
  · rw [hlv _, hc]; simp only [or_true, if_true]
  · rw [hst _]; simp only [if_true]
  · intro x hxb hxr
    have a1 := hlv x
    have a2 := hst x
    simp only [hxb, hxr, false_or, if_false] at a1 a2
    exact head_ext a1 a2 (hlinks x).1 (hlinks x).2

theorem new_aligned (t : State) (p : Nat) (hp : p ≠ 0) (hpa : PAGE ∣ p) :
    ∃ t', new (some p) t = .ok (p, t') ∧ AlignedAt t' p ∧ ∀ x, x ≠ p → t'.mem x = t.mem x := by
  refine ⟨_, new_exec t p hp, ⟨MAX_LEVEL, le_refl _, ?_, ?_⟩, ?_⟩
  · simp only [Function.update_same]
  · exact hpa
  · intro x hx
    simp only [Function.update_noteq hx]

theorem split_keeps_aligned (t : State) (b : Nat) (hb : b ≠ 0) (hal : AlignedAt t b)
    (h1 : 1 ≤ (t.mem b).level) :
    ∃ r t', split t b = .ok (r, t') ∧ AlignedAt t' b ∧ AlignedAt t' r ∧
      ∀ x, x ≠ b → x ≠ r → t'.mem x = t.mem x := by
  obtain ⟨L, hL, hlev, hdvd⟩ := hal
  have hL1 : 1 ≤ L := by rw [hlev] at h1; exact_mod_cast h1
  obtain ⟨t', hs, hlb, _, _, _, hlr, _, hframe, _, _⟩ :=
    split_aligned t b L hb hlev hL1 (by simp only [MAX_LEVEL] at hL; simp only [MIN]; omega) hdvd
  have e : L + MIN = (L - 1 + MIN) + 1 := by omega
  have e2 : L + MIN - 1 = L - 1 + MIN := by omega
  have hd1 : 2 ^ (L - 1 + MIN) ∣ b :=
    Dvd.dvd.trans (pow_dvd_pow 2 (by omega)) hdvd
  refine ⟨_, t', hs, ⟨L - 1, by omega, hlb, hd1⟩, ⟨L - 1, by omega, hlr, ?_⟩, hframe⟩
  rw [e2]
  exact (Nat.dvd_add_right hd1).mpr (dvd_refl _)

theorem merge_keeps_aligned (t : State) (a b : Nat) (ha : a ≠ 0) (hb : b ≠ 0)
    (ha64 : a < 2 ^ 64) (hal : AlignedAt t a) (hK : (t.mem a).level < MAX_LEVEL)
    (hsame : (t.mem b).level = (t.mem a).level) (hbud : buddy t a = .ok b) :
    ∃ q t', merge t a b = .ok (q, t') ∧ AlignedAt t' q ∧ (q = a ∨ q = b) ∧
      (t'.mem q).level = (t.mem a).level + 1 ∧
      ∀ x, x ≠ a → x ≠ b → t'.mem x = t.mem x := by
  obtain ⟨K, _, hlev, hdvd⟩ := hal
  have hK7 : K < MAX_LEVEL := by rw [hlev] at hK; exact_mod_cast hK
  have hb' : b = a ^^^ 2 ^ (K + MIN) := by
    rw [buddy_exec t a K ha hlev hK7] at hbud
    cases hbud
    rfl
  have hk64 : K + MIN < 64 := by simp only [MAX_LEVEL] at hK7; simp only [MIN]; omega
  have hne : b ≠ a := by rw [hb']; exact xor_pow_ne_self a _
  have e : K + 1 + MIN = K + MIN + 1 := by omega
  rcases buddy_cases a K hdvd with ⟨hd, hx⟩ | ⟨hle, hd, hx⟩
  · -- `a` is the primary
    simp only [bsize] at hd hx
    rw [e] at hd
    have hprim : a &&& (2 ^ 64 - 1 - 2 ^ (K + MIN)) = a := mask_of_dvd a _ ha64 hk64 hd
    have hm := merge_exec t a b K ha hb hlev hK7 hb' (by rw [hprim]; exact ha)
    rw [hprim] at hm
    simp only [if_true] at hm
    refine ⟨a, _, hm, ⟨K + 1, by omega, ?_, by rw [e]; exact hd⟩, Or.inl rfl, ?_, ?_⟩
    · simp only [Function.update_noteq (Ne.symm hne), Function.update_same, hlev]
      push_cast; rfl
    · simp only [Function.update_noteq (Ne.symm hne), Function.update_same]
    · intro x hxa hxb
      simp only [Function.update_noteq hxb, Function.update_noteq hxa]
  · -- the buddy is the primary
    simp only [bsize] at hle hd hx
    rw [e] at hd
    have hbv : b = a - 2 ^ (K + MIN) := by rw [hb', hx]
    have hab : a - 2 ^ (K + MIN) + 2 ^ (K + MIN) = a := by omega
    have hprim : a &&& (2 ^ 64 - 1 - 2 ^ (K + MIN)) = b := by
      have := mask_add_pow_of_dvd (a - 2 ^ (K + MIN)) (K + MIN) (by rw [hab]; exact ha64) hk64 hd
      rw [hab] at this
      rw [this, hbv]
    have hm := merge_exec t a b K ha hb hlev hK7 hb' (by rw [hprim]; exact hb)
    rw [hprim] at hm
    simp only [hne, if_false] at hm
    refine ⟨b, _, hm, ⟨K + 1, by omega, ?_, by rw [e, hbv]; exact hd⟩, Or.inr rfl, ?_, ?_⟩
    · simp only [Function.update_noteq hne, Function.update_same, hsame, hlev]
      push_cast; rfl
    · simp only [Function.update_noteq hne, Function.update_same, hsame]
    · intro x hxa hxb
      simp only [Function.update_noteq hxa, Function.update_noteq hxb]

theorem linked_aligned {s : State} {ls : Nat → List Nat} {live : List Nat}
    (hinv : Inv s ls live) {i a : Nat} (hi : i < LEVELS) (h : Linked s i a) :
    AlignedAt s a := by
  have hm := (linked_iff hinv.rep hi a).mp h
  exact ⟨i, by simp only [LEVELS] at hi; simp only [MAX_LEVEL]; omega,
    hinv.rep.level i hi a hm, hinv.tiling.aligned i a ⟨hi, hm⟩⟩

theorem push_newpage {s : State} {ls : Nat → List Nat} {live : List Nat}
    (hinv : Inv s ls live) {p : Nat} (hp0 : p ≠ 0) (hpa : PAGE ∣ p) (hpn : p ∉ s.pages) :
    ∃ s0 s1, new (some p) s = .ok (p, s0) ∧ s0.mem p = ⟨(MAX_LEVEL : Nat), STATUS_FREE, 0, 0⟩ ∧
      s0.flists = s.flists ∧ s0.pages = p :: s.pages ∧
      addToLinkedListFront s0 p = .ok s1 ∧ s1.flists MAX_LEVEL = p ∧
      (s1.mem p).level = (MAX_LEVEL : Int) ∧ (s1.mem p).status = STATUS_FREE ∧
      (s1.mem p).prev = 0 ∧ (s1.mem p).next = s.flists MAX_LEVEL := by
  have h7 : MAX_LEVEL < LEVELS := by decide
  have hnew := new_exec s p hp0
  have hhead : s.flists MAX_LEVEL ≠ p := by
    intro e
    rcases chain_start (hinv.rep.chain _ h7) with h | h
    · exact hp0 (e.symm.trans h)
    · rw [e] at h
      exact page_not_block hinv.tiling hpa hpn MAX_LEVEL ⟨h7, h⟩
  obtain ⟨s1, hadd, _, hfl, hls, hnx, hpv⟩ := add_exec
    (State.mk (Function.update s.mem p ⟨(MAX_LEVEL : Nat), STATUS_FREE, 0, 0⟩) s.flists
      (p :: s.pages)) p MAX_LEVEL hp0 h7
    (by simp only [Function.update_same]) hhead
  refine ⟨_, s1, hnew, by simp only [Function.update_same], rfl, rfl, hadd, ?_, ?_, ?_, ?_, ?_⟩
  · rw [hfl]; simp only [Function.update_same]
  · rw [(hls p).1]; simp only [Function.update_same]
  · rw [(hls p).2]; simp only [Function.update_same]
  · rw [hpv p hp0]; simp only [if_true]
  · rw [hnx p hp0]; simp only [if_true]

theorem delete_core {s : State} {ls : Nat → List Nat} (hr : Rep s ls) {i n : Nat}
    (hi : i < LEVELS) (hn : n ∈ ls i) :
    ∃ s' pre post, deleteFromLinkedList s n = .ok s' ∧ ls i = pre ++ n :: post ∧
      n ∉ pre ∧ n ∉ post ∧ Rep s' (Function.update ls i (pre ++ post)) ∧
      (s.flists i = n ↔ pre = []) ∧
      (pre = [] → s'.flists i = (s.mem n).next) ∧ (pre ≠ [] → s'.flists i = s.flists i) ∧
      (∀ j, j ≠ i → s'.flists j = s.flists j) ∧
      (s'.mem n).next = 0 ∧ (s'.mem n).prev = 0 ∧
      (∀ x, (s'.mem x).level = (s.mem x).level ∧ (s'.mem x).status = (s.mem x).status) ∧
      s'.pages = s.pages := by
  obtain ⟨pre, post, hl⟩ := List.append_of_mem hn
  have hnd := hr.nodup i hi
  rw [hl] at hnd
  have hnpre : n ∉ pre := fun h => by
    have := (List.nodup_append.mp hnd).2.2
    exact this h (List.mem_cons_self _ _)
  have hnpost : n ∉ post := (List.nodup_cons.mp (List.nodup_append.mp hnd).2.1).1
  have hn0 : n ≠ 0 := rep_nonzero hr hi hn
  have hch := hr.chain i hi
  rw [hl] at hch
  obtain ⟨hrest, hprev⟩ := chain_mid hch
  have hpn : (s.mem n).prev ≠ n := by
    rcases hprev with ⟨h, _⟩ | h
    · rw [h]; exact Ne.symm hn0
    · exact fun e => hnpre (e ▸ h)
  have hnn : (s.mem n).next ≠ n := by
    rcases chain_start hrest with h | h
    · rw [h]; exact Ne.symm hn0
    · exact fun e => hnpost (e ▸ h)
  have hp0 : (s.mem n).prev = 0 ↔ pre = [] := by
    constructor
    · intro h
      rcases hprev with ⟨_, h2⟩ | h2
      · exact h2
      · rw [h] at h2
        exact absurd rfl (chain_nonzero hch 0 (List.mem_append_left _ h2))
    · intro h
      rcases hprev with ⟨h2, _⟩ | h2
      · exact h2
      · rw [h] at h2; cases h2
  have hhead : s.flists i = n ↔ pre = [] := by
    have h := chain_head hch
    constructor
    · intro e
      cases pre with
      | nil => rfl
      | cons c pre =>
        simp only [List.cons_append, List.headD_cons] at h
        have hcn : n = c := e.symm.trans h
        exact absurd (by rw [hcn]; exact List.mem_cons_self _ _) hnpre
    · intro e
      rw [h, e]
      rfl
  obtain ⟨s', hdel, hpg, hfl, hls, hnx, hpv⟩ :=
    delete_exec s n i hn0 hi (hr.level i hi n hn) hpn hnn
  obtain ⟨s'', hdel', hrep, _, _⟩ := rep_delete hr hi hn
  have es : s'' = s' := by
    rw [hdel] at hdel'
    cases hdel'
    rfl
  subst es
  have herase : (ls i).erase n = pre ++ post := by
    rw [hl, List.erase_append_right _ hnpre, List.erase_cons_head]
  rw [herase] at hrep
  refine ⟨s'', pre, post, hdel, hl, hnpre, hnpost, hrep, hhead, ?_, ?_, ?_, ?_, ?_, hls, hpg⟩
  · intro e
    rw [hfl, if_pos (hp0.mpr e), Function.update_same]
  · intro e
    rw [hfl, if_neg (fun h => e (hp0.mp h))]
  · intro j hj
    rw [hfl]
    by_cases h : (s.mem n).prev = 0
    · rw [if_pos h, Function.update_noteq hj]
    · rw [if_neg h]
  · rw [hnx n hn0]; simp only [if_true]
  · rw [hpv n hn0]; simp only [if_true]

theorem chain_next_prev {mem : Nat → head} {l : List Nat} {p c n : Nat}
    (h : Chain mem p c l) (hn : n ∈ l) (hnext : (mem n).next ≠ 0) :
    (mem (mem n).next).prev = n ∧ (mem n).next ∈ l := by
  obtain ⟨pre, post, hl⟩ := List.append_of_mem hn
  rw [hl] at h
  obtain ⟨hrest, _⟩ := chain_mid h
  cases post with
  | nil => exact absurd (by simpa only [Chain] using hrest) hnext
  | cons c post =>
    obtain ⟨e, _, hp, _⟩ := hrest
    rw [e]
    exact ⟨hp, by rw [hl]; simp⟩

/-! ## The round trip of `split` and `merge`, on cells and on words -/

theorem split_merge_cells (s : State) (x L : Nat) (hx : x ≠ 0)
    (hx64 : x < 2 ^ 64) (hlev : (s.mem x).level = (L : Int)) (hL : L < MAX_LEVEL)
    (hal : 2 ^ (L + MIN) ∣ x) :
    ∃ y s1 s2, split s x = .ok (y, s1) ∧ merge s1 x y = .ok (x, s2) ∧
      (s2.mem x).level = (L : Int) ∧ (s2.mem x).status = (s.mem x).status ∧
      s2.mem x = s.mem x ∧ (∀ a, a ≠ x → a ≠ y → s2.mem a = s.mem a) ∧
      s2.flists = s.flists ∧ s2.pages = s.pages := by
  have h7 : L < 7 := hL
  have hk : L + MIN - 1 + 1 = L + MIN := by simp only [MIN]; omega
  have hal' : 2 ^ (L + MIN - 1 + 1) ∣ x := by rw [hk]; exact hal
  have hy : x ^^^ 2 ^ (L + MIN - 1) = x + 2 ^ (L + MIN - 1) := xor_pow_of_dvd x _ hal'
  have hpos : 0 < 2 ^ (L + MIN - 1) := Nat.two_pow_pos _
  have hy0 : x ^^^ 2 ^ (L + MIN - 1) ≠ 0 := by rw [hy]; omega
  have hyx : x ^^^ 2 ^ (L + MIN - 1) ≠ x := xor_pow_ne_self x _
  obtain ⟨s1, hsplit, hpg, hfl, hlinks, hlv, hst⟩ :=
    split_exec s x L hx hlev (by simp only [MIN]; omega) hy0 hyx
  have hlev1 : (s1.mem x).level + MIN = ((L + MIN - 1 : Nat) : Int) := by
    rw [hlv x]; simp only [true_or, if_true, MIN]; omega
  have hne1 : (s1.mem x).level ≠ (MAX_LEVEL : Int) := by
    rw [hlv x]; simp only [true_or, if_true, MAX_LEVEL]; omega
  have hprim : x &&& (2 ^ 64 - 1 - 2 ^ (L + MIN - 1)) = x :=
    mask_of_dvd x _ hx64 (by simp only [MIN]; omega) hal'
  have hm := merge_exec_shift s1 x (x ^^^ 2 ^ (L + MIN - 1)) (L + MIN - 1) hx hy0 hlev1
    (by simp only [MIN]; omega) hne1 rfl (by rw [hprim]; exact hx)
  rw [hprim] at hm
  simp only [if_true] at hm
  have hx2 : ∀ (m : Nat → head) (v w : head),
      Function.update (Function.update m x v) (x ^^^ 2 ^ (L + MIN - 1)) w x = v := by
    intro m v w
    rw [Function.update_noteq (Ne.symm hyx), Function.update_same]
  have hmemx : (Function.update (Function.update s1.mem x
      { (s1.mem x) with level := (s1.mem x).level + 1 })
      (x ^^^ 2 ^ (L + MIN - 1)) ⟨0, 0, 0, 0⟩) x = s.mem x := by
    rw [hx2]
    have a1 := hlv x
    have a2 := hst x
    have a3 := hlinks x
    simp only [true_or, if_true, if_neg (Ne.symm hyx)] at a1 a2
    cases hsx : s.mem x with
    | mk l st n p =>
      cases hs1x : s1.mem x with
      | mk l1 st1 n1 p1 =>
        rw [hsx] at a2 a3 hlev
        rw [hs1x] at a1 a2 a3
        simp only at a1 a2 a3 hlev ⊢
        simp only [head.mk.injEq]
        refine ⟨by omega, a2, a3.1, a3.2⟩
  refine ⟨_, s1, _, hsplit, hm, ?_, ?_, hmemx, ?_, hfl, hpg⟩
  · exact (congrArg head.level hmemx).trans hlev
  · exact congrArg head.status hmemx
  · intro a hax hay
    refine (?_ : Function.update (Function.update s1.mem x _) _ _ a = s.mem a)
    rw [Function.update_noteq hay, Function.update_noteq hax]
    have a1 := hlv a
    have a2 := hst a
    have a3 := hlinks a
    simp only [hax, hay, false_or, if_false] at a1 a2
    cases hsa : s.mem a with
    | mk l st n p =>
      cases hs1a : s1.mem a with
      | mk l1 st1 n1 p1 =>
        rw [hsa] at a1 a2 a3
        rw [hs1a] at a1 a2 a3
        simp only at a1 a2 a3
        simp only [head.mk.injEq]
        exact ⟨a1, a2, a3.1, a3.2⟩

theorem words_split_exec (m : Nat → Int) (x L : Nat) (hx : x ≠ 0)
    (hlev : m (x + Words.off_level) = (L : Int)) (hL : L + MIN < 32)
    (hal : 2 ^ (L + MIN) ∣ x) :
    Words.split m x = .ok (x + 2 ^ (L + MIN - 1),
      Function.update (Function.update (Function.update m (x + Words.off_level) ((L : Int) - 1))
        (x + 2 ^ (L + MIN - 1) + Words.off_level) ((L : Int) - 1))
        (x + 2 ^ (L + MIN - 1) + Words.off_status) (m (x + Words.off_status))) := by
  have hk : L + MIN - 1 + 1 = L + MIN := by simp only [MIN]; omega
  have hal' : 2 ^ (L + MIN - 1 + 1) ∣ x := by rw [hk]; exact hal
  have hy : x ^^^ 2 ^ (L + MIN - 1) = x + 2 ^ (L + MIN - 1) := xor_pow_of_dvd x _ hal'
  have hpos : 0 < 2 ^ (L + MIN - 1) := Nat.two_pow_pos _
  have hy0 : x + 2 ^ (L + MIN - 1) ≠ 0 := by omega
  have hs : shl1 ((L : Int) + MIN - 1) = .ok (2 ^ (L + MIN - 1)) := by
    rw [shl1_ok _ (by simp only [MIN]; omega) (by omega)]
    congr 2
    simp only [MIN]; omega
  have h1 : x + Words.off_status ≠ x + 2 ^ (L + MIN - 1) + Words.off_level := by
    have : 16 ≤ 2 ^ (L + MIN - 1) := by
      have : 2 ^ 4 ≤ 2 ^ (L + MIN - 1) :=
        Nat.pow_le_pow_right (by decide) (by simp only [MIN]; omega)
      simpa using this
    simp only [Words.off_status, Words.off_level]; omega
  have h2 : x + Words.off_status ≠ x + Words.off_level := by
    simp only [Words.off_status, Words.off_level]; omega
  simp only [Words.split, Words.read, Words.write, hx, if_false, bind, Except.bind, hlev, hs,
    hy, hy0, Function.update_same, pure, Except.pure, Function.update_noteq h1,
    Function.update_noteq h2]

theorem words_roundtrip (m : Nat → Int) (x L : Nat) (hx : x ≠ 0) (hx64 : x < 2 ^ 64)
    (hlev : m (x + Words.off_level) = (L : Int)) (h1 : 1 ≤ L) (hL : L < MAX_LEVEL)
    (hal : 2 ^ (L + MIN) ∣ x) :
    ∃ y m1 m2, Words.split m x = .ok (y, m1) ∧ Words.merge m1 x y = .ok (x, m2) ∧
      y = x + 2 ^ (L + MIN - 1) ∧ x + sizeof_head ≤ y ∧
      ∀ a, ¬ (y ≤ a ∧ a < y + sizeof_head) → m2 a = m a := by
  have h7 : L < 7 := hL
  have hk : L + MIN - 1 + 1 = L + MIN := by simp only [MIN]; omega
  have hal' : 2 ^ (L + MIN - 1 + 1) ∣ x := by rw [hk]; exact hal
  have hy : x ^^^ 2 ^ (L + MIN - 1) = x + 2 ^ (L + MIN - 1) := xor_pow_of_dvd x _ hal'
  have h32 : 32 ≤ 2 ^ (L + MIN - 1) := by
    have : 2 ^ 5 ≤ 2 ^ (L + MIN - 1) :=
      Nat.pow_le_pow_right (by decide) (by simp only [MIN]; omega)
    simpa using this
  have hy0 : x + 2 ^ (L + MIN - 1) ≠ 0 := by omega
  have hsplit := words_split_exec m x L hx hlev (by simp only [MIN]; omega) hal
  have n1 : x + Words.off_level ≠ x + 2 ^ (L + MIN - 1) + Words.off_status := by
    simp only [Words.off_status, Words.off_level]; omega
  have n2 : x + Words.off_level ≠ x + 2 ^ (L + MIN - 1) + Words.off_level := by
    simp only [Words.off_level]; omega
  have hs : shl1 ((L : Int) - 1 + MIN) = .ok (2 ^ (L + MIN - 1)) := by
    rw [shl1_ok _ (by simp only [MIN]; omega) (by simp only [MIN]; omega)]
    congr 2
    simp only [MIN]; omega
  have hne : ¬ ((L : Int) - 1 = (MAX_LEVEL : Int)) := by simp only [MAX_LEVEL]; omega
  have hprim : x &&& (2 ^ 64 - 1 - 2 ^ (L + MIN - 1)) = x :=
    mask_of_dvd x _ hx64 (by simp only [MIN]; omega) hal'
  have hmerge : Words.merge
      (Function.update (Function.update (Function.update m (x + Words.off_level)
        ((L : Int) - 1)) (x + 2 ^ (L + MIN - 1) + Words.off_level) ((L : Int) - 1))
        (x + 2 ^ (L + MIN - 1) + Words.off_status) (m (x + Words.off_status)))
      x (x + 2 ^ (L + MIN - 1)) = .ok (x, fun a =>
        if x + 2 ^ (L + MIN - 1) ≤ a ∧ a < x + 2 ^ (L + MIN - 1) + sizeof_head then 0
        else Function.update (Function.update (Function.update (Function.update m
          (x + Words.off_level) ((L : Int) - 1))
          (x + 2 ^ (L + MIN - 1) + Words.off_level) ((L : Int) - 1))
          (x + 2 ^ (L + MIN - 1) + Words.off_status) (m (x + Words.off_status)))
          (x + Words.off_level) ((L : Int) - 1 + 1) a) := by
    simp only [Words.merge, Words.buddy, Words.primary, Words.read, Words.write, Words.memset0,
      hx, if_false, bind, Except.bind, Function.update_noteq n1, Function.update_noteq n2,
      Function.update_same, hne, hs, hy, pure, Except.pure, ne_eq, not_true_eq_false, hprim,
      if_true, hy0]
  refine ⟨_, _, _, hsplit, hmerge, rfl, by simp only [sizeof_head]; omega, ?_⟩
  intro a ha
  simp only [ha, if_false]
  by_cases e : a = x + Words.off_level
  · rw [e, Function.update_same, hlev]; omega
  · have e1 : a ≠ x + 2 ^ (L + MIN - 1) + Words.off_status := by
      intro h; apply ha; rw [h]; simp only [Words.off_status, sizeof_head]; omega
    have e2 : a ≠ x + 2 ^ (L + MIN - 1) + Words.off_level := by
      intro h; apply ha; rw [h]; simp only [Words.off_level, sizeof_head]; omega
    rw [Function.update_noteq e, Function.update_noteq e1, Function.update_noteq e2,
      Function.update_noteq e]

/-! ## The claims -/

/-- C1: for every request size `s` with `0 < s <= PAGE - sizeof(head)`, `level s`
returns a level `L` in `[0, MAX_LEVEL]` with `2^(L+MIN) >= s + sizeof(head)`, and
no smaller level has that property. -/
theorem level_minimal (s : Nat) (h0 : 0 < s) (h1 : s ≤ PAGE - sizeof_head) :
    ∃ L : Nat, level (s : Int) = .ok (L : Int) ∧ L ≤ MAX_LEVEL ∧
      s + sizeof_head ≤ 2 ^ (L + MIN) ∧
      ∀ L' : Nat, L' < L → 2 ^ (L' + MIN) < s + sizeof_head := by
  obtain ⟨m, hm4, hm11, hrun, hlt, hge⟩ := level_run s h0 h1
  refine ⟨m - 4, hrun, by simp only [MAX_LEVEL]; omega, ?_, ?_⟩
  · have e : m - 4 + MIN = m + 1 := by simp only [MIN]; omega
    rw [e]; simpa [sizeof_head] using hge
  · intro L' hL'
    have e : L' + MIN ≤ m := by simp only [MIN]; omega
    calc 2 ^ (L' + MIN) ≤ 2 ^ m := Nat.pow_le_pow_right (by decide) e
      _ < s + sizeof_head := by simpa [sizeof_head] using hlt

theorem level_minimal_witness :
    0 < 100 ∧ 100 ≤ PAGE - sizeof_head ∧
    ∃ L : Nat, level ((100 : Nat) : Int) = .ok (L : Int) ∧ L ≤ MAX_LEVEL ∧
      100 + sizeof_head ≤ 2 ^ (L + MIN) ∧
      ∀ L' : Nat, L' < L → 2 ^ (L' + MIN) < 100 + sizeof_head :=
  ⟨by decide, by decide, level_minimal 100 (by decide) (by decide)⟩

/-- C2: in a well-formed state, for a valid size and an answer of `mmap` that is
a fresh page whenever the search for a free block finds none, `balloc` returns
(with enough fuel for the walk along the lists) the address right after a
header `h`; afterwards `h` has level `level(size)` and status `USED`, is linked
in `flists[level(size)]`, and its capacity minus the header is at least the
size; the state is well formed again. -/
theorem balloc_returns_block (s : State) (hwf : WellFormed s) (size : Nat)
    (hv : 0 < size ∧ size ≤ PAGE - sizeof_head) (os : Option Nat) (hos : OSok s os)
    (hneed : ∀ fuel L, level (size : Int) = .ok L → findSmallestFree fuel L s = .ok 0 →
      os ≠ none) :
    ∃ N, ∀ fuel, N ≤ fuel → ∃ h s' L, level (size : Int) = .ok ((L : Nat) : Int) ∧
      balloc fuel os size s = .ok (h + sizeof_head, s') ∧
      (s'.mem h).level = (L : Int) ∧ (s'.mem h).status = STATUS_USED ∧ Linked s' L h ∧
      size ≤ 2 ^ (L + MIN) - sizeof_head ∧ WellFormed s' := by
  obtain ⟨ls, live, hinv⟩ := hwf
  obtain ⟨N, hN⟩ := lists_bound ls
  refine ⟨N, fun fuel hfuel => ?_⟩
  obtain ⟨m, hm4, hm11, hl, _, hge⟩ := level_run size hv.1 hv.2
  have hL : m - 4 ≤ MAX_LEVEL := by simp only [MAX_LEVEL]; omega
  have hL8 : m - 4 < LEVELS := by simp only [LEVELS]; omega
  have hcap : size ≤ 2 ^ (m - 4 + MIN) - sizeof_head := by
    have e : m - 4 + MIN = m + 1 := by simp only [MIN]; omega
    rw [e]
    simp only [sizeof_head]
    omega
  obtain ⟨found, hfind⟩ := find_complete hinv.rep fuel (m - 4)
    (fun i hi => lt_of_lt_of_le (hN i hi) hfuel)
  have hosf : found = 0 → ∃ p, os = some p ∧ p ≠ 0 ∧ PAGE ∣ p ∧ p + PAGE ≤ 2 ^ 64 ∧
      p ∉ s.pages := by
    intro hf
    cases os with
    | none => exact absurd rfl (hneed fuel _ hl (by rw [hfind, hf]))
    | some p => exact ⟨p, rfl, hos⟩
  obtain ⟨h, s', ls', hb, hinv', hmem, hu, _, _, _⟩ :=
    balloc_core hinv fuel os size (m - 4) found hv hl hL hfind hosf
  exact ⟨h, s', m - 4, hl, hb, hinv'.rep.level _ hL8 h hmem, hu,
    (linked_iff hinv'.rep hL8 h).mpr hmem, hcap, ⟨ls', _, hinv'⟩⟩

theorem balloc_returns_block_witness :
    ∃ N, ∀ fuel, N ≤ fuel → ∃ h s' L, level ((100 : Nat) : Int) = .ok ((L : Nat) : Int) ∧
      balloc fuel (some 8192) 100 (init zeroMem) = .ok (h + sizeof_head, s') ∧
      (s'.mem h).level = (L : Int) ∧ (s'.mem h).status = STATUS_USED ∧ Linked s' L h ∧
      100 ≤ 2 ^ (L + MIN) - sizeof_head ∧ WellFormed s' :=
  balloc_returns_block (init zeroMem) (wellFormed_init zeroMem) 100 ⟨by decide, by decide⟩
    (some 8192) ⟨by decide, by decide, by decide, by simp [init]⟩
    (fun _ _ _ _ h => by cases h)

/-- C3: in every state reachable by `balloc` and `bfree` calls, the address ranges
`[a, a + 2^(level+MIN))` of the blocks marked `USED` are pairwise disjoint and the
level stored in the header of such a block is the level of its list; and when
`balloc` then returns a pointer, its block was not a `USED` block before the
call, is a `USED` block afterwards, and its range overlaps the range of no
block that was `USED` before the call. -/
theorem balloc_no_overlap (s : State) (live : List Nat) (hr : Reach s live) :
    (∀ i j a b, UsedAt s i a → UsedAt s j b →
      (a = b ∧ i = j) ∨ a + bsize i ≤ b ∨ b + bsize j ≤ a) ∧
    (∀ i a, UsedAt s i a → (s.mem a).level = (i : Int)) ∧
    (∀ fuel os size p s', OSok s os → balloc fuel os size s = .ok (p, s') → p ≠ 0 →
      (¬ ∃ i, UsedAt s i (magic p)) ∧
      ∃ L, UsedAt s' L (magic p) ∧
        ∀ i a, UsedAt s i a → a + bsize i ≤ magic p ∨ magic p + bsize L ≤ a) := by
  obtain ⟨ls, hinv⟩ := reach_inv hr
  refine ⟨?_, ?_, ?_⟩
  · intro i j a b ha hb
    exact hinv.tiling.disjoint _ _ _ _ ((usedAt_iff hinv.rep i a).mp ha).1
      ((usedAt_iff hinv.rep j b).mp hb).1
  · intro i a ha
    have := ((usedAt_iff hinv.rep i a).mp ha).1
    exact hinv.rep.level _ this.1 a this.2
  · intro fuel os size p s' hos hrun hp
    obtain ⟨h, ls', L, rfl, hinv', hmem, hL, hu, hk, hnl, _⟩ := balloc_inv hinv hos hrun hp
    rw [magic_hide]
    have hnot : ∀ i, ¬ UsedAt s i h := by
      intro i hi
      have hi' := (usedAt_iff hinv.rep i h).mp hi
      rcases hinv.live.status _ _ hi'.1 with ⟨_, h2⟩ | ⟨h1, _⟩
      · exact hnl h2
      · rw [hi'.2] at h1; exact free_ne_used h1.symm
    refine ⟨fun ⟨i, hi⟩ => hnot i hi, L, (usedAt_iff hinv'.rep L h).mpr ⟨⟨hL, hmem⟩, hu⟩, ?_⟩
    intro i a ha
    have ha' := (usedAt_iff hinv.rep i a).mp ha
    have hk' := hk i a ha'.1 ha'.2
    rcases hinv'.tiling.disjoint _ _ _ _ hk'.1 ⟨hL, hmem⟩ with ⟨e, _⟩ | d | d
    · subst e; exact absurd ha (hnot i)
    · exact Or.inl d
    · exact Or.inr d

theorem balloc_no_overlap_witness :
    (∀ i j a b, UsedAt afterAlloc i a → UsedAt afterAlloc j b →
      (a = b ∧ i = j) ∨ a + bsize i ≤ b ∨ b + bsize j ≤ a) ∧
    (∀ i a, UsedAt afterAlloc i a → (afterAlloc.mem a).level = (i : Int)) ∧
    (∀ fuel os size p s', OSok afterAlloc os →
      balloc fuel os size afterAlloc = .ok (p, s') → p ≠ 0 →
      (¬ ∃ i, UsedAt afterAlloc i (magic p)) ∧
      ∃ L, UsedAt s' L (magic p) ∧
        ∀ i a, UsedAt afterAlloc i a → a + bsize i ≤ magic p ∨ magic p + bsize L ≤ a) :=
  balloc_no_overlap afterAlloc [12064] reach_afterAlloc

/-- C4, as stated, fails: on the empty allocator `balloc(100)` maps the page at
`8192`, and after `bfree` of the returned pointer list `7` holds that page as a
`FREE` block, which the table did not hold before the `balloc`. -/
theorem free_roundtrip_counterexample :
    Reach (init zeroMem) [] ∧
    balloc 1 (some 8192) 100 (init zeroMem) = .ok (12064, afterAlloc) ∧
    bfree 12064 afterAlloc = .ok afterFree ∧
    FreeAt afterFree 7 8192 ∧ ¬ FreeAt (init zeroMem) 7 8192 := by
  refine ⟨Reach.init zeroMem, afterAlloc_run, afterFree_run, ⟨by decide, ?_, by decide!⟩, ?_⟩
  · have hf : afterFree.flists 7 = 8192 := by decide!
    unfold Linked
    rw [hf]
    exact InList.here 8192 (by decide)
  · exact fun h => not_linked_init zeroMem 7 8192 h.2.1

/-- C4, amended: in a reachable state, `bfree` of the pointer that `balloc` just
returned succeeds and leaves the `USED` blocks as they were before the
`balloc` (same addresses, same levels); the `FREE` blocks are those of before
(same addresses, same levels) and, when `balloc` mapped a page, that page as one
more `FREE` block of level `MAX_LEVEL`.  When no page was mapped the sets of
`FREE` blocks before and after are equal. -/
theorem free_roundtrip (s : State) (live : List Nat) (hr : Reach s live) (fuel : Nat)
    (os : Option Nat) (size p : Nat) (s1 : State) (hos : OSok s os)
    (hb : balloc fuel os size s = .ok (p, s1)) (hp : p ≠ 0) :
    ∃ s2, bfree p s1 = .ok s2 ∧
      (∀ i a, FreeAt s2 i a ↔
        FreeAt s i a ∨ (i = MAX_LEVEL ∧ a ∈ s2.pages ∧ a ∉ s.pages)) ∧
      (∀ i a, UsedAt s2 i a ↔ UsedAt s i a) ∧
      (s2.pages = s.pages ∨ ∃ q, q ∉ s.pages ∧ s2.pages = q :: s.pages) ∧
      (s2.pages = s.pages → ∀ i a, FreeAt s2 i a ↔ FreeAt s i a) := by
  obtain ⟨ls, hinv⟩ := reach_inv hr
  obtain ⟨s2, ls2, hrun, hinv2, hpg, hblk, hst, hnew⟩ := roundtrip_core hinv hos hb hp
  have hfree : ∀ i a, FreeAt s2 i a ↔
      FreeAt s i a ∨ (i = MAX_LEVEL ∧ a ∈ s2.pages ∧ a ∉ s.pages) := by
    intro i a
    rw [freeAt_iff hinv2.rep, freeAt_iff hinv.rep, hblk]
    constructor
    · rintro ⟨h | h, hf⟩
      · exact Or.inl ⟨h, by rw [← hst i a h]; exact hf⟩
      · exact Or.inr h
    · rintro (⟨h, hf⟩ | ⟨h0, h1, h2⟩)
      · exact ⟨Or.inl h, by rw [hst i a h]; exact hf⟩
      · exact ⟨Or.inr ⟨h0, h1, h2⟩, hnew a h1 h2⟩
  refine ⟨s2, hrun, hfree, ?_, hpg, ?_⟩
  · intro i a
    rw [usedAt_iff hinv2.rep, usedAt_iff hinv.rep, hblk]
    constructor
    · rintro ⟨h | ⟨_, h1, h2⟩, hu⟩
      · exact ⟨h, by rw [← hst i a h]; exact hu⟩
      · rw [hnew a h1 h2] at hu; exact absurd hu free_ne_used
    · rintro ⟨h, hu⟩
      exact ⟨Or.inl h, by rw [hst i a h]; exact hu⟩
  · intro e i a
    rw [hfree, e]
    constructor
    · rintro (h | ⟨_, h1, h2⟩)
      · exact h
      · exact absurd h1 h2
    · exact Or.inl

theorem free_roundtrip_witness :
    ∃ s2, bfree 12064 afterAlloc = .ok s2 ∧
      (∀ i a, FreeAt s2 i a ↔
        FreeAt (init zeroMem) i a ∨
          (i = MAX_LEVEL ∧ a ∈ s2.pages ∧ a ∉ (init zeroMem).pages)) ∧
      (∀ i a, UsedAt s2 i a ↔ UsedAt (init zeroMem) i a) ∧
      (s2.pages = (init zeroMem).pages ∨
        ∃ q, q ∉ (init zeroMem).pages ∧ s2.pages = q :: (init zeroMem).pages) ∧
      (s2.pages = (init zeroMem).pages → ∀ i a, FreeAt s2 i a ↔ FreeAt (init zeroMem) i a) :=
  free_roundtrip (init zeroMem) [] (Reach.init zeroMem) 1 (some 8192) 100 12064 afterAlloc
    ⟨by decide, by decide, by decide, by simp [init]⟩ afterAlloc_run (by decide)

/-- C5: maximal coalescing.  After any sequence of successful `balloc` calls on
the empty allocator that are all served from one mapped page `p`, the calls of
`bfree` on every returned pointer, in any order, succeed, and afterwards
`flists[MAX_LEVEL]` holds exactly one block, the page `p` with level
`MAX_LEVEL` and status `FREE`, and `flists[L]` is empty for every
`L < MAX_LEVEL`. -/
theorem coalesce_all (s : State) (ptrs : List Nat) (hr : AllocRun s ptrs) (p : Nat)
    (hp : s.pages = [p]) (order : List Nat) (hperm : order.Perm ptrs) :
    ∃ s', FreeRun s order s' ∧
      s'.flists MAX_LEVEL = p ∧ p ≠ 0 ∧ (s'.mem p).next = 0 ∧ (s'.mem p).prev = 0 ∧
      (s'.mem p).level = (MAX_LEVEL : Int) ∧ (s'.mem p).status = STATUS_FREE ∧
      (∀ a, Linked s' MAX_LEVEL a ↔ a = p) ∧
      (∀ L, L < MAX_LEVEL → s'.flists L = 0 ∧ ∀ a, ¬ Linked s' L a) := by
  obtain ⟨s', hfr, hr', hpg⟩ := freeRun_all order s ptrs (reach_of_allocRun hr) hperm
  exact ⟨s', hfr, coalesce_reach s' hr' p (by rw [hpg, hp])⟩

theorem coalesce_all_witness :
    ∃ s', FreeRun afterAlloc [12064] s' ∧
      s'.flists MAX_LEVEL = 8192 ∧ 8192 ≠ 0 ∧ (s'.mem 8192).next = 0 ∧
      (s'.mem 8192).prev = 0 ∧
      (s'.mem 8192).level = (MAX_LEVEL : Int) ∧ (s'.mem 8192).status = STATUS_FREE ∧
      (∀ a, Linked s' MAX_LEVEL a ↔ a = 8192) ∧
      (∀ L, L < MAX_LEVEL → s'.flists L = 0 ∧ ∀ a, ¬ Linked s' L a) :=
  coalesce_all afterAlloc [12064]
    (AllocRun.step 1 (some 8192) 100 12064 afterAlloc (AllocRun.init zeroMem)
      ⟨by decide, by decide, by decide, by simp [init]⟩ afterAlloc_run (by decide))
    8192 (by decide!) [12064] (List.Perm.refl _)

/-! ## Failure paths and the buddy function -/

/-- C6: when no free block exists and `mmap` fails, `balloc` does not return
`NULL`: it passes the `NULL` that `new` returned to `addToLinkedListFront`,
which dereferences it. -/
theorem balloc_oom_null_deref (fuel size : Nat) (s : State) (L : Int)
    (hv : 0 < size ∧ size ≤ PAGE - sizeof_head) (hl : level (size : Int) = .ok L)
    (hf : findSmallestFree fuel L s = .ok 0) :
    balloc fuel none size s = .error .nullDeref := by
  have h1 : ¬ (size ≤ 0 ∨ size > PAGE - sizeof_head) := by omega
  simp only [balloc, h1, if_false, hl, hf, bind, Except.bind, new, if_true,
    addToLinkedListFront, load]

theorem balloc_oom_null_deref_witness :
    balloc 1 none 100 (init zeroMem) = .error .nullDeref :=
  balloc_oom_null_deref 1 100 (init zeroMem) 3 ⟨by decide, by decide⟩
    (value_eq _ _ (by decide!)) (value_eq _ _ (by decide!))

/-- C7: a size that is `0` or greater than `PAGE - sizeof(head)` makes `balloc`
return `NULL` in the unchanged state (no page mapped, same lists, same
headers); for a size in the valid range `balloc` never returns `NULL`. -/
theorem balloc_invalid_size (fuel : Nat) (os : Option Nat) (size : Nat) (s : State) :
    ((size = 0 ∨ PAGE - sizeof_head < size) → balloc fuel os size s = .ok (0, s)) ∧
    ((0 < size ∧ size ≤ PAGE - sizeof_head) →
      ∀ p s', balloc fuel os size s = .ok (p, s') → p ≠ 0) := by
  constructor
  · intro h
    exact balloc_reject fuel os size s h
  · intro h p s' hrun
    exact balloc_nonnull fuel os size s h p s' hrun

theorem balloc_invalid_size_witness :
    balloc 1 none 0 (init zeroMem) = .ok (0, init zeroMem) ∧
    balloc 1 none 4065 (init zeroMem) = .ok (0, init zeroMem) ∧
    ∀ p s', balloc 1 (some 8192) 100 (init zeroMem) = .ok (p, s') → p ≠ 0 :=
  ⟨(balloc_invalid_size 1 none 0 (init zeroMem)).1 (Or.inl rfl),
   (balloc_invalid_size 1 none 4065 (init zeroMem)).1 (Or.inr (by decide)),
   (balloc_invalid_size 1 (some 8192) 100 (init zeroMem)).2 ⟨by decide, by decide⟩⟩

/-- C8: `merge` asserts `buddy(a) == b` only.  It does not abort on the blocks
at `10240` (level 5) and `11264` (level 4) of `afterAlloc`, whose levels differ:
it raises the level of the first to 6 and zeroes the header of the second.  It
does not abort either when the `MAX_LEVEL` block at `8192` of `afterNew` is
passed as both arguments: it returns it with an all-zero header. -/
theorem merge_accepts_non_buddies :
    ((afterAlloc.mem 10240).level = 5 ∧ (afterAlloc.mem 11264).level = 4 ∧
      ∃ s', merge afterAlloc 10240 11264 = .ok (10240, s') ∧
        (s'.mem 10240).level = 6 ∧ s'.mem 11264 = ⟨0, 0, 0, 0⟩) ∧
    ((afterNew.mem 8192).level = (MAX_LEVEL : Int) ∧
      ∃ s', merge afterNew 8192 8192 = .ok (8192, s') ∧ s'.mem 8192 = ⟨0, 0, 0, 0⟩) := by
  refine ⟨⟨by decide!, by decide!, ?_⟩, by decide!, ?_⟩
  · have h := ok_eta (merge afterAlloc 10240 11264) (init zeroMem) (by decide!)
    have hp : ptrOf (merge afterAlloc 10240 11264) = 10240 := by decide!
    rw [hp] at h
    exact ⟨_, h, by decide!, by decide!⟩
  · have h := ok_eta (merge afterNew 8192 8192) (init zeroMem) (by decide!)
    have hp : ptrOf (merge afterNew 8192 8192) = 8192 := by decide!
    rw [hp] at h
    exact ⟨_, h, by decide!⟩

/-- C9, as stated, fails: in the reachable state `afterAlloc` the block at `8192`
is linked in `flists[6]` and has level `6 < MAX_LEVEL`, its buddy is `10240`, and
the header there has level 5, so that `buddy` of `10240` is `11264`. -/
theorem buddy_involution_counterexample :
    Reach afterAlloc [12064] ∧ Linked afterAlloc 6 8192 ∧
    (afterAlloc.mem 8192).level = 6 ∧ (6 : Int) < (MAX_LEVEL : Int) ∧
    buddy afterAlloc 8192 = .ok 10240 ∧ buddy afterAlloc 10240 = .ok 11264 ∧
    ¬ ∃ b, buddy afterAlloc 8192 = .ok b ∧ buddy afterAlloc b = .ok 8192 := by
  have h1 : buddy afterAlloc 8192 = .ok 10240 := value_eq _ _ (by decide!)
  have h2 : buddy afterAlloc 10240 = .ok 11264 := value_eq _ _ (by decide!)
  refine ⟨reach_afterAlloc, ?_, by decide!, by decide, h1, h2, ?_⟩
  · have hf : afterAlloc.flists 6 = 8192 := by decide!
    unfold Linked
    rw [hf]
    exact InList.here 8192 (by decide)
  · rintro ⟨b, hb1, hb2⟩
    rw [h1] at hb1
    cases hb1
    rw [h2] at hb2
    cases hb2

/-- C9, amended: for a block `x` of level `L < MAX_LEVEL` such that the header at
its buddy address `x ^ 2^(L+MIN)` stores the same level `L`, `buddy` of `buddy` of
`x` is `x`. -/
theorem buddy_involution (s : State) (x L : Nat) (hx : x ≠ 0)
    (hlev : (s.mem x).level = (L : Int)) (hL : L < MAX_LEVEL)
    (hb : x ^^^ 2 ^ (L + MIN) ≠ 0)
    (hsame : (s.mem (x ^^^ 2 ^ (L + MIN))).level = (L : Int)) :
    ∃ b, buddy s x = .ok b ∧ buddy s b = .ok x := by
  refine ⟨_, buddy_exec s x L hx hlev hL, ?_⟩
  rw [buddy_exec s _ L hb hsame hL, xor_pow_cancel]

theorem buddy_involution_witness :
    ∃ b, buddy afterAlloc 11776 = .ok b ∧ buddy afterAlloc b = .ok 11776 :=
  buddy_involution afterAlloc 11776 3 (by decide) (by decide!) (by decide) (by decide)
    (by decide!)

/-! ## Split and merge -/

/-- C10, as stated, fails for a block of level 0, which has the 32 bytes of
its header and nothing more.  In the memory of words the block at `8256` is
`FREE`, has level `0 < MAX_LEVEL` and is aligned to `2^(0+MIN)`; `split` returns
`8272`, an address inside the header of the block; `merge` of the two does not
abort and returns `8256`, and its `memset` of `sizeof(head)` bytes from `8272`
on reaches the header at `8288`, a header other than the two, whose status
was `USED` and is `FREE` afterwards. -/
theorem split_merge_roundtrip_counterexample :
    (wordsMem (8256 + Words.off_level) = 0 ∧ (0 : Int) < (MAX_LEVEL : Int) ∧
      wordsMem (8256 + Words.off_status) = STATUS_FREE ∧ 2 ^ (0 + MIN) ∣ 8256) ∧
    Words.split wordsMem 8256 = .ok (8272, wordsSplit) ∧ 8272 < 8256 + sizeof_head ∧
    Words.merge wordsSplit 8256 8272 = .ok (8256, wordsMerged) ∧
    (8288 ≠ 8256 ∧ 8288 ≠ 8272 ∧ wordsMem (8288 + Words.off_status) = STATUS_USED ∧
      wordsMerged (8288 + Words.off_status) = STATUS_FREE) := by
  refine ⟨⟨by decide, by decide, by decide, by decide⟩, ?_, by decide, ?_, by decide,
    by decide, by decide, by decide!⟩
  · have h := words_eta (Words.split wordsMem 8256) wordsMem (by decide!)
    have hp : addrOf (Words.split wordsMem 8256) = 8272 := by decide!
    rw [hp] at h
    exact h
  · have h := words_eta (Words.merge wordsSplit 8256 8272) wordsMem (by decide!)
    have hp : addrOf (Words.merge wordsSplit 8256 8272) = 8256 := by decide!
    rw [hp] at h
    exact h

/-- C10, amended: split/merge round trip from level 1 on.  For a block `x` with
level `1 <= L < MAX_LEVEL` whose address is below `2^64` and aligned to its
capacity `2^(L+MIN)`, `split x` returns a block `y` that starts past the header
of `x`, `merge x y` then does not abort and returns `x`, the header of `x` is
as before (level, status and links), and no header other than those at `x`
and `y` is modified; the lists and the pages are untouched.  The same holds
on the memory of words: every word outside the `sizeof(head)` bytes of the
header at `y` is as before. -/
theorem split_merge_roundtrip (s : State) (x L : Nat) (hx : x ≠ 0)
    (hx64 : x < 2 ^ 64) (hlev : (s.mem x).level = (L : Int)) (h1 : 1 ≤ L)
    (hL : L < MAX_LEVEL) (hal : 2 ^ (L + MIN) ∣ x) :
    (∃ y s1 s2, split s x = .ok (y, s1) ∧ merge s1 x y = .ok (x, s2) ∧
      (s2.mem x).level = (L : Int) ∧ (s2.mem x).status = (s.mem x).status ∧
      s2.mem x = s.mem x ∧ (∀ a, a ≠ x → a ≠ y → s2.mem a = s.mem a) ∧
      s2.flists = s.flists ∧ s2.pages = s.pages) ∧
    (∀ m : Nat → Int, m (x + Words.off_level) = (L : Int) →
      ∃ y m1 m2, Words.split m x = .ok (y, m1) ∧ Words.merge m1 x y = .ok (x, m2) ∧
        y = x + 2 ^ (L + MIN - 1) ∧ x + sizeof_head ≤ y ∧
        ∀ a, ¬ (y ≤ a ∧ a < y + sizeof_head) → m2 a = m a) :=
  ⟨split_merge_cells s x L hx hx64 hlev hL hal,
    fun m hm => words_roundtrip m x L hx hx64 hm h1 hL hal⟩

theorem split_merge_roundtrip_witness :
    (∃ y s1 s2, split (init (fun _ => ⟨1, 0, 0, 0⟩)) 64 = .ok (y, s1) ∧
      merge s1 64 y = .ok (64, s2) ∧
      (s2.mem 64).level = ((1 : Nat) : Int) ∧
      (s2.mem 64).status = ((init (fun _ => ⟨1, 0, 0, 0⟩)).mem 64).status ∧
      s2.mem 64 = (init (fun _ => ⟨1, 0, 0, 0⟩)).mem 64 ∧
      (∀ a, a ≠ 64 → a ≠ y → s2.mem a = (init (fun _ => ⟨1, 0, 0, 0⟩)).mem a) ∧
      s2.flists = (init (fun _ => ⟨1, 0, 0, 0⟩)).flists ∧
      s2.pages = (init (fun _ => ⟨1, 0, 0, 0⟩)).pages) ∧
    (∀ m : Nat → Int, m (64 + Words.off_level) = ((1 : Nat) : Int) →
      ∃ y m1 m2, Words.split m 64 = .ok (y, m1) ∧ Words.merge m1 64 y = .ok (64, m2) ∧
        y = 64 + 2 ^ (1 + MIN - 1) ∧ 64 + sizeof_head ≤ y ∧
        ∀ a, ¬ (y ≤ a ∧ a < y + sizeof_head) → m2 a = m a) :=
  split_merge_roundtrip (init (fun _ => ⟨1, 0, 0, 0⟩)) 64 1 (by decide) (by decide) rfl
    (by decide) (by decide) (by decide)

/-! ## Bulk reclamation, the example scenario and the level function -/

/-- C11: in every state reachable by `balloc` and `bfree` calls, `freeAll`
returns (with enough fuel for its loops); afterwards `flists[L]` is `NULL` for
every level `L` in `[0, MAX_LEVEL]`, the addresses handed to `munmap` are the
pages that were mapped, each of them once, no page is left mapped, and a
following `balloc` with a valid size finds no free block (`findSmallestFree`
returns `NULL`) and maps the page that `mmap` answers. -/
theorem freeAll_post (s : State) (live : List Nat) (hr : Reach s live) :
    ∃ N unmapped s', (∀ fuel, N ≤ fuel → freeAll fuel s = .ok (unmapped, s')) ∧
      (∀ L, L ≤ MAX_LEVEL → s'.flists L = 0) ∧
      unmapped.Perm s.pages ∧ unmapped.Nodup ∧ s'.pages = [] ∧
      ∀ fuel size p, 0 < size → size ≤ PAGE - sizeof_head → OSok s' (some p) →
        (∃ L, level (size : Int) = .ok L ∧ findSmallestFree fuel L s' = .ok 0) ∧
        ∃ q s'', balloc fuel (some p) size s' = .ok (q, s'') ∧ q ≠ 0 ∧ s''.pages = [p] := by
  obtain ⟨ls, hinv⟩ := reach_inv hr
  obtain ⟨N, tr, s', hperm, hp', hf', hrun⟩ := freeAll_core hinv
  refine ⟨N, tr, s', fun fuel hfuel => ?_, fun L hL => hf' L ?_, hperm,
    hperm.nodup_iff.mpr hinv.tiling.page_nodup, hp', ?_⟩
  · rcases hrun fuel with h | ⟨_, h⟩
    · exact h
    · omega
  · simp only [MAX_LEVEL] at hL; simp only [LEVELS]; omega
  · intro fuel size p h0 h1 hos
    exact balloc_after_empty hf' hp' fuel size p h0 h1 hos

theorem freeAll_post_witness :
    ∃ N unmapped s', (∀ fuel, N ≤ fuel → freeAll fuel afterAlloc = .ok (unmapped, s')) ∧
      (∀ L, L ≤ MAX_LEVEL → s'.flists L = 0) ∧
      unmapped.Perm afterAlloc.pages ∧ unmapped.Nodup ∧ s'.pages = [] ∧
      ∀ fuel size p, 0 < size → size ≤ PAGE - sizeof_head → OSok s' (some p) →
        (∃ L, level (size : Int) = .ok L ∧ findSmallestFree fuel L s' = .ok 0) ∧
        ∃ q s'', balloc fuel (some p) size s' = .ok (q, s'') ∧ q ≠ 0 ∧ s''.pages = [p] :=
  freeAll_post afterAlloc [12064] reach_afterAlloc

/-- C12: the example scenario.  `level(100)` is 3, the smallest level whose
capacity, 256, is at least 132.  On the empty allocator `balloc(100)` maps one
page (at `8192`), pushes it and splits four times (the loop of
`splitNodesForLevel` ends with fuel for four iterations and a last test, not
with less), marks the block at `12032` as `USED` and returns it.  A second `balloc(100)` returns
the block at `11776`, the buddy of the first block, a block of level 3, and
maps no page although `mmap` would answer one.  After `bfree` of both
pointers, in either order, `flists[7]` holds exactly the page, `FREE`, and
`flists[0..6]` are empty. -/
theorem example_scenario :
    (level ((100 : Nat) : Int) = .ok 3 ∧ bsize 3 = 256 ∧ 100 + sizeof_head ≤ bsize 3 ∧
      bsize 2 < 100 + sizeof_head) ∧
    (balloc 1 (some 8192) 100 (init zeroMem) = .ok (hide 12032, afterAlloc) ∧
      (init zeroMem).pages = [] ∧ afterAlloc.pages = [8192] ∧
      new (some 8192) (init zeroMem) = .ok (8192, afterNew) ∧
      addToLinkedListFront afterNew 8192 = .ok afterPush ∧
      splitNodesForLevel 3 4 8192 afterPush = .error .outOfFuel ∧
      (∃ s, splitNodesForLevel 3 5 8192 afterPush = .ok (12032, s) ∧
        setStatus s 12032 STATUS_USED = .ok afterAlloc) ∧
      (MAX_LEVEL : Int) - 3 = 4) ∧
    (buddy afterAlloc 12032 = .ok 11776 ∧ (afterAlloc.mem 11776).level = 3 ∧
      findSmallestFree 2 3 afterAlloc = .ok 11776 ∧
      balloc 2 (some 16384) 100 afterAlloc = .ok (hide 11776, afterSecond) ∧
      afterSecond.pages = afterAlloc.pages) ∧
    (∀ p q, (p = hide 12032 ∧ q = hide 11776) ∨ (p = hide 11776 ∧ q = hide 12032) →
      ∃ s1 s2, bfree p afterSecond = .ok s1 ∧ bfree q s1 = .ok s2 ∧
        s2.flists 7 = 8192 ∧ (s2.mem 8192).next = 0 ∧ (s2.mem 8192).prev = 0 ∧
        (s2.mem 8192).status = STATUS_FREE ∧ (s2.mem 8192).level = 7 ∧
        (∀ a, Linked s2 7 a ↔ a = 8192) ∧
        ∀ L, L < 7 → s2.flists L = 0 ∧ ∀ a, ¬ Linked s2 L a) := by
  refine ⟨⟨value_eq _ _ (by decide!), by decide, by decide, by decide⟩,
    ⟨afterAlloc_run, rfl, by decide!, afterPush_run.1, afterPush_run.2,
      fault_eq _ _ (by decide!), first_call_steps, by decide⟩,
    ⟨value_eq _ _ (by decide!), by decide!, value_eq _ _ (by decide!), afterSecond_run,
      by decide!⟩, ?_⟩
  have fin : ∀ p q, [p, q].Perm [11808, 12064] →
      succeeded (bfree p afterSecond) = true →
      succeeded (bfree q (endOf (bfree p afterSecond) (init zeroMem))) = true →
      (afterBoth p q).pages = [8192] →
      ∃ s1 s2, bfree p afterSecond = .ok s1 ∧ bfree q s1 = .ok s2 ∧
        s2.flists 7 = 8192 ∧ (s2.mem 8192).next = 0 ∧ (s2.mem 8192).prev = 0 ∧
        (s2.mem 8192).status = STATUS_FREE ∧ (s2.mem 8192).level = 7 ∧
        (∀ a, Linked s2 7 a ↔ a = 8192) ∧
        ∀ L, L < 7 → s2.flists L = 0 ∧ ∀ a, ¬ Linked s2 L a := by
    intro p q hpq h1 h2 hpg
    obtain ⟨e1, e2⟩ := afterBoth_run p q h1 h2
    obtain ⟨c1, _, c3, c4, c5, c6, c7, c8⟩ :=
      coalesce_reach (afterBoth p q) (reach_afterBoth p q hpq h1 h2) 8192 hpg
    exact ⟨_, _, e1, e2, c1, c3, c4, c6, c5, c7, c8⟩
  rintro p q (⟨rfl, rfl⟩ | ⟨rfl, rfl⟩)
  · exact fin _ _ (List.Perm.swap _ _ _) (by decide!) (by decide!) (by decide!)
  · exact fin _ _ (List.Perm.refl _) (by decide!) (by decide!) (by decide!)

/-- C13: `level` is monotonic on the valid sizes: for `0 < s1 <= s2 <= PAGE -
sizeof(head)` both calls return, and `level(s1) <= level(s2)`. -/
theorem level_monotone (s1 s2 : Nat) (h0 : 0 < s1) (h12 : s1 ≤ s2)
    (h2 : s2 ≤ PAGE - sizeof_head) :
    ∃ L1 L2 : Nat, level (s1 : Int) = .ok (L1 : Int) ∧ level (s2 : Int) = .ok (L2 : Int) ∧
      L1 ≤ L2 := by
  obtain ⟨m1, h14, _, hr1, hlt1, _⟩ := level_run s1 h0 (le_trans h12 h2)
  obtain ⟨m2, h24, _, hr2, _, hge2⟩ := level_run s2 (lt_of_lt_of_le h0 h12) h2
  refine ⟨m1 - 4, m2 - 4, hr1, hr2, ?_⟩
  have hlt : 2 ^ m1 < 2 ^ (m2 + 1) := by omega
  have := (Nat.pow_lt_pow_iff_right (by decide : 1 < 2)).mp hlt
  omega

theorem level_monotone_witness :
    ∃ L1 L2 : Nat, level ((100 : Nat) : Int) = .ok (L1 : Int) ∧
      level ((1000 : Nat) : Int) = .ok (L2 : Int) ∧ L1 ≤ L2 :=
  level_monotone 100 1000 (by decide) (by decide) (by decide)

/-! ## The search, the split and the lists -/

/-- C14: `findSmallestFree(m)` is first fit by ascending level.  On a table of
well-formed lists `ls` whose nodes are `FREE` or `USED`, and with fuel for the
longest list, it returns a node `r` that is `NULL` or not `USED`.  If a list
`i` with `m <= i <= MAX_LEVEL` holds a `FREE` node, `r` is the first `FREE` node
of the smallest such `i`: the nodes before `r` in that list are not `FREE` and
no list from `m` up to `i` holds a `FREE` node.  If no list in `[m, MAX_LEVEL]`
holds a `FREE` node, `r` is `NULL`.  The function only reads: it returns no
state. -/
theorem findSmallestFree_first_fit (s : State) (ls : Nat → List Nat) (hr : Rep s ls)
    (htv : ∀ i a, Blk ls i a →
      (s.mem a).status = STATUS_FREE ∨ (s.mem a).status = STATUS_USED)
    (fuel : Nat) (hfuel : ∀ i, i < LEVELS → (ls i).length < fuel) (m : Nat) :
    ∃ r, findSmallestFree fuel (m : Int) s = .ok r ∧
      (r = 0 ∨ (s.mem r).status ≠ STATUS_USED) ∧
      ((∃ i a, m ≤ i ∧ i ≤ MAX_LEVEL ∧ a ∈ ls i ∧ (s.mem a).status = STATUS_FREE) →
        ∃ i pre post, m ≤ i ∧ i ≤ MAX_LEVEL ∧ ls i = pre ++ r :: post ∧
          (s.mem r).status = STATUS_FREE ∧
          (∀ a ∈ pre, (s.mem a).status ≠ STATUS_FREE) ∧
          ∀ j a, m ≤ j → j < i → a ∈ ls j → (s.mem a).status ≠ STATUS_FREE) ∧
      ((∀ i a, m ≤ i → i ≤ MAX_LEVEL → a ∈ ls i → (s.mem a).status ≠ STATUS_FREE) →
        r = 0) := by
  have hle : ∀ i, i ≤ MAX_LEVEL ↔ i < LEVELS := by
    intro i; simp only [MAX_LEVEL, LEVELS]; omega
  obtain ⟨r, hrun, hP⟩ := find_first hr htv fuel hfuel m
  refine ⟨r, hrun, find_never_used fuel _ s r hrun, ?_, ?_⟩
  · rintro ⟨i, a, hmi, hi, ha, hf⟩
    rcases hP with ⟨_, hall⟩ | ⟨i', pre, post, h1, h2, h3, h4, h5, h6⟩
    · exact absurd hf (hall i a hmi ((hle i).mp hi) ha)
    · exact ⟨i', pre, post, h1, (hle i').mpr h2, h3, h4, h5, h6⟩
  · intro hall
    rcases hP with ⟨h0, _⟩ | ⟨i', pre, post, h1, h2, h3, h4, _, _⟩
    · exact h0
    · exact absurd h4 (hall i' r h1 ((hle i').mpr h2) (by rw [h3]; simp))

theorem findSmallestFree_first_fit_witness :
    ∃ r, findSmallestFree 3 ((3 : Nat) : Int) afterAlloc = .ok r ∧
      (r = 0 ∨ (afterAlloc.mem r).status ≠ STATUS_USED) ∧
      ((∃ i a, 3 ≤ i ∧ i ≤ MAX_LEVEL ∧ a ∈ afterAllocLists i ∧
          (afterAlloc.mem a).status = STATUS_FREE) →
        ∃ i pre post, 3 ≤ i ∧ i ≤ MAX_LEVEL ∧ afterAllocLists i = pre ++ r :: post ∧
          (afterAlloc.mem r).status = STATUS_FREE ∧
          (∀ a ∈ pre, (afterAlloc.mem a).status ≠ STATUS_FREE) ∧
          ∀ j a, 3 ≤ j → j < i → a ∈ afterAllocLists j →
            (afterAlloc.mem a).status ≠ STATUS_FREE) ∧
      ((∀ i a, 3 ≤ i → i ≤ MAX_LEVEL → a ∈ afterAllocLists i →
          (afterAlloc.mem a).status ≠ STATUS_FREE) → r = 0) :=
  findSmallestFree_first_fit afterAlloc afterAllocLists rep_afterAlloc tv_afterAlloc 3
    (by decide) 3

/-- C15: for a block `b` of level `L >= 1` whose address is a multiple of
`2^(L+MIN)`, `split b` returns `b + 2^(L+MIN-1)`; afterwards the header at `b`
has level `L - 1` and the status and links it had, the header at the returned
address has level `L - 1` and the status of `b`, and no other header, no list
head and no page changed. -/
theorem split_halves (s : State) (b L : Nat) (hb : b ≠ 0)
    (hlev : (s.mem b).level = (L : Int)) (h1 : 1 ≤ L) (hL : L + MIN < 32)
    (hal : 2 ^ (L + MIN) ∣ b) :
    ∃ s', split s b = .ok (b + 2 ^ (L + MIN - 1), s') ∧
      (s'.mem b).level = ((L - 1 : Nat) : Int) ∧ (s'.mem b).status = (s.mem b).status ∧
      (s'.mem b).next = (s.mem b).next ∧ (s'.mem b).prev = (s.mem b).prev ∧
      (s'.mem (b + 2 ^ (L + MIN - 1))).level = ((L - 1 : Nat) : Int) ∧
      (s'.mem (b + 2 ^ (L + MIN - 1))).status = (s.mem b).status ∧
      (∀ x, x ≠ b → x ≠ b + 2 ^ (L + MIN - 1) → s'.mem x = s.mem x) ∧
      s'.flists = s.flists ∧ s'.pages = s.pages :=
  split_aligned s b L hb hlev h1 hL hal

theorem split_halves_witness :
    ∃ s', split afterNew 8192 = .ok (8192 + 2 ^ (7 + MIN - 1), s') ∧
      (s'.mem 8192).level = ((7 - 1 : Nat) : Int) ∧
      (s'.mem 8192).status = (afterNew.mem 8192).status ∧
      (s'.mem 8192).next = (afterNew.mem 8192).next ∧
      (s'.mem 8192).prev = (afterNew.mem 8192).prev ∧
      (s'.mem (8192 + 2 ^ (7 + MIN - 1))).level = ((7 - 1 : Nat) : Int) ∧
      (s'.mem (8192 + 2 ^ (7 + MIN - 1))).status = (afterNew.mem 8192).status ∧
      (∀ x, x ≠ 8192 → x ≠ 8192 + 2 ^ (7 + MIN - 1) → s'.mem x = afterNew.mem x) ∧
      s'.flists = afterNew.flists ∧ s'.pages = afterNew.pages :=
  split_halves afterNew 8192 7 (by decide) (by decide!) (by decide) (by decide) (by decide)

/-- C16: the alignment invariant.  In every state reachable by `balloc` and
`bfree` calls (the pages that `mmap` answers being aligned to `PAGE`), every
header linked in a list of the table has a level in `[0, MAX_LEVEL]` and an
address that is a multiple of `2^(level+MIN)`.  The functions that make and
change blocks keep it, in any state: `new` on a page aligned to `PAGE`; `split`
on an aligned block of level at least 1, for both halves; `merge` on an
aligned block below `MAX_LEVEL` and its buddy of the same level, for the
merged block.  The other headers are not touched. -/
theorem alignment_invariant (s : State) (live : List Nat) (hr : Reach s live) :
    (∀ i a, i < LEVELS → Linked s i a → AlignedAt s a) ∧
    (∀ (t : State) (p : Nat), p ≠ 0 → PAGE ∣ p →
      ∃ t', new (some p) t = .ok (p, t') ∧ AlignedAt t' p ∧
        ∀ x, x ≠ p → t'.mem x = t.mem x) ∧
    (∀ (t : State) (b : Nat), b ≠ 0 → AlignedAt t b → 1 ≤ (t.mem b).level →
      ∃ r t', split t b = .ok (r, t') ∧ AlignedAt t' b ∧ AlignedAt t' r ∧
        ∀ x, x ≠ b → x ≠ r → t'.mem x = t.mem x) ∧
    (∀ (t : State) (a b : Nat), a ≠ 0 → b ≠ 0 → a < 2 ^ 64 → AlignedAt t a →
      (t.mem a).level < MAX_LEVEL → (t.mem b).level = (t.mem a).level →
      buddy t a = .ok b →
      ∃ q t', merge t a b = .ok (q, t') ∧ AlignedAt t' q ∧ (q = a ∨ q = b) ∧
        (t'.mem q).level = (t.mem a).level + 1 ∧
        ∀ x, x ≠ a → x ≠ b → t'.mem x = t.mem x) := by
  obtain ⟨ls, hinv⟩ := reach_inv hr
  exact ⟨fun i a hi h => linked_aligned hinv hi h, new_aligned, split_keeps_aligned,
    merge_keeps_aligned⟩

theorem alignment_invariant_witness :
    (∀ i a, i < LEVELS → Linked afterAlloc i a → AlignedAt afterAlloc a) ∧
    (∀ (t : State) (p : Nat), p ≠ 0 → PAGE ∣ p →
      ∃ t', new (some p) t = .ok (p, t') ∧ AlignedAt t' p ∧
        ∀ x, x ≠ p → t'.mem x = t.mem x) ∧
    (∀ (t : State) (b : Nat), b ≠ 0 → AlignedAt t b → 1 ≤ (t.mem b).level →
      ∃ r t', split t b = .ok (r, t') ∧ AlignedAt t' b ∧ AlignedAt t' r ∧
        ∀ x, x ≠ b → x ≠ r → t'.mem x = t.mem x) ∧
    (∀ (t : State) (a b : Nat), a ≠ 0 → b ≠ 0 → a < 2 ^ 64 → AlignedAt t a →
      (t.mem a).level < MAX_LEVEL → (t.mem b).level = (t.mem a).level →
      buddy t a = .ok b →
      ∃ q t', merge t a b = .ok (q, t') ∧ AlignedAt t' q ∧ (q = a ∨ q = b) ∧
        (t'.mem q).level = (t.mem a).level + 1 ∧
        ∀ x, x ≠ a → x ≠ b → t'.mem x = t.mem x) :=
  alignment_invariant afterAlloc [12064] reach_afterAlloc

/-- C17: demand-driven growth.  In a reachable state, for a valid size: when
`findSmallestFree(level(size))` returns a block, `balloc` returns and maps no
page, whatever `mmap` would answer; when it returns `NULL` and `mmap` answers
the page `p`, `new` makes `p` a `FREE` block of level `MAX_LEVEL` with null
links, `addToLinkedListFront` then makes it the head of `flists[MAX_LEVEL]`
(its `prev` is `NULL`, its `next` the former head), the rest of `balloc` is the
split loop run from that state, and `balloc` returns with exactly the page `p`
mapped in addition. -/
theorem balloc_growth (s : State) (live : List Nat) (hr : Reach s live) (fuel : Nat)
    (os : Option Nat) (size : Nat) (hv : 0 < size ∧ size ≤ PAGE - sizeof_head)
    (hos : OSok s os) (L : Int) (found : Nat) (hl : level (size : Int) = .ok L)
    (hfind : findSmallestFree fuel L s = .ok found) :
    (found ≠ 0 → ∃ q s', balloc fuel os size s = .ok (q, s') ∧ s'.pages = s.pages) ∧
    (found = 0 → ∀ p, os = some p →
      ∃ s0 s1 q s', new os s = .ok (p, s0) ∧
        s0.mem p = ⟨(MAX_LEVEL : Nat), STATUS_FREE, 0, 0⟩ ∧
        s0.flists = s.flists ∧ s0.pages = p :: s.pages ∧ p ∉ s.pages ∧
        addToLinkedListFront s0 p = .ok s1 ∧ s1.flists MAX_LEVEL = p ∧
        (s1.mem p).level = (MAX_LEVEL : Int) ∧ (s1.mem p).status = STATUS_FREE ∧
        (s1.mem p).prev = 0 ∧ (s1.mem p).next = s.flists MAX_LEVEL ∧
        balloc fuel os size s = (splitNodesForLevel L 32 p s1 >>= fun g =>
          setStatus g.2 g.1 STATUS_USED >>= fun s3 => pure (hide g.1, s3)) ∧
        balloc fuel os size s = .ok (q, s') ∧ s'.pages = p :: s.pages) := by
  obtain ⟨ls, hinv⟩ := reach_inv hr
  obtain ⟨Ln, hLn, hl'⟩ := level_ok size hv.1 hv.2
  have eL : L = (Ln : Int) := by
    rw [hl] at hl'
    cases hl'
    rfl
  subst eL
  constructor
  · intro hne
    obtain ⟨h, s', _, hrun, _, _, _, _, _, hpg⟩ :=
      balloc_core hinv fuel os size Ln found hv hl hLn hfind (fun e => absurd e hne)
    rcases hpg with ⟨_, hpg⟩ | ⟨e, _⟩
    · exact ⟨_, s', hrun, hpg⟩
    · exact absurd e hne
  · intro h0 p hp
    subst hp
    subst h0
    obtain ⟨hp0, hpa, hp64, hpn⟩ := hos
    obtain ⟨h, s', _, hrun, _, _, _, _, _, hpg⟩ :=
      balloc_core hinv fuel (some p) size Ln 0 hv hl hLn hfind
        (fun _ => ⟨p, rfl, hp0, hpa, hp64, hpn⟩)
    obtain ⟨s0, s1, hnew, hm0, hf0, hpg0, hadd, a1, a2, a3, a4, a5⟩ :=
      push_newpage hinv hp0 hpa hpn
    have hnv : ¬ (size ≤ 0 ∨ size > PAGE - sizeof_head) := by omega
    refine ⟨s0, s1, _, s', hnew, hm0, hf0, hpg0, hpn, hadd, a1, a2, a3, a4, a5, ?_, hrun, ?_⟩
    · simp only [balloc, hnv, if_false, hl, hfind, bind, Except.bind, if_true, hnew, hadd,
        pure, Except.pure]
    · rcases hpg with ⟨e, _⟩ | ⟨_, q, hq, hpg⟩
      · exact absurd rfl e
      · cases hq
        exact hpg

theorem balloc_growth_witness :
    (0 ≠ 0 → ∃ q s', balloc 1 (some 8192) 100 (init zeroMem) = .ok (q, s') ∧
      s'.pages = (init zeroMem).pages) ∧
    ((0 : Nat) = 0 → ∀ p, some 8192 = some p →
      ∃ s0 s1 q s', new (some 8192) (init zeroMem) = .ok (p, s0) ∧
        s0.mem p = ⟨(MAX_LEVEL : Nat), STATUS_FREE, 0, 0⟩ ∧
        s0.flists = (init zeroMem).flists ∧ s0.pages = p :: (init zeroMem).pages ∧
        p ∉ (init zeroMem).pages ∧
        addToLinkedListFront s0 p = .ok s1 ∧ s1.flists MAX_LEVEL = p ∧
        (s1.mem p).level = (MAX_LEVEL : Int) ∧ (s1.mem p).status = STATUS_FREE ∧
        (s1.mem p).prev = 0 ∧ (s1.mem p).next = (init zeroMem).flists MAX_LEVEL ∧
        balloc 1 (some 8192) 100 (init zeroMem) =
          (splitNodesForLevel 3 32 p s1 >>= fun g =>
            setStatus g.2 g.1 STATUS_USED >>= fun s3 => pure (hide g.1, s3)) ∧
        balloc 1 (some 8192) 100 (init zeroMem) = .ok (q, s') ∧
        s'.pages = p :: (init zeroMem).pages) :=
  balloc_growth (init zeroMem) [] (Reach.init zeroMem) 1 (some 8192) 100
    ⟨by decide, by decide⟩ ⟨by decide, by decide, by decide, by simp [init]⟩ 3 0
    (value_eq _ _ (by decide!)) (value_eq _ _ (by decide!))

/-- C18: for a node `n` of the list `i` of a table of well-formed lists `ls`,
`deleteFromLinkedList(n)` returns; list `i` is then the list of before with
`n` taken out, the other nodes in their order, and every other list is the
list of before; if `n` was the head, `flists[i]` is the former `next` of `n`,
otherwise it is unchanged; the other heads of `flists` are unchanged; `n.next`
and `n.prev` are `NULL`; the level and the status of every header and the
pages are unchanged. -/
theorem delete_unlinks (s : State) (ls : Nat → List Nat) (hr : Rep s ls) (i n : Nat)
    (hi : i < LEVELS) (hn : n ∈ ls i) :
    ∃ s' pre post, deleteFromLinkedList s n = .ok s' ∧ ls i = pre ++ n :: post ∧
      n ∉ pre ∧ n ∉ post ∧ Rep s' (Function.update ls i (pre ++ post)) ∧
      (s.flists i = n ↔ pre = []) ∧
      (pre = [] → s'.flists i = (s.mem n).next) ∧ (pre ≠ [] → s'.flists i = s.flists i) ∧
      (∀ j, j ≠ i → s'.flists j = s.flists j) ∧
      (s'.mem n).next = 0 ∧ (s'.mem n).prev = 0 ∧
      (∀ x, (s'.mem x).level = (s.mem x).level ∧ (s'.mem x).status = (s.mem x).status) ∧
      s'.pages = s.pages :=
  delete_core hr hi hn

theorem delete_unlinks_witness :
    ∃ s' pre post, deleteFromLinkedList afterAlloc 11776 = .ok s' ∧
      afterAllocLists 3 = pre ++ 11776 :: post ∧
      11776 ∉ pre ∧ 11776 ∉ post ∧
      Rep s' (Function.update afterAllocLists 3 (pre ++ post)) ∧
      (afterAlloc.flists 3 = 11776 ↔ pre = []) ∧
      (pre = [] → s'.flists 3 = (afterAlloc.mem 11776).next) ∧
      (pre ≠ [] → s'.flists 3 = afterAlloc.flists 3) ∧
      (∀ j, j ≠ 3 → s'.flists j = afterAlloc.flists j) ∧
      (s'.mem 11776).next = 0 ∧ (s'.mem 11776).prev = 0 ∧
      (∀ x, (s'.mem x).level = (afterAlloc.mem x).level ∧
        (s'.mem x).status = (afterAlloc.mem x).status) ∧
      s'.pages = afterAlloc.pages :=
  delete_unlinks afterAlloc afterAllocLists rep_afterAlloc 3 11776 (by decide) (by decide)

/-- C19: the free-list membership invariant.  In every state reachable by
completed `balloc` and `bfree` calls there are lists `ls` such that each
`flists[i]` is the well-formed doubly linked list `ls i` without repeated
nodes, the nodes linked in `flists[i]` being the members of `ls i`: the head has
`prev == NULL`, and `n.next.prev == n` for every linked `n` with a successor,
which is linked too.  Every node of `flists[i]` has level `i`; no node is in two
lists; and every byte of every mapped page lies in exactly one block of the
table, which is linked in exactly one list. -/
theorem list_membership (s : State) (live : List Nat) (hr : Reach s live) :
    ∃ ls : Nat → List Nat,
      (∀ i, i < LEVELS → Chain s.mem 0 (s.flists i) (ls i) ∧ (ls i).Nodup ∧
        ∀ a, a ∈ ls i ↔ Linked s i a) ∧
      (∀ i, i < LEVELS → s.flists i ≠ 0 → (s.mem (s.flists i)).prev = 0) ∧
      (∀ i n, i < LEVELS → Linked s i n → (s.mem n).next ≠ 0 →
        (s.mem (s.mem n).next).prev = n ∧ Linked s i (s.mem n).next) ∧
      (∀ i n, i < LEVELS → Linked s i n → (s.mem n).level = (i : Int)) ∧
      (∀ i j n, i < LEVELS → j < LEVELS → Linked s i n → Linked s j n → i = j) ∧
      (∀ p ∈ s.pages, ∀ x, p ≤ x → x < p + PAGE →
        ∃ i a, i < LEVELS ∧ Linked s i a ∧ a ≤ x ∧ x < a + bsize i ∧
          ∀ j b, j < LEVELS → Linked s j b → b ≤ x → x < b + bsize j → j = i ∧ b = a) := by
  obtain ⟨ls, hinv⟩ := reach_inv hr
  have hrep := hinv.rep
  refine ⟨ls, ?_, ?_, ?_, ?_, ?_, ?_⟩
  · intro i hi
    exact ⟨hrep.chain i hi, hrep.nodup i hi, fun a => (linked_iff hrep hi a).symm⟩
  · intro i hi h0
    have hc := hrep.chain i hi
    cases hl : ls i with
    | nil =>
      rw [hl] at hc
      exact absurd (by simpa only [Chain] using hc) h0
    | cons a l =>
      rw [hl] at hc
      obtain ⟨e, _, hp, _⟩ := hc
      rw [e]; exact hp
  · intro i n hi hlk hnext
    have hm := (linked_iff hrep hi n).mp hlk
    obtain ⟨h1, h2⟩ := chain_next_prev (hrep.chain i hi) hm hnext
    exact ⟨h1, (linked_iff hrep hi _).mpr h2⟩
  · intro i n hi hlk
    exact hrep.level i hi n ((linked_iff hrep hi n).mp hlk)
  · intro i j n hi hj h1 h2
    by_contra hne
    exact rep_level_ne hrep hi hj ((linked_iff hrep hi n).mp h1)
      ((linked_iff hrep hj n).mp h2) hne rfl
  · intro p hp x h1 h2
    obtain ⟨i, a, hb, ha1, ha2⟩ := hinv.tiling.cover p hp x h1 h2
    refine ⟨i, a, hb.1, (linked_iff hrep hb.1 a).mpr hb.2, ha1, ha2, ?_⟩
    intro j b hj hlk hb1 hb2
    have hbb : Blk ls j b := ⟨hj, (linked_iff hrep hj b).mp hlk⟩
    rcases hinv.tiling.disjoint i j a b hb hbb with ⟨e1, e2⟩ | h | h
    · exact ⟨e2.symm, e1.symm⟩
    · omega
    · omega

theorem list_membership_witness :
    ∃ ls : Nat → List Nat,
      (∀ i, i < LEVELS → Chain afterAlloc.mem 0 (afterAlloc.flists i) (ls i) ∧
        (ls i).Nodup ∧ ∀ a, a ∈ ls i ↔ Linked afterAlloc i a) ∧
      (∀ i, i < LEVELS → afterAlloc.flists i ≠ 0 →
        (afterAlloc.mem (afterAlloc.flists i)).prev = 0) ∧
      (∀ i n, i < LEVELS → Linked afterAlloc i n → (afterAlloc.mem n).next ≠ 0 →
        (afterAlloc.mem (afterAlloc.mem n).next).prev = n ∧
          Linked afterAlloc i (afterAlloc.mem n).next) ∧
      (∀ i n, i < LEVELS → Linked afterAlloc i n → (afterAlloc.mem n).level = (i : Int)) ∧
      (∀ i j n, i < LEVELS → j < LEVELS → Linked afterAlloc i n → Linked afterAlloc j n →
        i = j) ∧
      (∀ p ∈ afterAlloc.pages, ∀ x, p ≤ x → x < p + PAGE →
        ∃ i a, i < LEVELS ∧ Linked afterAlloc i a ∧ a ≤ x ∧ x < a + bsize i ∧
          ∀ j b, j < LEVELS → Linked afterAlloc j b → b ≤ x → x < b + bsize j →
            j = i ∧ b = a) :=
  list_membership afterAlloc [12064] reach_afterAlloc

/-- C20: in every state reachable by `balloc` and `bfree` calls, `freeAll`
terminates: with enough fuel for its loops it returns, and whatever the fuel
it ends in no fault but, at most, the lack of fuel, so that neither assertion
fails.  The first assertion holds because, once the levels up to `L < MAX_LEVEL`
hold no `USED` node, their lists are empty; the second because the last loop
empties `flists[MAX_LEVEL]`. -/
theorem freeAll_terminates (s : State) (live : List Nat) (hr : Reach s live) :
    (∃ N unmapped s', s'.flists MAX_LEVEL = 0 ∧
      (∀ fuel, N ≤ fuel → freeAll fuel s = .ok (unmapped, s')) ∧
      ∀ fuel, freeAll fuel s = .ok (unmapped, s') ∨ freeAll fuel s = .error .outOfFuel) ∧
    (∀ fuel, freeAll fuel s ≠ .error .assertFail) ∧
    (∀ L, L < MAX_LEVEL → (∀ j a, j ≤ L → ¬ UsedAt s j a) → ∀ j, j ≤ L → s.flists j = 0) := by
  obtain ⟨ls, hinv⟩ := reach_inv hr
  obtain ⟨N, tr, s', _, _, hf', hrun⟩ := freeAll_core hinv
  refine ⟨⟨N, tr, s', hf' _ (by decide), fun fuel hfuel => ?_, fun fuel => ?_⟩,
    fun fuel => ?_, ?_⟩
  · rcases hrun fuel with h | ⟨_, h⟩
    · exact h
    · omega
  · rcases hrun fuel with h | ⟨h, _⟩
    · exact Or.inl h
    · exact Or.inr h
  · rcases hrun fuel with h | ⟨h, _⟩
    · rw [h]; exact fun e => by cases e
    · rw [h]; exact fun e => by cases e
  · intro L hL hno j hj
    have hj8 : j < LEVELS := by
      simp only [MAX_LEVEL] at hL; simp only [LEVELS]; omega
    have hlow : ∀ i a, i < L + 1 → Blk ls i a → stOf s a ≠ STATUS_USED := by
      intro i a hi hb hu
      exact hno i a (by omega) ((usedAt_iff hinv.rep i a).mpr ⟨hb, hu⟩)
    have hemp := low_empty hinv.tiling hinv.nfp (live_two_valued hinv.live)
      (by omega : L + 1 ≤ MAX_LEVEL) hlow
    have hnil : ls j = [] := nil_of_no_blk hj8 (fun a => hemp j a (by omega))
    have hc := hinv.rep.chain j hj8
    rw [hnil] at hc
    simpa only [Chain] using hc

theorem freeAll_terminates_witness :
    (∃ N unmapped s', s'.flists MAX_LEVEL = 0 ∧
      (∀ fuel, N ≤ fuel → freeAll fuel afterAlloc = .ok (unmapped, s')) ∧
      ∀ fuel, freeAll fuel afterAlloc = .ok (unmapped, s') ∨
        freeAll fuel afterAlloc = .error .outOfFuel) ∧
    (∀ fuel, freeAll fuel afterAlloc ≠ .error .assertFail) ∧
    (∀ L, L < MAX_LEVEL → (∀ j a, j ≤ L → ¬ UsedAt afterAlloc j a) →
      ∀ j, j ≤ L → afterAlloc.flists j = 0) :=
  freeAll_terminates afterAlloc [12064] reach_afterAlloc

end Buddy
